import Mathlib

/-! # PLY-Point-Picker: the OBJ to PLY converter and the PLY viewer's picking core

A shallow embedding of `src/OBJ_to_PLY.cpp` and of the non-rendering parts of
`src/PLY_Mesh_GUI.cpp`, followed by theorems about them.

Text is a `List Char`; a `std::istringstream` is the list of characters that
are still unread together with its fail bit.
-/

namespace PlyPicker

/-! ## Character streams -/

/-- The `std::isspace` test of the classic locale: space, `\t`, `\n`, `\v`,
`\f` and `\r`. -/
def isSpace (c : Char) : Bool :=
  c.toNat = 32 || (9 ≤ c.toNat && c.toNat ≤ 13)

/-- The decimal digit test `std::isdigit`. -/
def isDigit (c : Char) : Bool :=
  48 ≤ c.toNat && c.toNat ≤ 57

/-- The value of a decimal digit character. -/
def digitVal (c : Char) : Nat :=
  c.toNat - 48

/-- What the stream sentry does first: skip leading white space. -/
def skipWs : List Char → List Char
  | [] => []
  | c :: cs => if isSpace c then skipWs cs else c :: cs

/-- The characters up to the next white space, and what follows them. -/
def spanWord : List Char → List Char × List Char
  | [] => ([], [])
  | c :: cs => if isSpace c then ([], c :: cs) else ((spanWord cs).1.cons c, (spanWord cs).2)

/-- Model of `stream >> token` for a `std::string` token: white space is
skipped, then the characters up to the next white space are extracted.
`none` is the failed extraction (nothing but white space was left). -/
def extractWord (s : List Char) : Option (List Char × List Char) :=
  match skipWs s with
  | [] => none
  | c :: cs => some (spanWord (c :: cs))

/-- Model of `std::getline(tokenStream, indexStr, '/')` on a fresh stream over
`tok`: the characters before the first `/`. -/
def getlineSlash : List Char → List Char
  | [] => []
  | c :: cs => if c = '/' then [] else c :: getlineSlash cs

/-! ## `std::stoi` -/

/-- How the converter can stop without writing a model: the two exceptions
of `std::stoi`, which `main` never catches, and the signed overflow of
`std::stoi(indexStr) - 1`, whose behaviour C++ leaves undefined. -/
inductive Abort where
  | invalidArgument
  | outOfRange
  | signedOverflow
  deriving DecidableEq, Repr

deriving instance DecidableEq for Except

/-- Smallest value of a 32-bit `int`. -/
def INT_MIN : Int := -2147483648

/-- Largest value of a 32-bit `int`. -/
def INT_MAX : Int := 2147483647

/-- The leading run of decimal digits of a text, read as a number (most
significant digit first), with the accumulator `acc`. -/
def readDigits : Nat → List Char → Nat
  | acc, [] => acc
  | acc, c :: cs => if isDigit c then readDigits (10 * acc + digitVal c) cs else acc

/-- The digits part of `std::stoi`: at least one digit is required. -/
def stoiDigits (neg : Bool) : List Char → Except Abort Int
  | [] => .error .invalidArgument
  | c :: cs =>
    if isDigit c then
      let n : Int := readDigits 0 (c :: cs)
      let v : Int := if neg then -n else n
      if INT_MIN ≤ v ∧ v ≤ INT_MAX then .ok v else .error .outOfRange
    else .error .invalidArgument

/-- Model of `std::stoi(str)` (base 10, no position output): leading white
space is skipped, one optional sign is read, then the longest run of digits;
what follows the digits is ignored.  No digit at all throws
`std::invalid_argument`; a value that does not fit `int` throws
`std::out_of_range`. -/
def stoi (str : List Char) : Except Abort Int :=
  match skipWs str with
  | [] => .error .invalidArgument
  | c :: cs =>
    if c = '-' then stoiDigits true cs
    else if c = '+' then stoiDigits false cs
    else stoiDigits false (c :: cs)

/-- One `int` subtraction `a - 1`; overflowing `int` is undefined behaviour
and is reported as such. -/
def intPred (a : Int) : Except Abort Int :=
  if INT_MIN ≤ a - 1 then .ok (a - 1) else .error .signedOverflow

/-! ## IEEE 754 binary floating point

`float` is binary32 and `double` is binary64, computed with round to nearest,
ties to even.  A finite value is a sign and a magnitude counted in units of
the smallest positive subnormal number of its format (`2^-149` for `float`,
`2^-1074` for `double`), so that every finite value is an integer number of
units and arithmetic is exact integer arithmetic followed by one rounding. -/

/-- A binary interchange format: the precision in bits and the largest
exponent.  -/
structure Fmt where
  prec : Nat
  emax : Nat
  deriving DecidableEq, Repr

/-- The format of C++ `float`. -/
def binary32 : Fmt := ⟨24, 127⟩

/-- The format of C++ `double`. -/
def binary64 : Fmt := ⟨53, 1023⟩

/-- The unit of a format is `2 ^ -uexp`. -/
def Fmt.uexp (f : Fmt) : Nat := f.emax + f.prec - 2

/-- The largest finite magnitude of a format, in units. -/
def Fmt.maxMag (f : Fmt) : Nat := (2 ^ f.prec - 1) * 2 ^ (2 * f.emax - 1)

/-- A floating-point datum of format `f`: a NaN, an infinity, or a finite
number `(-1)^neg * mag * 2 ^ -f.uexp` (with both zeros). -/
inductive Flt (f : Fmt) where
  | nan
  | inf (neg : Bool)
  | fin (neg : Bool) (mag : Nat)
  deriving DecidableEq, Repr

/-- The C++ type `float`. -/
abbrev F32 := Flt binary32

/-- The C++ type `double`. -/
abbrev F64 := Flt binary64

/-- Number of binary digits of `n`, with `fuel` halvings allowed. -/
def bitLenAux : Nat → Nat → Nat
  | 0, _ => 0
  | fuel + 1, n => if n = 0 then 0 else bitLenAux fuel (n / 2) + 1

/-- Number of binary digits of `n` (0 for 0). -/
def bitLen (n : Nat) : Nat := bitLenAux n n

/-- Round the non-negative rational `num / den` (counted in units) to the
nearest magnitude with at most `f.prec` significant bits, ties to the even
significand; the exponent is not bounded above here. -/
def roundMag (f : Fmt) (num den : Nat) : Nat :=
  let s := bitLen (num / den) - f.prec
  let d := den * 2 ^ s
  let m := num / d
  let r := num % d
  (if d < 2 * r ∨ (2 * r = d ∧ m % 2 = 1) then m + 1 else m) * 2 ^ s

/-- Round `(-1)^neg * num / den` units to the format: nearest-even, and an
infinity when the rounded magnitude exceeds the largest finite one. -/
def Flt.round (f : Fmt) (neg : Bool) (num den : Nat) : Flt f :=
  if f.maxMag < roundMag f num den then .inf neg else .fin neg (roundMag f num den)

/-- The value of format `f` nearest to the rational `(-1)^neg * num / den`:
how a decimal literal such as `0.05f` (`num = 5`, `den = 100`) is read. -/
def Flt.ofRatio (f : Fmt) (neg : Bool) (num den : Nat) : Flt f :=
  Flt.round f neg (num * 2 ^ f.uexp) den

/-- The signed number of units of a finite value. -/
def sval (neg : Bool) (mag : Nat) : Int :=
  if neg then -(mag : Int) else (mag : Int)

/-- Unary minus. -/
def Flt.neg {f : Fmt} : Flt f → Flt f
  | .nan => .nan
  | .inf s => .inf (!s)
  | .fin s m => .fin (!s) m

/-- Floating-point addition. -/
def Flt.add {f : Fmt} : Flt f → Flt f → Flt f
  | .nan, _ => .nan
  | _, .nan => .nan
  | .inf a, .inf b => if a = b then .inf a else .nan
  | .inf a, .fin _ _ => .inf a
  | .fin _ _, .inf b => .inf b
  | .fin a x, .fin b y =>
    let s : Int := sval a x + sval b y
    if s = 0 then .fin (a && b) 0 else Flt.round f (decide (s < 0)) s.natAbs 1

/-- Floating-point subtraction. -/
def Flt.sub {f : Fmt} (a b : Flt f) : Flt f :=
  Flt.add a (Flt.neg b)

/-- Floating-point multiplication. -/
def Flt.mul {f : Fmt} : Flt f → Flt f → Flt f
  | .nan, _ => .nan
  | _, .nan => .nan
  | .inf a, .inf b => .inf (xor a b)
  | .inf a, .fin b y => if y = 0 then .nan else .inf (xor a b)
  | .fin a x, .inf b => if x = 0 then .nan else .inf (xor a b)
  | .fin a x, .fin b y => Flt.round f (xor a b) (x * y) (2 ^ f.uexp)

/-- Integer square root of `n < 4 ^ k`, one result bit per step. -/
def isqrtBits : Nat → Nat → Nat
  | 0, _ => 0
  | k + 1, n =>
    let r := 2 * isqrtBits k (n / 4)
    if (r + 1) * (r + 1) ≤ n then r + 1 else r

/-- Integer square root (the floor of the real square root). -/
def isqrt (n : Nat) : Nat := isqrtBits (bitLen n) n

/-- Correctly rounded square root (`std::sqrt`).  With `n = mag * 2 ^ uexp`
the exact root is `√n` units; when `n` is no square the root lies strictly
between two neighbouring multiples of one half, and the odd multiple of one
quarter between them is rounded instead, which rounds to the same value. -/
def Flt.sqrt {f : Fmt} : Flt f → Flt f
  | .nan => .nan
  | .inf s => if s then .nan else .inf false
  | .fin s m =>
    if m = 0 then .fin s 0
    else if s then .nan
    else
      let n := 4 * (m * 2 ^ f.uexp)
      let r := isqrt n
      if r * r = n then Flt.round f false r 2 else Flt.round f false (2 * r + 1) 4

/-- The comparison `a < b` of C++: false whenever an operand is a NaN, and
the two zeros are equal. -/
def Flt.lt {f : Fmt} : Flt f → Flt f → Bool
  | .nan, _ => false
  | _, .nan => false
  | .inf a, .inf b => a && !b
  | .inf a, .fin _ _ => a
  | .fin _ _, .inf b => !b
  | .fin a x, .fin b y => decide (sval a x < sval b y)

/-- The comparison `a <= b` of C++: false whenever an operand is a NaN. -/
def Flt.le {f : Fmt} : Flt f → Flt f → Bool
  | .nan, _ => false
  | _, .nan => false
  | .inf a, .inf b => a || !b
  | .inf a, .fin _ _ => a
  | .fin _ _, .inf b => !b
  | .fin a x, .fin b y => decide (sval a x ≤ sval b y)

/-- The test `std::isnan`. -/
def Flt.isNaN {f : Fmt} : Flt f → Bool
  | .nan => true
  | _ => false

/-- The test `std::isfinite`. -/
def Flt.isFinite {f : Fmt} : Flt f → Bool
  | .fin _ _ => true
  | _ => false

/-- Conversion between formats (`float` to `double` is exact, `double` to
`float` rounds). -/
def Flt.cast {f : Fmt} (g : Fmt) : Flt f → Flt g
  | .nan => .nan
  | .inf s => .inf s
  | .fin s m => Flt.round g s (m * 2 ^ g.uexp) (2 ^ f.uexp)

/-! ## Reading a `float` from a stream

`stream >> x` for a `float x` is the `num_get` facet of the standard
library.  The model follows the GNU implementation: the longest text of the
shape `[sign] digits [. digits] [e [sign] digits]` is taken from the stream
and handed to `strtof`, which must use all of it. -/

/-- What the scanner of `num_get` has accumulated. -/
structure Scan where
  /-- a leading `-` was read -/
  neg : Bool := false
  /-- the digits of the significand, read as one integer -/
  mant : Nat := 0
  /-- at least one digit of the significand was read -/
  hasMant : Bool := false
  /-- how many digits of the significand follow the decimal point -/
  frac : Nat := 0
  /-- the decimal point was read -/
  dec : Bool := false
  /-- the letter `e` or `E` was read -/
  sci : Bool := false
  /-- the exponent has a `-` sign -/
  eneg : Bool := false
  /-- the digits of the exponent, read as one integer -/
  exp : Nat := 0
  /-- at least one exponent digit was read -/
  hasExp : Bool := false
  deriving DecidableEq, Repr

/-- The accumulation loop of the scanner; `afterE` says that the previous
character was the exponent letter, where one sign is accepted.  Returns the
final state and the unread characters. -/
def scanLoop : Scan → Bool → List Char → Scan × List Char
  | st, _, [] => (st, [])
  | st, afterE, c :: cs =>
    if afterE && (c = '+' || c = '-') then
      scanLoop { st with eneg := decide (c = '-') } false cs
    else if isDigit c then
      if st.sci then
        scanLoop { st with exp := 10 * st.exp + digitVal c, hasExp := true } false cs
      else
        scanLoop { st with mant := 10 * st.mant + digitVal c, hasMant := true,
                           frac := if st.dec then st.frac + 1 else st.frac } false cs
    else if c = '.' && !st.dec && !st.sci then
      scanLoop { st with dec := true } false cs
    else if (c = 'e' || c = 'E') && !st.sci && st.hasMant then
      scanLoop { st with sci := true } true cs
    else (st, c :: cs)

/-- The scanner: one optional sign, then the accumulation loop. -/
def scanFloat : List Char → Scan × List Char
  | [] => ({}, [])
  | c :: cs =>
    if c = '+' then scanLoop {} false cs
    else if c = '-' then scanLoop { neg := true } false cs
    else scanLoop {} false (c :: cs)

/-- The conversion of the accumulated text by `strtof` and the checks made on
its result: the stored value and whether the extraction succeeded.  A text
without significand digits, or with an exponent letter and no exponent
digits, stores `0` and fails; an overflow stores the largest finite value of
the right sign and fails. -/
def convertScan (st : Scan) : F32 × Bool :=
  if !st.hasMant || (st.sci && !st.hasExp) then (.fin false 0, false)
  else
    let num := st.mant * (if st.eneg then 1 else 10 ^ st.exp)
    let den := 10 ^ st.frac * (if st.eneg then 10 ^ st.exp else 1)
    match Flt.ofRatio binary32 st.neg num den with
    | .fin s m => (.fin s m, true)
    | _ => (.fin st.neg binary32.maxMag, false)

/-- A `std::istream` in the middle of a read: the unread characters and the
fail bit. -/
structure IStream where
  buf : List Char
  fail : Bool
  deriving DecidableEq, Repr

/-- Model of `s >> x` for a `float x` holding `old`: the new stream and the
new content of `x`.  On a stream that has failed, or has only white space
left, nothing is stored and the stream fails. -/
def extractFloat (s : IStream) (old : F32) : IStream × F32 :=
  if s.fail then (s, old)
  else
    match skipWs s.buf with
    | [] => ({ buf := [], fail := true }, old)
    | c :: cs =>
      let r := scanFloat (c :: cs)
      ({ buf := r.2, fail := !(convertScan r.1).2 }, (convertScan r.1).1)

/-! ## The mesh model and the OBJ reader of `OBJ_to_PLY.cpp` -/

/-- The `struct Vec3` of both programs. -/
structure Vec3 where
  x : F32
  y : F32
  z : F32
  deriving DecidableEq, Repr

/-- The `struct Face`: `vertexIndices` is a `std::vector<int>`. -/
structure Face where
  vertexIndices : List Int
  deriving DecidableEq, Repr

/-- The two vectors `vertices` and `faces` that `main` fills. -/
structure Mesh where
  vertices : List Vec3
  faces : List Face
  deriving DecidableEq, Repr

/-- Model of `iss >> vertex.x >> vertex.y >> vertex.z` for a `Vec3 vertex`
that holds `vertex` before (it is declared without an initialiser, so that
is whatever the memory held). -/
def readVec3 (s : IStream) (vertex : Vec3) : IStream × Vec3 :=
  let rx := extractFloat s vertex.x
  let ry := extractFloat rx.1 vertex.y
  let rz := extractFloat ry.1 vertex.z
  (rz.1, { x := rx.2, y := ry.2, z := rz.2 })

/-- The loop `while (iss >> token) { ... }` of the `f` branch, entered with
the unread rest `buf` of the line and the indices `face` pushed so far.
Every round takes at least one character, so `fuel = buf.length` rounds are
always enough (`faceLoop_fuel`); with no fuel left the buffer is empty and
the loop is over. -/
def faceLoop : Nat → List Char → List Int → Except Abort (List Int)
  | 0, _, face => .ok face
  | fuel + 1, buf, face =>
    match extractWord buf with
    | none => .ok face
    | some (token, rest) =>
      match stoi (getlineSlash token) with
      | .error e => .error e
      | .ok n =>
        match intPred n with
        | .error e => .error e
        | .ok vertexIndex => faceLoop fuel rest (face ++ [vertexIndex])

/-- The body of `while (std::getline(objFile, line))`: what one line does to
the two vectors.  `junk` is the content of the uninitialised `Vec3 vertex`. -/
def processLine (junk : Vec3) (m : Mesh) (line : List Char) : Except Abort Mesh :=
  match extractWord line with
  | none => .ok m
  | some (pre, rest) =>
    if pre = ['v'] then
      .ok { m with vertices := m.vertices ++ [(readVec3 ⟨rest, false⟩ junk).2] }
    else if pre = ['f'] then
      match faceLoop rest.length rest [] with
      | .error e => .error e
      | .ok face => .ok { m with faces := m.faces ++ [⟨face⟩] }
    else .ok m

/-- The reading loop of `main` over the lines that `std::getline` delivers,
from the vectors in `m`; an exception ends the program. -/
def readLines (junk : Vec3) : Mesh → List (List Char) → Except Abort Mesh
  | m, [] => .ok m
  | m, line :: rest =>
    match processLine junk m line with
    | .error e => .error e
    | .ok m' => readLines junk m' rest

/-- The first half of `main`: both vectors start empty. -/
def parseObj (junk : Vec3) (lines : List (List Char)) : Except Abort Mesh :=
  readLines junk ⟨[], []⟩ lines

/-! ## Writing numbers, and the PLY writer of `OBJ_to_PLY.cpp` -/

/-- The character of a decimal digit. -/
def digitChar (d : Nat) : Char :=
  Char.ofNat (48 + d)

/-- The decimal digits of `n` put in front of `acc`, with `fuel` digits
allowed. -/
def printNatAux : Nat → Nat → List Char → List Char
  | 0, _, acc => acc
  | fuel + 1, n, acc =>
    if n < 10 then digitChar n :: acc
    else printNatAux fuel (n / 10) (digitChar (n % 10) :: acc)

/-- Model of `stream << n` for an unsigned integer such as
`vertices.size()`: the decimal digits, no leading zero. -/
def printNat (n : Nat) : List Char :=
  printNatAux (n + 1) n []

/-- Model of `stream << idx` for an `int`: a minus sign for a negative value,
then the digits. -/
def printInt (z : Int) : List Char :=
  if z < 0 then '-' :: printNat z.natAbs else printNat z.natAbs

/-- A digit text without its trailing zeros. -/
def stripZeros (ds : List Char) : List Char :=
  (ds.reverse.dropWhile (fun c => c = '0')).reverse

/-- The non-negative rational `num / den` rounded to the nearest integer,
ties to even. -/
def roundHalfEven (num den : Nat) : Nat :=
  if den < 2 * (num % den) ∨ (2 * (num % den) = den ∧ (num / den) % 2 = 1) then num / den + 1
  else num / den

/-- The six significant decimal digits of the positive value
`mag * 2^-149`, as a number in `[10^5, 10^6)`, and the decimal exponent of
the first of them: what `printf("%.5e")` would show. -/
def sixDigits (mag : Nat) : Nat × Int :=
  let lead := (printNat (mag * 10 ^ 45 / 2 ^ 149)).length
  let d := if lead ≤ 51 then roundHalfEven (mag * 10 ^ (51 - lead)) (2 ^ 149)
           else roundHalfEven mag (2 ^ 149 * 10 ^ (lead - 51))
  if d = 10 ^ 6 then (10 ^ 5, (lead : Int) - 45) else (d, (lead : Int) - 46)

/-- The text of a positive finite `float` under `%g` with precision 6:
fixed notation when the decimal exponent is in `[-4, 6)`, scientific
notation otherwise, trailing zeros removed. -/
def fmtPos (mag : Nat) : List Char :=
  let ds := printNat (sixDigits mag).1
  let x := (sixDigits mag).2
  if 0 ≤ x ∧ x < 6 then
    let frac := stripZeros (ds.drop (x.toNat + 1))
    ds.take (x.toNat + 1) ++ (if frac = [] then [] else '.' :: frac)
  else if -4 ≤ x ∧ x < 0 then
    '0' :: '.' :: (List.replicate ((-x).toNat - 1) '0' ++ stripZeros ds)
  else
    let frac := stripZeros (ds.drop 1)
    let e := printNat x.natAbs
    ds.take 1 ++ (if frac = [] then [] else '.' :: frac) ++
      ('e' :: (if x < 0 then '-' else '+') :: (if e.length < 2 then '0' :: e else e))

/-- Model of `stream << x` for a `float` on a stream in its default state:
the value is printed like `printf("%g")`, six significant digits. -/
def fmtFloat : F32 → List Char
  | .nan => ['n', 'a', 'n']
  | .inf s => (if s then ['-'] else []) ++ ['i', 'n', 'f']
  | .fin s m => (if s then ['-'] else []) ++ (if m = 0 then ['0'] else fmtPos m)

/-- The loop `for (const auto& v : vertices)` of the writer. -/
def writeVertices : List Vec3 → List Char
  | [] => []
  | v :: vs =>
    fmtFloat v.x ++ [' '] ++ fmtFloat v.y ++ [' '] ++ fmtFloat v.z ++ ['\n'] ++ writeVertices vs

/-- The inner loop `for (int idx : f.vertexIndices)`. -/
def writeIndices : List Int → List Char
  | [] => []
  | idx :: rest => [' '] ++ printInt idx ++ writeIndices rest

/-- The loop `for (const auto& f : faces)` of the writer. -/
def writeFaces : List Face → List Char
  | [] => []
  | f :: fs =>
    printNat f.vertexIndices.length ++ writeIndices f.vertexIndices ++ ['\n'] ++ writeFaces fs

/-- The second half of `main`: everything written to the PLY file. -/
def writePly (m : Mesh) : List Char :=
  "ply\n".toList ++
  "format ascii 1.0\n".toList ++
  "element vertex ".toList ++ printNat m.vertices.length ++ "\n".toList ++
  "property float x\n".toList ++
  "property float y\n".toList ++
  "property float z\n".toList ++
  "element face ".toList ++ printNat m.faces.length ++ "\n".toList ++
  "property list uchar int vertex_indices\n".toList ++
  "end_header\n".toList ++
  writeVertices m.vertices ++
  writeFaces m.faces

/-- The whole of `main` on an input file that could be opened and an output
file that could be created: the text of the PLY file, or the way the program
died. -/
def convert (junk : Vec3) (lines : List (List Char)) : Except Abort (List Char) :=
  match parseObj junk lines with
  | .error e => .error e
  | .ok m => .ok (writePly m)

/-! ## The PLY reader `loadPLY` of `PLY_Mesh_GUI.cpp` -/

/-- The body of the header loop for one line: the new `vertexCount`, and
whether the loop is left by `break`.  `line.substr(15)` throws
`std::out_of_range` when the line has fewer than 15 characters. -/
def headerLine (line : List Char) (vertexCount : Int) : Except Abort (Int × Bool) :=
  if line.take 14 = "element vertex".toList then
    if line.length < 15 then .error .outOfRange
    else
      match stoi (line.drop 15) with
      | .error e => .error e
      | .ok n => .ok (n, false)
  else if line = "end_header".toList then .ok (vertexCount, true)
  else .ok (vertexCount, false)

/-- The loop `while (std::getline(file, line))` of `loadPLY`, character by
character: `cur` is the part of the current line read so far.  Returns
`vertexCount` and the state of the file stream when the loop is left: after
`break` the stream stands behind the line `end_header`; when the file ends
first, the last `getline` has failed and the fail bit is set. -/
def headerLoop (cur : List Char) (vertexCount : Int) :
    List Char → Except Abort (Int × IStream)
  | [] =>
    if cur = [] then .ok (vertexCount, ⟨[], true⟩)
    else
      match headerLine cur vertexCount with
      | .error e => .error e
      | .ok (n, stop) => .ok (n, ⟨[], !stop⟩)
  | c :: cs =>
    if c = '\n' then
      match headerLine cur vertexCount with
      | .error e => .error e
      | .ok (n, stop) => if stop then .ok (n, ⟨cs, false⟩) else headerLoop [] n cs
    else headerLoop (cur ++ [c]) vertexCount cs

/-- The loop `for (int i = 0; i < vertexCount; ++i)` with `count` rounds to
go: each round extracts three floats into a fresh, uninitialised `Vec3 v`
(holding `junk`) and pushes it, whatever the state of the stream. -/
def readVertices (junk : Vec3) : Nat → IStream → List Vec3 → List Vec3
  | 0, _, vertices => vertices
  | count + 1, s, vertices =>
    readVertices junk count (readVec3 s junk).1 (vertices ++ [(readVec3 s junk).2])

/-- Model of `loadPLY` on a file with the content `file`, entered with the
global vector `vertices`: the vector afterwards. -/
def loadPLY (junk : Vec3) (file : List Char) (vertices : List Vec3) :
    Except Abort (List Vec3) :=
  match headerLoop [] 0 file with
  | .error e => .error e
  | .ok (vertexCount, s) => .ok (readVertices junk vertexCount.toNat s vertices)

/-! ## The viewer `PLY_Mesh_GUI.cpp`: picking, selection and camera

`glm::vec3` is three `float`s; the GLM operations used by the viewer are
component-wise, `glm::dot` adds the three products from left to right and
`glm::length` is the square root of the dot product of a vector with itself. -/

/-- The type `glm::vec3`. -/
structure vec3 where
  x : F32
  y : F32
  z : F32
  deriving DecidableEq, Repr

/-- The difference `a - b` of two `glm::vec3`. -/
def vec3.sub (a b : vec3) : vec3 :=
  ⟨Flt.sub a.x b.x, Flt.sub a.y b.y, Flt.sub a.z b.z⟩

/-- The sum `a + b` of two `glm::vec3`. -/
def vec3.add (a b : vec3) : vec3 :=
  ⟨Flt.add a.x b.x, Flt.add a.y b.y, Flt.add a.z b.z⟩

/-- The product `t * v` of a `float` and a `glm::vec3`. -/
def vec3.smul (t : F32) (v : vec3) : vec3 :=
  ⟨Flt.mul t v.x, Flt.mul t v.y, Flt.mul t v.z⟩

/-- The function `glm::dot` on `glm::vec3`. -/
def dot (a b : vec3) : F32 :=
  Flt.add (Flt.add (Flt.mul a.x b.x) (Flt.mul a.y b.y)) (Flt.mul a.z b.z)

/-- The function `glm::length` on `glm::vec3`. -/
def length (v : vec3) : F32 :=
  Flt.sqrt (dot v v)

/-- The body of the loop of `pickNearestVertex` up to the comparison: the
distance `dist` computed for the vertex `v`. -/
def vertexDist (rayOrigin rayDirection : vec3) (v : Vec3) : F32 :=
  let vertex : vec3 := ⟨v.x, v.y, v.z⟩
  let toVertex := vec3.sub vertex rayOrigin
  let t := dot toVertex rayDirection
  let projected := vec3.add rayOrigin (vec3.smul t rayDirection)
  length (vec3.sub projected vertex)

/-- The loop of `pickNearestVertex` over the vertices not yet visited, with
the counter `i` and the two locals `pickedIndex` and `minDist`.  The counter
is an `int`; it is counted in `ℤ` here, which is what the program does for a
vector of at most `INT_MAX` elements. -/
def pickLoop (rayOrigin rayDirection : vec3) :
    List Vec3 → Int → Int → F32 → Int
  | [], _, pickedIndex, _ => pickedIndex
  | v :: rest, i, pickedIndex, minDist =>
    if Flt.lt (vertexDist rayOrigin rayDirection v) minDist then
      pickLoop rayOrigin rayDirection rest (i + 1) i (vertexDist rayOrigin rayDirection v)
    else pickLoop rayOrigin rayDirection rest (i + 1) pickedIndex minDist

/-- Model of `pickNearestVertex(rayOrigin, rayDirection, maxDist)` over the
global vector `vertices`. -/
def pickNearestVertex (vertices : List Vec3) (rayOrigin rayDirection : vec3)
    (maxDist : F32) : Int :=
  pickLoop rayOrigin rayDirection vertices 0 (-1) maxDist

/-- The default `maxDist = 0.05f`. -/
def defaultMaxDist : F32 := Flt.ofRatio binary32 false 5 100

/-- The distance computed in `mouse_button_callback` between two selected
points. -/
def pointDistance (p1 p2 : Vec3) : F32 :=
  let dx := Flt.sub p1.x p2.x
  let dy := Flt.sub p1.y p2.y
  let dz := Flt.sub p1.z p2.z
  Flt.sqrt (Flt.add (Flt.add (Flt.mul dx dx) (Flt.mul dy dy)) (Flt.mul dz dz))

/-- The global state of the viewer that the callbacks read and write. -/
structure App where
  yaw : F32
  pitch : F32
  zoom : F32
  rightMousePressed : Bool
  lastX : F64
  lastY : F64
  vertices : List Vec3
  selectedIndices : List Int
  deriving DecidableEq, Repr

/-- The state when the callbacks are installed: the initialisers of the
globals, and the vertices that `loadPLY` will deliver. -/
def App.init (vertices : List Vec3) : App :=
  { yaw := .fin false 0, pitch := .fin false 0, zoom := Flt.ofRatio binary32 false 3 1,
    rightMousePressed := false, lastX := .fin false 0, lastY := .fin false 0,
    vertices := vertices, selectedIndices := [] }

/-- The element `vertices[i]` for an `int` index; `none` outside the vector,
where the program has no defined behaviour. -/
def vertexAt (vertices : List Vec3) (i : Int) : Option Vec3 :=
  if 0 ≤ i then vertices[i.toNat]? else none

/-- The block under `if (selectedIndices.size() == 2)`: the distance between
`vertices[selectedIndices[0]]` and `vertices[selectedIndices[1]]` that is
printed; `none` when a looked-up index is outside the vector. -/
def measuredDistance (vertices : List Vec3) (selectedIndices : List Int) : Option F32 :=
  match vertexAt vertices (selectedIndices.getD 0 0),
      vertexAt vertices (selectedIndices.getD 1 0) with
  | some p1, some p2 => some (pointDistance p1 p2)
  | _, _ => none

/-- The `selectedIndices` after `push_back(idx)` and the `erase` of the
oldest entry when there are more than two. -/
def pushIndex (selectedIndices : List Int) (idx : Int) : List Int :=
  if 2 < (selectedIndices ++ [idx]).length then (selectedIndices ++ [idx]).drop 1
  else selectedIndices ++ [idx]

/-- The statements of `mouse_button_callback` under `if (idx != -1)`: the new
`selectedIndices`, and the distance that is printed when exactly two indices
are selected (`none` when nothing is printed). -/
def selectVertex (vertices : List Vec3) (selectedIndices : List Int) (idx : Int) :
    List Int × Option F32 :=
  (pushIndex selectedIndices idx,
   if (pushIndex selectedIndices idx).length = 2
   then measuredDistance vertices (pushIndex selectedIndices idx) else none)

/-- The constant `GLFW_MOUSE_BUTTON_LEFT`. -/
def GLFW_MOUSE_BUTTON_LEFT : Int := 0

/-- The constant `GLFW_MOUSE_BUTTON_RIGHT`. -/
def GLFW_MOUSE_BUTTON_RIGHT : Int := 1

/-- The constant `GLFW_PRESS`. -/
def GLFW_PRESS : Int := 1

/-- The constant `GLFW_RELEASE`. -/
def GLFW_RELEASE : Int := 0

/-- Model of `mouse_button_callback`.  What the callback obtains from outside
is passed in: the cursor position read with `glfwGetCursorPos`, the ray that
`getRayFromMouse` computes from the matrices of the render loop, and the
global `cameraPos`.  Returns the new state and the distance printed, if
any. -/
def mouse_button_callback (a : App) (button action : Int) (xpos ypos : F64)
    (ray cameraPos : vec3) : App × Option F32 :=
  if button = GLFW_MOUSE_BUTTON_LEFT ∧ action = GLFW_PRESS then
    let idx := pickNearestVertex a.vertices cameraPos ray defaultMaxDist
    if idx ≠ -1 then
      ({ a with selectedIndices := (selectVertex a.vertices a.selectedIndices idx).1 },
       (selectVertex a.vertices a.selectedIndices idx).2)
    else (a, none)
  else if button = GLFW_MOUSE_BUTTON_RIGHT then
    if action = GLFW_PRESS then
      ({ a with rightMousePressed := true, lastX := xpos, lastY := ypos }, none)
    else if action = GLFW_RELEASE then ({ a with rightMousePressed := false }, none)
    else (a, none)
  else (a, none)

/-- The literal `0.3f`. -/
def c0_3 : F32 := Flt.ofRatio binary32 false 3 10

/-- The literal `89.0f`. -/
def c89 : F32 := Flt.ofRatio binary32 false 89 1

/-- The literal `0.2f`. -/
def c0_2 : F32 := Flt.ofRatio binary32 false 2 10

/-- The literal `0.1f`. -/
def c0_1 : F32 := Flt.ofRatio binary32 false 1 10

/-- The literal `10.0f`. -/
def c10 : F32 := Flt.ofRatio binary32 false 10 1

/-- Model of `cursor_position_callback`: `xpos - lastX` is a `double`
subtraction converted to `float`, the rest is `float` arithmetic. -/
def cursor_position_callback (a : App) (xpos ypos : F64) : App :=
  if a.rightMousePressed then
    let dx : F32 := Flt.cast binary32 (Flt.sub xpos a.lastX)
    let dy : F32 := Flt.cast binary32 (Flt.sub ypos a.lastY)
    let yaw := Flt.add a.yaw (Flt.mul dx c0_3)
    let pitch := Flt.add a.pitch (Flt.mul dy c0_3)
    let pitch := if Flt.lt c89 pitch then c89 else pitch
    let pitch := if Flt.lt pitch (Flt.neg c89) then Flt.neg c89 else pitch
    { a with yaw := yaw, pitch := pitch, lastX := xpos, lastY := ypos }
  else a

/-- Model of `scroll_callback`: in `zoom -= yoffset * 0.2f` both operands
are promoted to `double` and the difference is converted back to `float`. -/
def scroll_callback (a : App) (_xoffset yoffset : F64) : App :=
  let zoom : F32 :=
    Flt.cast binary32 (Flt.sub (Flt.cast binary64 a.zoom) (Flt.mul yoffset (Flt.cast binary64 c0_2)))
  let zoom := if Flt.lt zoom c0_1 then c0_1 else zoom
  let zoom := if Flt.lt c10 zoom then c10 else zoom
  { a with zoom := zoom }

/-- An input event, with everything the callback receives or fetches. -/
inductive Event where
  | cursorPos (xpos ypos : F64)
  | scroll (xoffset yoffset : F64)
  | mouseButton (button action : Int) (xpos ypos : F64) (ray cameraPos : vec3)
  deriving DecidableEq, Repr

/-- The callback that GLFW runs for an event. -/
def step (a : App) : Event → App
  | .cursorPos xpos ypos => cursor_position_callback a xpos ypos
  | .scroll xoffset yoffset => scroll_callback a xoffset yoffset
  | .mouseButton button action xpos ypos ray cameraPos =>
    (mouse_button_callback a button action xpos ypos ray cameraPos).1

/-- The state after a sequence of events, processed one at a time. -/
def run (a : App) : List Event → App
  | [] => a
  | e :: es => run (step a e) es

/-! ## The words of the specification, and proof-side reformulations -/

/-- The whitespace-separated fields of a text, in order: the text is cut at
every white-space character and the empty pieces are dropped. -/
def specFields (s : List Char) : List (List Char) :=
  (s.splitOnP isSpace).filter (fun w => !w.isEmpty)

/-- The sub-field of a field that stands before its first `/`. -/
def specFirstSub (field : List Char) : List Char :=
  field.takeWhile (fun c => c != '/')

/-- The number written by a text that consists of one or more decimal
digits. -/
def specNat (ds : List Char) : Option Nat :=
  if ds ≠ [] ∧ ds.all isDigit = true then some (Nat.ofDigits 10 (ds.reverse.map digitVal))
  else none

/-- The integer written by a text: an optional sign and one or more decimal
digits, and nothing else. -/
def specInt : List Char → Option Int
  | [] => none
  | c :: cs =>
    if c = '-' then (specNat cs).map (fun (n : Nat) => -(n : Int))
    else if c = '+' then (specNat cs).map (fun (n : Nat) => (n : Int))
    else (specNat (c :: cs)).map (fun (n : Nat) => (n : Int))

/-- The index that one field of an `f` line contributes, as the loop body
computes it. -/
def fieldIndex (token : List Char) : Except Abort Int :=
  match stoi (getlineSlash token) with
  | .error e => .error e
  | .ok n => intPred n

/-- The face loop over a list of fields. -/
def foldFields : List (List Char) → List Int → Except Abort (List Int)
  | [], face => .ok face
  | t :: ts, face =>
    match fieldIndex t with
    | .error e => .error e
    | .ok i => foldFields ts (face ++ [i])


/-- The first whitespace-delimited token of a line, if it has one. -/
def specFirstToken (line : List Char) : Option (List Char) :=
  (specFields line).head?

/-- A line is a vertex or a face record: its first token is `v` or `f`. -/
def specIsRecord (line : List Char) : Bool :=
  specFirstToken line = some ['v'] || specFirstToken line = some ['f']

/-- Three zero coordinates, used as the content of uninitialised memory in
the evaluated examples. -/
def zeroVec : Vec3 := ⟨.fin false 0, .fin false 0, .fin false 0⟩

/-- The `float` with the value of the natural number `n`. -/
def F32.ofNat (n : Nat) : F32 := Flt.ofRatio binary32 false n 1

/-- The decimal numeral of `n`: its base-10 digits, most significant first,
and `0` for zero. -/
def specDecimal (n : Nat) : List Char :=
  if n = 0 then ['0'] else (Nat.digits 10 n).reverse.map digitChar

/-- The characters that can occur in a printed number. -/
def isNumChar (c : Char) : Bool :=
  isDigit c || c = '-' || c = '+' || c = '.' || c = 'e' || c = 'n' || c = 'a' || c = 'i' ||
    c = 'f'

/-- The nine header lines for `n` vertices and `k` faces. -/
def specHeader (n k : Nat) : List (List Char) :=
  ["ply".toList, "format ascii 1.0".toList, "element vertex ".toList ++ specDecimal n,
   "property float x".toList, "property float y".toList, "property float z".toList,
   "element face ".toList ++ specDecimal k, "property list uchar int vertex_indices".toList,
   "end_header".toList]

/-- The line of a vertex: its three coordinates, separated by one space. -/
def specVertexLine (v : Vec3) : List Char :=
  [' '].intercalate [fmtFloat v.x, fmtFloat v.y, fmtFloat v.z]

/-- The line of a face: its index count, then its indices, separated by one
space. -/
def specFaceLine (f : Face) : List Char :=
  [' '].intercalate (specDecimal f.vertexIndices.length :: f.vertexIndices.map printInt)

/-- All lines of the PLY text of a model. -/
def specLines (m : Mesh) : List (List Char) :=
  specHeader m.vertices.length m.faces.length ++ m.vertices.map specVertexLine ++
    m.faces.map specFaceLine

/-- Lines put one after the other, each closed by a line feed. -/
def unlines (ls : List (List Char)) : List Char :=
  ls.flatMap (fun l => l ++ ['\n'])

/-- The ray origin `(0, 0, 5)` of the two picking examples. -/
def exOrigin : vec3 := ⟨F32.ofNat 0, F32.ofNat 0, F32.ofNat 5⟩

/-- The ray direction `(0, 0, -1)` of the two picking examples. -/
def exDirection : vec3 := ⟨F32.ofNat 0, F32.ofNat 0, Flt.ofRatio binary32 true 1 1⟩

/-- The vertices `[(0, 0, 0), (0, 0, 0.01)]` of the first picking example. -/
def exOnRay : List Vec3 :=
  [⟨F32.ofNat 0, F32.ofNat 0, F32.ofNat 0⟩,
   ⟨F32.ofNat 0, F32.ofNat 0, Flt.ofRatio binary32 false 1 100⟩]

/-- The vertices `[(1, 1, 1)]` of the second picking example. -/
def exOffRay : List Vec3 := [⟨F32.ofNat 1, F32.ofNat 1, F32.ofNat 1⟩]

/-- The ray direction `(0.6, 0.8, 0)`. -/
def exSkew : vec3 := ⟨Flt.ofRatio binary32 false 6 10, Flt.ofRatio binary32 false 8 10, F32.ofNat 0⟩

/-- The vertices `[(3e38, 3e38, 0), (0, 0, 5)]`: finite `float`s, the first
so far out that its distance to the ray overflows, the second on the ray. -/
def exFar : List Vec3 :=
  [⟨F32.ofNat (3 * 10 ^ 38), F32.ofNat (3 * 10 ^ 38), F32.ofNat 0⟩,
   ⟨F32.ofNat 0, F32.ofNat 0, F32.ofNat 5⟩]

/-- The last two entries of a list, in order (the whole list when it has
fewer than two). -/
def specLastTwo (l : List Int) : List Int :=
  (l.reverse.take 2).reverse

/-- The index an event picks: the result of `pickNearestVertex` for a press
of the left button when it is not `-1`. -/
def specPick (vertices : List Vec3) : Event → Option Int
  | .mouseButton button action _ _ ray cameraPos =>
    if button = GLFW_MOUSE_BUTTON_LEFT ∧ action = GLFW_PRESS ∧
        pickNearestVertex vertices cameraPos ray defaultMaxDist ≠ -1
    then some (pickNearestVertex vertices cameraPos ray defaultMaxDist) else none
  | _ => none

/-- The value `x` clamped to `[lo, hi]`. -/
def specClamp {f : Fmt} (x lo hi : Flt f) : Flt f :=
  if Flt.lt x lo then lo else if Flt.lt hi x then hi else x

/-- The coordinates and offsets that an event carries are finite numbers. -/
def Event.finite : Event → Bool
  | .cursorPos xpos ypos => xpos.isFinite && ypos.isFinite
  | .scroll xoffset yoffset => xoffset.isFinite && yoffset.isFinite
  | .mouseButton _ _ xpos ypos _ _ => xpos.isFinite && ypos.isFinite

/-- A NaN or the positive infinity. -/
def Flt.isBad {f : Fmt} : Flt f → Bool
  | .nan => true
  | .inf s => !s
  | .fin _ _ => false

/-- A NaN, or a value whose sign bit is clear. -/
def Flt.isNonNeg {f : Fmt} : Flt f → Bool
  | .nan => true
  | .inf s => !s
  | .fin s _ => !s

/-- The state of the scanner after a run of digits `ds` read from state
`st`. -/
def eatDigits (st : Scan) : List Char → Scan
  | [] => st
  | c :: cs =>
    if st.sci then eatDigits { st with exp := 10 * st.exp + digitVal c, hasExp := true } cs
    else eatDigits { st with mant := 10 * st.mant + digitVal c, hasMant := true,
                             frac := if st.dec then st.frac + 1 else st.frac } cs

/-- The text of a decimal floating-point numeral without sign: digits, an
optional point with digits, and an optional exponent part with a sign and
digits. -/
def floatText (d1 : List Char) (dot : Bool) (d2 : List Char) (ex : Bool) (sg : Char)
    (d3 : List Char) : List Char :=
  d1 ++ (if dot then '.' :: d2 else []) ++ (if ex then 'e' :: sg :: d3 else [])

/-- The scanner state after such a numeral, read from state `st`. -/
def floatState (st : Scan) (d1 : List Char) (dot : Bool) (d2 : List Char) (ex : Bool)
    (sg : Char) (d3 : List Char) : Scan :=
  let s1 := eatDigits st d1
  let s2 := if dot then eatDigits { s1 with dec := true } d2 else s1
  if ex then eatDigits { s2 with sci := true, eneg := decide (sg = '-') } d3 else s2

/-- What the reader obtains from the text the writer prints for `x`: the
value stored, and whether the extraction succeeds. -/
def reread (x : F32) : F32 × Bool :=
  convertScan (scanFloat (fmtFloat x)).1

/-- A vertex as it is read back from its line of the PLY text. -/
def rereadVec3 (v : Vec3) : Vec3 :=
  ⟨(reread v.x).1, (reread v.y).1, (reread v.z).1⟩

/-- The three coordinates of a vertex are accepted back by the reader. -/
def rereadOk (v : Vec3) : Bool :=
  (reread v.x).2 && (reread v.y).2 && (reread v.z).2

/-- The number that a text of decimal digits writes (most significant digit
first). -/
def digitsValue (ds : List Char) : Nat :=
  Nat.ofDigits 10 (ds.reverse.map digitVal)

/-- The exponent of ten that a numeral `d1[.d2][e±d3]` carries. -/
def textExp (ex : Bool) (sg : Char) (d3 : List Char) : Int :=
  if ex then (if sg = '-' then -(digitsValue d3 : Int) else (digitsValue d3 : Int)) else 0

/-- Numerator of the fraction that `convertScan` rounds. -/
def scanNum (st : Scan) : Nat :=
  st.mant * (if st.eneg then 1 else 10 ^ st.exp)

/-- Denominator of the fraction that `convertScan` rounds. -/
def scanDen (st : Scan) : Nat :=
  10 ^ st.frac * (if st.eneg then 10 ^ st.exp else 1)

/-- A finite `float` value: a magnitude no larger than `FLT_MAX`. -/
def specFinite : F32 → Bool
  | .fin _ m => decide (m ≤ binary32.maxMag)
  | _ => false

/-- Agreement to six significant digits: `y` is finite with the sign of `x`,
and `|y - x|` is at most `|x| / 10 ^ 5` plus half of the smallest positive
`float` (magnitudes are counted in units of that smallest `float`). -/
def specClose : F32 → F32 → Bool
  | .fin s m, .fin t n =>
    (s == t) && decide (100000 * ((n : Int) - (m : Int)).natAbs ≤ m + 50000)
  | _, _ => false

/-- Every coordinate is a finite `float` value. -/
def specFiniteVec (v : Vec3) : Bool :=
  specFinite v.x && specFinite v.y && specFinite v.z

/-- Coordinate by coordinate, `v` agrees with `u` to six significant
digits. -/
def specCloseVec (u v : Vec3) : Bool :=
  specClose u.x v.x && specClose u.y v.y && specClose u.z v.z

/-! # Theorems -/

/-! ## The face reader -/

theorem skipWs_length_le (s : List Char) : (skipWs s).length ≤ s.length := by
  induction s with
  | nil => simp [skipWs]
  | cons c cs ih =>
    simp only [skipWs]
    split
    · simp only [List.length_cons]; omega
    · simp

theorem spanWord_length (s : List Char) :
    (spanWord s).1.length + (spanWord s).2.length = s.length := by
  induction s with
  | nil => simp [spanWord]
  | cons c cs ih =>
    simp only [spanWord]
    split
    · simp
    · simp only [List.length_cons]; omega

theorem spanWord_fst_ne_nil (c : Char) (cs : List Char) (h : isSpace c = false) :
    (spanWord (c :: cs)).1 ≠ [] := by
  simp [spanWord, h]

theorem skipWs_head (s : List Char) (c : Char) (cs : List Char) (h : skipWs s = c :: cs) :
    isSpace c = false := by
  induction s with
  | nil => simp [skipWs] at h
  | cons d ds ih =>
    simp only [skipWs] at h
    split at h
    · exact ih h
    · rename_i hd
      simp only [List.cons.injEq] at h
      rw [← h.1]; simpa using hd

theorem extractWord_length (s w r : List Char) (h : extractWord s = some (w, r)) :
    r.length < s.length := by
  unfold extractWord at h
  split at h
  · simp at h
  · rename_i c cs hs
    have h1 := skipWs_length_le s
    have h2 := spanWord_length (c :: cs)
    have h3 := spanWord_fst_ne_nil c cs (skipWs_head s c cs hs)
    simp only [Option.some.injEq] at h
    rw [h] at h2 h3
    simp only at h2 h3
    have : 0 < w.length := List.length_pos.mpr h3
    rw [hs] at h1
    omega

theorem specFields_space (c : Char) (cs : List Char) (h : isSpace c = true) :
    specFields (c :: cs) = specFields cs := by
  simp [specFields, List.splitOnP_cons, h]

theorem splitOnP_spanWord (s : List Char) :
    s.splitOnP isSpace =
      (spanWord s).1 :: (match (spanWord s).2 with
        | [] => []
        | _ :: r => r.splitOnP isSpace) := by
  induction s with
  | nil => simp [spanWord]
  | cons c cs ih =>
    rw [List.splitOnP_cons]
    by_cases h : isSpace c = true
    · simp [spanWord, h]
    · simp only [h, spanWord, Bool.false_eq_true, ↓reduceIte]
      rw [ih]
      simp [List.modifyHead]

theorem spanWord_snd_head (s : List Char) (c : Char) (r : List Char)
    (h : (spanWord s).2 = c :: r) : isSpace c = true := by
  induction s with
  | nil => simp [spanWord] at h
  | cons d ds ih =>
    simp only [spanWord] at h
    split at h
    · simp only [List.cons.injEq] at h
      rw [← h.1]; assumption
    · exact ih h

theorem specFields_spanWord (c : Char) (cs : List Char) (h : isSpace c = false) :
    specFields (c :: cs) = (spanWord (c :: cs)).1 :: specFields (spanWord (c :: cs)).2 := by
  have hne : (spanWord (c :: cs)).1.isEmpty = false := by
    simpa [List.isEmpty_iff] using spanWord_fst_ne_nil c cs h
  unfold specFields
  rw [splitOnP_spanWord (c :: cs)]
  cases hr : (spanWord (c :: cs)).2 with
  | nil =>
    simp [List.filter, hne]
  | cons d r =>
    have hd := spanWord_snd_head _ _ _ hr
    simp [List.filter, hne, List.splitOnP_cons, hd]

theorem specFields_skipWs (s : List Char) : specFields (skipWs s) = specFields s := by
  induction s with
  | nil => simp [skipWs]
  | cons c cs ih =>
    simp only [skipWs]
    split
    · rename_i h; rw [ih, specFields_space c cs h]
    · rfl

theorem specFields_extractWord_none (s : List Char) (h : extractWord s = none) :
    specFields s = [] := by
  unfold extractWord at h
  split at h
  · rename_i hs
    rw [← specFields_skipWs, hs]; simp [specFields]
  · simp at h

theorem specFields_extractWord_some (s w r : List Char) (h : extractWord s = some (w, r)) :
    specFields s = w :: specFields r := by
  unfold extractWord at h
  split at h
  · simp at h
  · rename_i c cs hs
    simp only [Option.some.injEq] at h
    rw [← specFields_skipWs, hs, specFields_spanWord c cs (skipWs_head s c cs hs), h]

theorem faceLoop_eq (fuel : Nat) (buf : List Char) (face : List Int)
    (h : buf.length ≤ fuel) :
    faceLoop fuel buf face = foldFields (specFields buf) face := by
  induction fuel generalizing buf face with
  | zero =>
    have : buf = [] := List.length_eq_zero.mp (by omega)
    subst this
    simp [faceLoop, specFields, foldFields]
  | succ n ih =>
    unfold faceLoop
    cases hw : extractWord buf with
    | none => simp [specFields_extractWord_none buf hw, foldFields]
    | some p =>
      obtain ⟨w, r⟩ := p
      have hl := extractWord_length buf w r hw
      rw [specFields_extractWord_some buf w r hw]
      simp only [foldFields, fieldIndex]
      cases hs : stoi (getlineSlash w) with
      | error e => simp
      | ok v =>
        simp only
        cases hp : intPred v with
        | error e => simp
        | ok i => simp only; exact ih r _ (by omega)

theorem isDigit_not_isSpace (c : Char) (h : isDigit c = true) : isSpace c = false := by
  simp only [isDigit, Bool.and_eq_true, decide_eq_true_eq] at h
  simp only [isSpace, Bool.or_eq_false_iff, decide_eq_false_iff_not, Bool.and_eq_false_iff]
  omega

theorem readDigits_all (ds : List Char) (acc : Nat) (h : ds.all isDigit = true) :
    readDigits acc ds = acc * 10 ^ ds.length + Nat.ofDigits 10 (ds.reverse.map digitVal) := by
  induction ds generalizing acc with
  | nil => simp [readDigits]
  | cons c cs ih =>
    simp only [List.all_cons, Bool.and_eq_true] at h
    simp only [readDigits, h.1, ↓reduceIte, List.reverse_cons, List.map_append, List.map_cons,
      List.map_nil, List.length_cons]
    rw [ih _ h.2, Nat.ofDigits_append]
    simp only [List.length_map, List.length_reverse, Nat.ofDigits_singleton]
    ring

theorem stoiDigits_specNat (neg : Bool) (ds : List Char) (n : Nat) (h : specNat ds = some n) :
    stoiDigits neg ds =
      if INT_MIN ≤ (if neg then -(n : Int) else (n : Int)) ∧
          (if neg then -(n : Int) else (n : Int)) ≤ INT_MAX
      then .ok (if neg then -(n : Int) else (n : Int)) else .error .outOfRange := by
  unfold specNat at h
  split at h
  · rename_i hd
    cases ds with
    | nil => exact absurd rfl hd.1
    | cons c cs =>
      have hall := hd.2
      have hc : isDigit c = true := by
        simp only [List.all_cons, Bool.and_eq_true] at hall; exact hall.1
      simp only [Option.some.injEq] at h
      have hr := readDigits_all (c :: cs) 0 hall
      simp only [zero_mul, zero_add] at hr
      simp only [stoiDigits, hc, ↓reduceIte, hr, h]
  · simp at h

theorem stoi_specInt (t : List Char) (z : Int) (h : specInt t = some z) :
    stoi t = if INT_MIN ≤ z ∧ z ≤ INT_MAX then .ok z else .error .outOfRange := by
  cases t with
  | nil => simp [specInt] at h
  | cons c cs =>
    simp only [specInt] at h
    by_cases hm : c = '-'
    · subst hm
      cases hn : specNat cs with
      | none => simp [hn] at h
      | some n =>
        simp only [↓reduceIte, hn, Option.map_some', Option.some.injEq] at h
        subst h
        have := stoiDigits_specNat true cs n hn
        simp only [↓reduceIte] at this
        simp only [stoi, skipWs, show isSpace '-' = false by decide, Bool.false_eq_true,
          ↓reduceIte, this]
    · by_cases hp : c = '+'
      · subst hp
        cases hn : specNat cs with
        | none => simp [hn] at h
        | some n =>
          simp only [show ¬ ('+' = '-') by decide, ↓reduceIte, hn, Option.map_some',
            Option.some.injEq] at h
          subst h
          have := stoiDigits_specNat false cs n hn
          simp only [Bool.false_eq_true, ↓reduceIte] at this
          simp only [stoi, skipWs, show isSpace '+' = false by decide, Bool.false_eq_true,
            ↓reduceIte, show ¬ ('+' = '-') by decide, this]
      · cases hn : specNat (c :: cs) with
        | none => simp [hn, hm, hp] at h
        | some n =>
          simp only [hm, hp, ↓reduceIte, hn, Option.map_some', Option.some.injEq] at h
          subst h
          have hc : isDigit c = true := by
            unfold specNat at hn
            split at hn
            · rename_i hd
              have := hd.2
              simp only [List.all_cons, Bool.and_eq_true] at this
              exact this.1
            · simp at hn
          have := stoiDigits_specNat false (c :: cs) n hn
          simp only [Bool.false_eq_true, ↓reduceIte] at this
          simp only [stoi, skipWs, isDigit_not_isSpace c hc, Bool.false_eq_true, ↓reduceIte, hm,
            hp, this]

theorem getlineSlash_eq (t : List Char) : getlineSlash t = specFirstSub t := by
  induction t with
  | nil => rfl
  | cons c cs ih =>
    by_cases h : c = '/'
    · simp [getlineSlash, specFirstSub, h]
    · simp only [getlineSlash, h, ↓reduceIte, specFirstSub]
      rw [List.takeWhile_cons]
      simp only [bne_iff_ne, ne_eq, h, not_false_eq_true, ↓reduceIte, List.cons.injEq, true_and]
      exact ih

theorem fieldIndex_specInt (t : List Char) (z : Int) (h : specInt (specFirstSub t) = some z) :
    fieldIndex t =
      if z < INT_MIN ∨ INT_MAX < z then .error .outOfRange
      else if z = INT_MIN then .error .signedOverflow
      else .ok (z - 1) := by
  unfold fieldIndex
  rw [getlineSlash_eq, stoi_specInt _ z h]
  by_cases h1 : INT_MIN ≤ z ∧ z ≤ INT_MAX
  · have h2 : ¬ (z < INT_MIN ∨ INT_MAX < z) := by omega
    simp only [h1, and_self, ↓reduceIte, h2, intPred]
    by_cases h3 : z = INT_MIN
    · simp [h3, INT_MIN]
    · have : INT_MIN ≤ z - 1 := by omega
      simp [h3, this]
  · have h2 : z < INT_MIN ∨ INT_MAX < z := by omega
    simp [h1, h2]

theorem foldFields_ok_iff (flds : List (List Char)) (acc face : List Int) :
    foldFields flds acc = .ok face ↔
      ∃ idxs : List Int, flds.map fieldIndex = idxs.map Except.ok ∧ face = acc ++ idxs := by
  induction flds generalizing acc with
  | nil =>
    simp only [foldFields, Except.ok.injEq, List.map_nil]
    constructor
    · intro h; exact ⟨[], by simp, by simp [h]⟩
    · rintro ⟨idxs, h1, h2⟩
      have : idxs = [] := by simpa using h1.symm
      simp [h2, this]
  | cons t ts ih =>
    simp only [foldFields, List.map_cons]
    cases hf : fieldIndex t with
    | error e =>
      simp only [false_iff, not_exists, not_and, reduceCtorEq]
      intro idxs h
      cases idxs with
      | nil => simp at h
      | cons i is => simp at h
    | ok i =>
      simp only [ih]
      constructor
      · rintro ⟨idxs, h1, h2⟩
        exact ⟨i :: idxs, by simp [h1], by simp [h2]⟩
      · rintro ⟨idxs, h1, h2⟩
        cases idxs with
        | nil => simp at h1
        | cons j js =>
          simp only [List.map_cons, List.cons.injEq, Except.ok.injEq] at h1
          exact ⟨js, h1.2, by simp [h2, h1.1]⟩

theorem extractWord_of_specFields (line w : List Char) (flds : List (List Char))
    (h : specFields line = w :: flds) :
    ∃ rest, extractWord line = some (w, rest) ∧ specFields rest = flds ∧
      rest.length < line.length := by
  cases hw : extractWord line with
  | none => rw [specFields_extractWord_none line hw] at h; simp at h
  | some p =>
    obtain ⟨w', r⟩ := p
    rw [specFields_extractWord_some line w' r hw] at h
    simp only [List.cons.injEq] at h
    exact ⟨r, by rw [h.1], h.2, extractWord_length line w' r hw⟩

theorem processLine_f (junk : Vec3) (m : Mesh) (line : List Char) (flds : List (List Char))
    (h : specFields line = ['f'] :: flds) :
    processLine junk m line =
      match foldFields flds [] with
      | .error e => .error e
      | .ok face => .ok { m with faces := m.faces ++ [⟨face⟩] } := by
  obtain ⟨rest, hw, hr, _⟩ := extractWord_of_specFields line _ flds h
  unfold processLine
  simp only [hw, show ¬ (['f'] = ['v']) by decide, ↓reduceIte]
  rw [faceLoop_eq _ _ _ (le_refl _), hr]

theorem map_fieldIndex_of_specInt (flds : List (List Char)) (zs : List Int)
    (h1 : flds.map (fun fld => specInt (specFirstSub fld)) = zs.map some)
    (h2 : ∀ z ∈ zs, INT_MIN < z ∧ z ≤ INT_MAX) :
    flds.map fieldIndex = (zs.map (fun z => z - 1)).map Except.ok := by
  induction flds generalizing zs with
  | nil =>
    have : zs = [] := by simpa using h1.symm
    simp [this]
  | cons t ts ih =>
    cases zs with
    | nil => simp at h1
    | cons z zs =>
      simp only [List.map_cons, List.cons.injEq] at h1
      have hz := h2 z (by simp)
      have hrest := ih zs h1.2 (fun y hy => h2 y (by simp [hy]))
      have h3 : ¬ (z < INT_MIN ∨ INT_MAX < z) := by omega
      have h4 : ¬ (z = INT_MIN) := by omega
      simp only [List.map_cons, hrest, fieldIndex_specInt t z h1.1, h3, h4, ↓reduceIte]

theorem fieldIndex_ok_of_specInt (t : List Char) (z j : Int)
    (h : specInt (specFirstSub t) = some z) (hj : fieldIndex t = .ok j) : j = z - 1 := by
  rw [fieldIndex_specInt t z h] at hj
  split at hj
  · simp at hj
  · split at hj
    · simp at hj
    · simpa using hj.symm

/-- C1. On a line whose first token is `f`, with `flds` its further
whitespace-separated fields: whenever the parser stores, it appends exactly one
face, which has one index per field, in field order, and the index of a field
whose text before the first `/` writes the integer `z` is `z - 1`; it does
store that face when every field writes an integer `z` for which `z - 1` is an
`int`; and the line `f 1/2/3 4 5/6` yields the face `[0, 3, 4]`. -/
theorem face_line_indices (junk : Vec3) (m : Mesh) (line : List Char)
    (flds : List (List Char)) (hf : specFields line = ['f'] :: flds) :
    (∀ m', processLine junk m line = .ok m' →
      ∃ face : List Int, m' = { m with faces := m.faces ++ [⟨face⟩] } ∧
        face.length = flds.length ∧
        ∀ (i : Nat) (fld : List Char) (z : Int), flds[i]? = some fld →
          specInt (specFirstSub fld) = some z → face[i]? = some (z - 1)) ∧
    (∀ zs : List Int, flds.map (fun fld => specInt (specFirstSub fld)) = zs.map some →
      (∀ z ∈ zs, INT_MIN < z ∧ z ≤ INT_MAX) →
      processLine junk m line =
        .ok { m with faces := m.faces ++ [⟨zs.map (fun z => z - 1)⟩] }) ∧
    processLine junk m "f 1/2/3 4 5/6".toList =
      .ok { m with faces := m.faces ++ [⟨[0, 3, 4]⟩] } := by
  refine ⟨?_, ?_, ?_⟩
  · intro m' hm
    rw [processLine_f junk m line flds hf] at hm
    cases hfold : foldFields flds [] with
    | error e => rw [hfold] at hm; simp at hm
    | ok face =>
      rw [hfold] at hm
      simp only [Except.ok.injEq] at hm
      obtain ⟨idxs, hmap, hface⟩ := (foldFields_ok_iff flds [] face).mp hfold
      simp only [List.nil_append] at hface
      subst hface
      refine ⟨face, hm.symm, ?_, ?_⟩
      · have := congrArg List.length hmap
        simpa using this.symm
      · intro i fld z hi hz
        have h1 : (flds.map fieldIndex)[i]? = some (fieldIndex fld) := by
          simp [List.getElem?_map, hi]
        rw [hmap, List.getElem?_map] at h1
        cases hj : face[i]? with
        | none => simp [hj] at h1
        | some j =>
          simp only [hj, Option.map_some', Option.some.injEq] at h1
          rw [fieldIndex_ok_of_specInt fld z j hz h1.symm]
  · intro zs h1 h2
    rw [processLine_f junk m line flds hf]
    have := (foldFields_ok_iff flds [] (zs.map (fun z => z - 1))).mpr
      ⟨_, map_fieldIndex_of_specInt flds zs h1 h2, by simp⟩
    rw [this]
  · have hs : specFields "f 1/2/3 4 5/6".toList = ['f'] :: ["1/2/3".toList, "4".toList, "5/6".toList] := by
      decide
    rw [processLine_f junk m _ _ hs]
    have := (foldFields_ok_iff ["1/2/3".toList, "4".toList, "5/6".toList] [] [0, 3, 4]).mpr
      ⟨[0, 3, 4], by decide, by simp⟩
    rw [this]

/-- Witness for C1: the line `f 7/1 -2 +10//3` stores the face `[6, -3, 9]`. -/
theorem face_line_indices_witness :
    specFields "f 7/1 -2 +10//3".toList = ['f'] :: ["7/1".toList, "-2".toList, "+10//3".toList] ∧
    processLine ⟨.nan, .nan, .nan⟩ ⟨[], []⟩ "f 7/1 -2 +10//3".toList =
      .ok ⟨[], [⟨[6, -3, 9]⟩]⟩ := by
  refine ⟨by decide, ?_⟩
  have h := (face_line_indices ⟨.nan, .nan, .nan⟩ ⟨[], []⟩ "f 7/1 -2 +10//3".toList
    ["7/1".toList, "-2".toList, "+10//3".toList] (by decide)).2.1 [7, -2, 10]
    (by decide) (by decide)
  simpa using h

/-! ## The reading loop: what fails, what is ignored -/

theorem readLines_append (junk : Vec3) (m : Mesh) (pre post : List (List Char)) :
    readLines junk m (pre ++ post) =
      match readLines junk m pre with
      | .error e => .error e
      | .ok m' => readLines junk m' post := by
  induction pre generalizing m with
  | nil => simp [readLines]
  | cons l ls ih =>
    simp only [List.cons_append, readLines]
    cases processLine junk m l with
    | error e => simp
    | ok m1 => simp only; exact ih m1

theorem processLine_v (junk : Vec3) (m : Mesh) (line : List Char) (flds : List (List Char))
    (h : specFields line = ['v'] :: flds) :
    ∃ rest, extractWord line = some (['v'], rest) ∧
      processLine junk m line =
        .ok { m with vertices := m.vertices ++ [(readVec3 ⟨rest, false⟩ junk).2] } := by
  obtain ⟨rest, hw, _, _⟩ := extractWord_of_specFields line _ flds h
  exact ⟨rest, hw, by simp [processLine, hw]⟩

theorem processLine_other (junk : Vec3) (m : Mesh) (line : List Char)
    (h : specIsRecord line = false) : processLine junk m line = .ok m := by
  unfold processLine
  cases hw : extractWord line with
  | none => rfl
  | some p =>
    obtain ⟨w, r⟩ := p
    have hs := specFields_extractWord_some line w r hw
    simp only [specIsRecord, specFirstToken, hs, List.head?_cons, Option.some.injEq,
      Bool.or_eq_false_iff, decide_eq_false_iff_not] at h
    simp [h.1, h.2]

/-- C2 fails on the code: after exactly two `v` lines the line `f 1 99` is
accepted, and the face `[0, 98]` is stored. -/
theorem range_check_counterexample :
    parseObj zeroVec ["v 0 0 0".toList, "v 1 1 1".toList, "f 1 99".toList] =
      .ok ⟨[⟨F32.ofNat 0, F32.ofNat 0, F32.ofNat 0⟩, ⟨F32.ofNat 1, F32.ofNat 1, F32.ofNat 1⟩],
           [⟨[0, 98]⟩]⟩ := by
  decide!

/-- C2 as amended.  The `f` branch never looks at the vertices read so far:
whether the line is accepted, and the face it stores, are the same for every
vertex list; so a field that writes the integer `z` stores `z - 1` also when
`z - 1` is outside `[0, number of vertices)`. -/
theorem face_line_ignores_vertices (junk : Vec3) (m : Mesh) (line : List Char)
    (flds : List (List Char)) (hf : specFields line = ['f'] :: flds) :
    (∀ vs : List Vec3,
      processLine junk ⟨vs, m.faces⟩ line =
        match processLine junk m line with
        | .error e => .error e
        | .ok r => .ok ⟨vs, r.faces⟩) ∧
    (∀ zs : List Int, flds.map (fun fld => specInt (specFirstSub fld)) = zs.map some →
      (∀ z ∈ zs, INT_MIN < z ∧ z ≤ INT_MAX) →
      ∀ vs : List Vec3, processLine junk ⟨vs, m.faces⟩ line =
        .ok ⟨vs, m.faces ++ [⟨zs.map (fun z => z - 1)⟩]⟩) := by
  constructor
  · intro vs
    rw [processLine_f junk m line flds hf, processLine_f junk ⟨vs, m.faces⟩ line flds hf]
    cases foldFields flds [] <;> rfl
  · intro zs h1 h2 vs
    rw [processLine_f junk ⟨vs, m.faces⟩ line flds hf]
    have := (foldFields_ok_iff flds [] (zs.map (fun z => z - 1))).mpr
      ⟨_, map_fieldIndex_of_specInt flds zs h1 h2, by simp⟩
    rw [this]

/-- Witness for the amended C2: `f 1 99` with no vertex at all. -/
theorem face_line_ignores_vertices_witness :
    specFields "f 1 99".toList = ['f'] :: ["1".toList, "99".toList] ∧
    processLine zeroVec ⟨[], []⟩ "f 1 99".toList = .ok ⟨[], [⟨[0, 98]⟩]⟩ := by
  refine ⟨by decide, ?_⟩
  have h := (face_line_ignores_vertices zeroVec ⟨[], []⟩ "f 1 99".toList
    ["1".toList, "99".toList] (by decide)).2 [1, 99] (by decide) (by decide) []
  simpa using h

theorem fieldIndex_error_of_stoi (t : List Char) (e : Abort)
    (h : stoi (specFirstSub t) = .error e) : fieldIndex t = .error e := by
  simp [fieldIndex, getlineSlash_eq, h]

theorem foldFields_error_of_mem (flds : List (List Char)) (acc : List Int)
    (h : ∃ t ∈ flds, ∃ e, fieldIndex t = .error e) : ∃ e, foldFields flds acc = .error e := by
  induction flds generalizing acc with
  | nil => simp at h
  | cons t ts ih =>
    simp only [foldFields]
    cases ht : fieldIndex t with
    | error e => exact ⟨e, rfl⟩
    | ok i =>
      obtain ⟨u, hu, e, he⟩ := h
      simp only [List.mem_cons] at hu
      rcases hu with rfl | hu
      · rw [ht] at he; simp at he
      · exact ih _ ⟨u, hu, e, he⟩

theorem readLines_error_of_line (junk : Vec3) (m : Mesh) (before after : List (List Char))
    (line : List Char) (h : ∀ m', ∃ e, processLine junk m' line = .error e) :
    ∃ e, readLines junk m (before ++ line :: after) = .error e := by
  rw [readLines_append]
  cases readLines junk m before with
  | error e => exact ⟨e, rfl⟩
  | ok m' =>
    obtain ⟨e, he⟩ := h m'
    exact ⟨e, by simp [readLines, he]⟩

/-- C6 fails on the code: the line `v 1 abc 3` does not abort the parse; a
vertex is stored, with the coordinate read before the malformed field, zero
for the malformed field, and the content of uninitialised memory (here 9) for
the field after it. -/
theorem malformed_vertex_counterexample :
    parseObj ⟨F32.ofNat 7, F32.ofNat 8, F32.ofNat 9⟩ ["v 1 abc 3".toList] =
      .ok ⟨[⟨F32.ofNat 1, F32.ofNat 0, F32.ofNat 9⟩], []⟩ := by
  decide!

/-- C6 as amended.  A line whose first token is `v` never aborts the parse and
always appends one vertex, whatever its fields are.  A line whose first token
is `f` and that has a field for which `std::stoi` throws (no integer at the
start of the text before the first `/`, or one that does not fit `int`) aborts
the whole run with that uncaught exception, wherever the line stands in the
input: no model is produced. -/
theorem malformed_field_outcome (junk : Vec3) (line : List Char) (flds : List (List Char)) :
    (specFields line = ['v'] :: flds →
      ∀ m, ∃ v, processLine junk m line = .ok { m with vertices := m.vertices ++ [v] }) ∧
    (specFields line = ['f'] :: flds →
      (∃ t ∈ flds, ∃ e, stoi (specFirstSub t) = .error e) →
      ∀ before after, ∃ e, parseObj junk (before ++ line :: after) = .error e) := by
  constructor
  · intro h m
    obtain ⟨rest, _, hp⟩ := processLine_v junk m line flds h
    exact ⟨_, hp⟩
  · intro h ⟨t, ht, e, he⟩ before after
    apply readLines_error_of_line
    intro m'
    rw [processLine_f junk m' line flds h]
    obtain ⟨e', he'⟩ := foldFields_error_of_mem flds []
      ⟨t, ht, e, fieldIndex_error_of_stoi t e he⟩
    exact ⟨e', by rw [he']⟩

/-- Witness for the amended C6: the line `f 1 x 3` between two vertex lines. -/
theorem malformed_field_outcome_witness :
    specFields "f 1 x 3".toList = ['f'] :: ["1".toList, "x".toList, "3".toList] ∧
    stoi (specFirstSub "x".toList) = .error .invalidArgument ∧
    ∃ e, parseObj zeroVec (["v 0 0 0".toList] ++ "f 1 x 3".toList :: ["v 1 1 1".toList]) =
      .error e :=
  ⟨by decide, by decide,
   (malformed_field_outcome zeroVec "f 1 x 3".toList ["1".toList, "x".toList, "3".toList]).2
     (by decide) ⟨"x".toList, by decide, .invalidArgument, by decide⟩
     ["v 0 0 0".toList] ["v 1 1 1".toList]⟩

theorem readLines_filter (junk : Vec3) (m : Mesh) (lines : List (List Char)) :
    readLines junk m lines = readLines junk m (lines.filter specIsRecord) := by
  induction lines generalizing m with
  | nil => rfl
  | cons l ls ih =>
    by_cases h : specIsRecord l = true
    · simp only [List.filter_cons, h, ↓reduceIte, readLines]
      cases processLine junk m l with
      | error e => rfl
      | ok m' => exact ih m'
    · have h' : specIsRecord l = false := by simpa using h
      simp only [List.filter_cons, h', Bool.false_eq_true, ↓reduceIte, readLines,
        processLine_other junk m l h']
      exact ih m

/-- C10. The model parsed from a sequence of lines is the model parsed from
the sequence without the lines whose first token is neither `v` nor `f`
(errors included); such a line never fails and leaves both vectors as they
are. -/
theorem other_lines_ignored (junk : Vec3) (lines : List (List Char)) :
    parseObj junk lines = parseObj junk (lines.filter specIsRecord) ∧
    ∀ (m : Mesh) (line : List Char), specIsRecord line = false →
      processLine junk m line = .ok m :=
  ⟨readLines_filter junk _ lines, fun m line h => processLine_other junk m line h⟩

/-- Witness for C10: a comment line. -/
theorem other_lines_ignored_witness :
    specIsRecord "# vn vt".toList = false ∧
    processLine zeroVec ⟨[zeroVec], [⟨[0, 0, 0]⟩]⟩ "# vn vt".toList =
      .ok ⟨[zeroVec], [⟨[0, 0, 0]⟩]⟩ :=
  ⟨by decide,
   (other_lines_ignored zeroVec []).2 ⟨[zeroVec], [⟨[0, 0, 0]⟩]⟩ "# vn vt".toList (by decide)⟩

/-! ## Printed numbers -/

theorem digitChar_props (d : Nat) (h : d < 10) :
    isDigit (digitChar d) = true ∧ digitVal (digitChar d) = d := by
  interval_cases d <;> decide

theorem printNatAux_eq (fuel n : Nat) (acc : List Char) (h : n < fuel) :
    printNatAux fuel n acc = specDecimal n ++ acc := by
  induction fuel generalizing n acc with
  | zero => omega
  | succ k ih =>
    unfold printNatAux
    by_cases hn : n < 10
    · simp only [hn, ↓reduceIte, specDecimal]
      by_cases h0 : n = 0
      · subst h0; simp only [↓reduceIte, List.singleton_append, List.cons.injEq, and_true]; decide
      · simp [h0, Nat.digits_of_lt 10 n h0 hn]
    · have h0 : n ≠ 0 := by omega
      have hpos : 0 < n := by omega
      simp only [hn, ↓reduceIte]
      rw [ih (n / 10) _ (by omega)]
      have hq : n / 10 ≠ 0 := by omega
      simp only [specDecimal, h0, hq, ↓reduceIte]
      rw [Nat.digits_def' (by norm_num : 1 < 10) hpos]
      simp

theorem printNat_eq (n : Nat) : printNat n = specDecimal n := by
  simp [printNat, printNatAux_eq (n + 1) n [] (by omega)]

theorem specDecimal_ne_nil (n : Nat) : specDecimal n ≠ [] := by
  unfold specDecimal
  split
  · simp
  · rename_i h
    simpa using Nat.digits_ne_nil_iff_ne_zero.mpr h

theorem specDecimal_isDigit (n : Nat) : ∀ c ∈ specDecimal n, isDigit c = true := by
  intro c hc
  unfold specDecimal at hc
  split at hc
  · simp only [List.mem_singleton] at hc; subst hc; decide
  · simp only [List.mem_map, List.mem_reverse] at hc
    obtain ⟨d, hd, rfl⟩ := hc
    exact (digitChar_props d (Nat.digits_lt_base (by norm_num) hd)).1

theorem map_digitVal_digitChar (ds : List Nat) (h : ∀ d ∈ ds, d < 10) :
    (ds.map digitChar).map digitVal = ds := by
  induction ds with
  | nil => rfl
  | cons d ds ih =>
    simp only [List.map_cons, List.cons.injEq]
    exact ⟨(digitChar_props d (h d (by simp))).2, ih (fun x hx => h x (by simp [hx]))⟩

theorem specNat_printNat (n : Nat) : specNat (printNat n) = some n := by
  rw [printNat_eq]
  have hall : (specDecimal n).all isDigit = true := by
    simpa [List.all_eq_true] using specDecimal_isDigit n
  simp only [specNat, ne_eq, specDecimal_ne_nil, not_false_eq_true, hall, and_self, ↓reduceIte,
    Option.some.injEq]
  unfold specDecimal
  split
  · rename_i h; subst h; decide
  · simp only [List.map_reverse, List.reverse_reverse]
    rw [map_digitVal_digitChar _ (fun d hd => Nat.digits_lt_base (by norm_num) hd),
      Nat.ofDigits_digits]

theorem printNat_head_isDigit (n : Nat) :
    ∃ c cs, printNat n = c :: cs ∧ isDigit c = true := by
  cases h : printNat n with
  | nil => rw [printNat_eq] at h; exact absurd h (specDecimal_ne_nil n)
  | cons c cs =>
    refine ⟨c, cs, rfl, ?_⟩
    have := specDecimal_isDigit n c
    rw [← printNat_eq, h] at this
    exact this (by simp)

theorem specInt_printInt (z : Int) : specInt (printInt z) = some z := by
  unfold printInt
  by_cases hz : z < 0
  · simp only [hz, ↓reduceIte, specInt, specNat_printNat, Option.map_some', Option.some.injEq]
    omega
  · obtain ⟨c, cs, hc, hd⟩ := printNat_head_isDigit z.natAbs
    have h1 : c ≠ '-' := by rintro rfl; revert hd; decide
    have h2 : c ≠ '+' := by rintro rfl; revert hd; decide
    simp only [hz, ↓reduceIte, hc, specInt, h1, h2]
    rw [← hc, specNat_printNat]
    simp only [Option.map_some', Option.some.injEq]
    omega

theorem isNumChar_of_isDigit (c : Char) (h : isDigit c = true) : isNumChar c = true := by
  simp [isNumChar, h]

theorem isNumChar_not_space (c : Char) (h : isNumChar c = true) :
    isSpace c = false ∧ c ≠ '\n' := by
  simp only [isNumChar, Bool.or_eq_true, decide_eq_true_eq] at h
  rcases h with (((((((h | h) | h) | h) | h) | h) | h) | h) | h
  · exact ⟨isDigit_not_isSpace c h, by rintro rfl; revert h; decide⟩
  all_goals subst h; exact ⟨by decide, by decide⟩

theorem isNumChar_printNat (n : Nat) : ∀ c ∈ printNat n, isNumChar c = true := by
  intro c hc
  rw [printNat_eq] at hc
  exact isNumChar_of_isDigit c (specDecimal_isDigit n c hc)

theorem isNumChar_printInt (z : Int) : ∀ c ∈ printInt z, isNumChar c = true := by
  intro c hc
  unfold printInt at hc
  split at hc
  · simp only [List.mem_cons] at hc
    rcases hc with rfl | hc
    · decide
    · exact isNumChar_printNat _ c hc
  · exact isNumChar_printNat _ c hc

theorem mem_stripZeros (ds : List Char) (c : Char) (h : c ∈ stripZeros ds) : c ∈ ds := by
  unfold stripZeros at h
  rw [List.mem_reverse] at h
  exact List.mem_reverse.mp ((List.dropWhile_sublist _).subset h)

theorem isNumChar_fmtPos (mag : Nat) : ∀ c ∈ fmtPos mag, isNumChar c = true := by
  intro c hc
  have hd : ∀ c ∈ printNat (sixDigits mag).1, isNumChar c = true := isNumChar_printNat _
  unfold fmtPos at hc
  simp only at hc
  split at hc
  · rw [List.mem_append] at hc
    rcases hc with hc | hc
    · exact hd c (List.mem_of_mem_take hc)
    · split at hc
      · simp at hc
      · simp only [List.mem_cons] at hc
        rcases hc with rfl | hc
        · decide
        · exact hd c (List.mem_of_mem_drop (mem_stripZeros _ c hc))
  · split at hc
    · simp only [List.mem_cons, List.mem_append, List.mem_replicate] at hc
      rcases hc with rfl | rfl | ⟨_, rfl⟩ | hc
      · decide
      · decide
      · decide
      · exact hd c (mem_stripZeros _ c hc)
    · simp only [List.mem_append, List.mem_cons] at hc
      rcases hc with (hc | hc) | rfl | hc | hc
      · exact hd c (List.mem_of_mem_take hc)
      · split at hc
        · simp at hc
        · simp only [List.mem_cons] at hc
          rcases hc with rfl | hc
          · decide
          · exact hd c (List.mem_of_mem_drop (mem_stripZeros _ c hc))
      · decide
      · split at hc <;> subst hc <;> decide
      · split at hc
        · simp only [List.mem_cons] at hc
          rcases hc with rfl | hc
          · decide
          · exact isNumChar_printNat _ c hc
        · exact isNumChar_printNat _ c hc

theorem isNumChar_fmtFloat (x : F32) : ∀ c ∈ fmtFloat x, isNumChar c = true := by
  intro c hc
  cases x with
  | nan =>
    simp only [fmtFloat, List.mem_cons, List.mem_singleton, List.not_mem_nil, or_false] at hc
    rcases hc with rfl | rfl | rfl <;> decide
  | inf s =>
    cases s <;>
    · simp only [fmtFloat, List.mem_cons, List.mem_append, List.not_mem_nil, or_false,
        Bool.false_eq_true, ↓reduceIte, false_or] at hc
      rcases hc with rfl | rfl | rfl | rfl <;> decide
  | fin s m =>
    simp only [fmtFloat, List.mem_append] at hc
    rcases hc with hc | hc
    · split at hc
      · simp only [List.mem_singleton] at hc; subst hc; decide
      · simp at hc
    · split at hc
      · simp only [List.mem_singleton] at hc; subst hc; decide
      · exact isNumChar_fmtPos m c hc

theorem printNat_ne_nil (n : Nat) : printNat n ≠ [] := by
  rw [printNat_eq]; exact specDecimal_ne_nil n

theorem printInt_ne_nil (z : Int) : printInt z ≠ [] := by
  unfold printInt
  split
  · simp
  · exact printNat_ne_nil _

theorem fmtPos_ne_nil (mag : Nat) : fmtPos mag ≠ [] := by
  obtain ⟨c, cs, hc, _⟩ := printNat_head_isDigit (sixDigits mag).1
  unfold fmtPos
  simp only
  split
  · simp [hc]
  · split
    · simp
    · simp [hc]

theorem fmtFloat_ne_nil (x : F32) : fmtFloat x ≠ [] := by
  cases x with
  | nan => simp [fmtFloat]
  | inf s => simp [fmtFloat]
  | fin s m =>
    simp only [fmtFloat, ne_eq, List.append_eq_nil, not_and]
    intro _
    split
    · simp
    · exact fmtPos_ne_nil m

/-! ## The PLY writer -/

theorem intercalate_cons_eq (sep a : List Char) (l : List (List Char)) :
    sep.intercalate (a :: l) = a ++ l.flatMap (fun t => sep ++ t) := by
  induction l generalizing a with
  | nil => simp [List.intercalate]
  | cons b l ih =>
    have h := ih b
    simp only [List.intercalate, List.intersperse, List.flatten_cons, List.flatMap_cons] at h ⊢
    rw [h]
    simp

theorem writeIndices_eq (idxs : List Int) :
    writeIndices idxs = (idxs.map printInt).flatMap (fun t => [' '] ++ t) := by
  induction idxs with
  | nil => rfl
  | cons i is ih => simp [writeIndices, ih]

theorem writeVertices_eq (vs : List Vec3) :
    writeVertices vs = unlines (vs.map specVertexLine) := by
  induction vs with
  | nil => rfl
  | cons v vs ih =>
    simp only [writeVertices, ih, unlines, List.map_cons, List.flatMap_cons, specVertexLine,
      intercalate_cons_eq]
    simp

theorem writeFaces_eq (fs : List Face) :
    writeFaces fs = unlines (fs.map specFaceLine) := by
  induction fs with
  | nil => rfl
  | cons f fs ih =>
    simp only [writeFaces, ih, unlines, List.map_cons, List.flatMap_cons, specFaceLine,
      intercalate_cons_eq, writeIndices_eq, printNat_eq, List.append_assoc]

theorem unlines_append (a b : List (List Char)) : unlines (a ++ b) = unlines a ++ unlines b := by
  simp [unlines]

theorem writePly_eq_unlines (m : Mesh) : writePly m = unlines (specLines m) := by
  simp only [writePly, specLines, unlines_append, writeVertices_eq, writeFaces_eq, printNat_eq]
  simp [unlines, specHeader]

theorem splitOn_unlines (ls : List (List Char)) (h : ∀ l ∈ ls, '\n' ∉ l) :
    (unlines ls).splitOn '\n' = ls ++ [[]] := by
  induction ls with
  | nil => simp [unlines, List.splitOn]
  | cons l ls ih =>
    have hl : ∀ x ∈ l, ¬ ((x == '\n') = true) := by
      intro x hx hx'
      have : x = '\n' := by simpa using hx'
      exact h l (by simp) (this ▸ hx)
    have := List.splitOnP_first (fun x => x == '\n') l hl '\n' (by simp) (unlines ls)
    simp only [unlines, List.flatMap_cons, List.append_assoc, List.singleton_append,
      List.splitOn] at this ⊢
    rw [this]
    have ih' := ih (fun l' hl' => h l' (by simp [hl']))
    simp only [unlines, List.splitOn] at ih'
    rw [ih']
    simp

theorem no_newline_of_isNumChar (l : List Char) (h : ∀ c ∈ l, isNumChar c = true) :
    '\n' ∉ l := by
  intro hm
  exact (isNumChar_not_space _ (h _ hm)).2 rfl

theorem specVertexLine_chars (v : Vec3) :
    ∀ c ∈ specVertexLine v, isNumChar c = true ∨ c = ' ' := by
  intro c hc
  simp only [specVertexLine, intercalate_cons_eq, List.flatMap_cons, List.flatMap_nil,
    List.append_nil, List.mem_append, List.mem_singleton, List.mem_cons, List.not_mem_nil,
    or_false] at hc
  rcases hc with hc | (rfl | hc) | rfl | hc
  · exact Or.inl (isNumChar_fmtFloat _ c hc)
  · exact Or.inr rfl
  · exact Or.inl (isNumChar_fmtFloat _ c hc)
  · exact Or.inr rfl
  · exact Or.inl (isNumChar_fmtFloat _ c hc)

theorem specFaceLine_chars (f : Face) :
    ∀ c ∈ specFaceLine f, isNumChar c = true ∨ c = ' ' := by
  intro c hc
  simp only [specFaceLine, intercalate_cons_eq, List.mem_append, List.mem_flatMap, List.mem_map,
    List.mem_cons, List.not_mem_nil, or_false] at hc
  rcases hc with hc | ⟨t, ⟨z, _, rfl⟩, rfl | hc⟩
  · rw [← printNat_eq] at hc
    exact Or.inl (isNumChar_printNat _ c hc)
  · exact Or.inr rfl
  · exact Or.inl (isNumChar_printInt z c hc)

theorem specLines_no_newline (m : Mesh) : ∀ l ∈ specLines m, '\n' ∉ l := by
  intro l hl hn
  simp only [specLines, List.mem_append, List.mem_map] at hl
  rcases hl with (hl | ⟨v, _, rfl⟩) | ⟨f, _, rfl⟩
  · simp only [specHeader, List.mem_cons, List.not_mem_nil, or_false] at hl
    rcases hl with rfl | rfl | rfl | rfl | rfl | rfl | rfl | rfl | rfl
    · revert hn; decide
    · revert hn; decide
    · rw [List.mem_append] at hn
      rcases hn with hn | hn
      · revert hn; decide
      · rw [← printNat_eq] at hn
        exact no_newline_of_isNumChar _ (isNumChar_printNat _) hn
    · revert hn; decide
    · revert hn; decide
    · revert hn; decide
    · rw [List.mem_append] at hn
      rcases hn with hn | hn
      · revert hn; decide
      · rw [← printNat_eq] at hn
        exact no_newline_of_isNumChar _ (isNumChar_printNat _) hn
    · revert hn; decide
    · revert hn; decide
  · rcases specVertexLine_chars v _ hn with h | h
    · exact (isNumChar_not_space _ h).2 rfl
    · revert h; decide
  · rcases specFaceLine_chars f _ hn with h | h
    · exact (isNumChar_not_space _ h).2 rfl
    · revert h; decide

theorem spanWord_token (w r : List Char) (hw : ∀ c ∈ w, isSpace c = false) :
    spanWord (w ++ ' ' :: r) = (w, ' ' :: r) ∧ spanWord w = (w, []) := by
  induction w with
  | nil => exact ⟨by simp [spanWord, show isSpace ' ' = true by decide], by simp [spanWord]⟩
  | cons c cs ih =>
    have hc := hw c (by simp)
    have ih' := ih (fun x hx => hw x (by simp [hx]))
    simp [spanWord, hc, ih'.1, ih'.2]

theorem specFields_token_cons (a rest : List Char) (ha : a ≠ [])
    (hs : ∀ c ∈ a, isSpace c = false) :
    specFields (a ++ ' ' :: rest) = a :: specFields rest ∧ specFields a = [a] := by
  cases a with
  | nil => exact absurd rfl ha
  | cons c cs =>
    have hc := hs c (by simp)
    have h1 := specFields_spanWord c (cs ++ ' ' :: rest) hc
    have h2 := specFields_spanWord c cs hc
    have hsp := spanWord_token (c :: cs) rest hs
    simp only [List.cons_append] at hsp
    rw [hsp.1] at h1
    rw [hsp.2] at h2
    simp only [List.cons_append]
    refine ⟨?_, ?_⟩
    · rw [h1, specFields_space ' ' rest (by decide)]
    · rw [h2]; simp [specFields]

theorem specFields_intercalate (a : List Char) (l : List (List Char))
    (h : ∀ t ∈ a :: l, t ≠ [] ∧ ∀ c ∈ t, isSpace c = false) :
    specFields ([' '].intercalate (a :: l)) = a :: l := by
  induction l generalizing a with
  | nil =>
    have ha := h a (by simp)
    simpa [List.intercalate] using (specFields_token_cons a [] ha.1 ha.2).2
  | cons b l ih =>
    have ha := h a (by simp)
    have ih' := ih b (fun t ht => h t (by simp only [List.mem_cons] at ht ⊢; tauto))
    rw [intercalate_cons_eq] at ih' ⊢
    simp only [List.flatMap_cons, List.singleton_append, List.cons_append, List.nil_append]
    rw [(specFields_token_cons a _ ha.1 ha.2).1]
    simp only [List.singleton_append] at ih'
    rw [ih']

theorem specFields_specVertexLine (v : Vec3) :
    specFields (specVertexLine v) = [fmtFloat v.x, fmtFloat v.y, fmtFloat v.z] := by
  apply specFields_intercalate
  intro t ht
  simp only [List.mem_cons, List.mem_singleton, List.not_mem_nil, or_false] at ht
  rcases ht with rfl | rfl | rfl <;>
  exact ⟨fmtFloat_ne_nil _, fun c hc => (isNumChar_not_space c (isNumChar_fmtFloat _ c hc)).1⟩

theorem specFields_specFaceLine (f : Face) :
    specFields (specFaceLine f) =
      specDecimal f.vertexIndices.length :: f.vertexIndices.map printInt := by
  apply specFields_intercalate
  intro t ht
  simp only [List.mem_cons, List.mem_map] at ht
  rcases ht with rfl | ⟨z, _, rfl⟩
  · exact ⟨specDecimal_ne_nil _, fun c hc =>
      isDigit_not_isSpace c (specDecimal_isDigit _ c hc)⟩
  · exact ⟨printInt_ne_nil z, fun c hc => (isNumChar_not_space c (isNumChar_printInt z c hc)).1⟩

/-- C8. Cut at its line feeds, the text written for a model with `N` vertices
and `M` faces is exactly: the nine header lines (with the decimal numerals of
`N` and `M`), then one line per vertex in order, then one line per face in
order, and nothing after the last line feed.  A vertex line has three fields,
the printed coordinates; a face line has as fields the numeral of the index
count and then the printed indices in their order, and a printed index reads
back as the stored integer itself. -/
theorem writePly_lines (m : Mesh) :
    (writePly m).splitOn '\n' =
      specHeader m.vertices.length m.faces.length ++ m.vertices.map specVertexLine ++
        m.faces.map specFaceLine ++ [[]] ∧
    (specHeader m.vertices.length m.faces.length).length = 9 ∧
    (∀ v : Vec3, specFields (specVertexLine v) = [fmtFloat v.x, fmtFloat v.y, fmtFloat v.z]) ∧
    (∀ f : Face, specFields (specFaceLine f) =
      specDecimal f.vertexIndices.length :: f.vertexIndices.map printInt) ∧
    (∀ z : Int, specInt (printInt z) = some z) := by
  refine ⟨?_, rfl, specFields_specVertexLine, specFields_specFaceLine, specInt_printInt⟩
  rw [writePly_eq_unlines, splitOn_unlines _ (specLines_no_newline m)]
  rfl

/-! ## Reading back what the writer wrote -/

theorem headerLoop_line (l cur rest : List Char) (vc : Int) (h : '\n' ∉ l) :
    headerLoop cur vc (l ++ '\n' :: rest) =
      match headerLine (cur ++ l) vc with
      | .error e => .error e
      | .ok (n, stop) => if stop then .ok (n, ⟨rest, false⟩) else headerLoop [] n rest := by
  induction l generalizing cur with
  | nil => simp [headerLoop]
  | cons c cs ih =>
    have hc : c ≠ '\n' := fun hc => h (by simp [hc])
    have hcs : '\n' ∉ cs := fun hcs => h (by simp [hcs])
    have := ih (cur ++ [c]) hcs
    simp only [List.append_assoc, List.singleton_append] at this
    simp only [List.cons_append, headerLoop, hc, ↓reduceIte]
    exact this

theorem readVertices_length (junk : Vec3) (n : Nat) (s : IStream) (vs : List Vec3) :
    (readVertices junk n s vs).length = vs.length + n := by
  induction n generalizing s vs with
  | zero => rfl
  | succ k ih =>
    simp only [readVertices]
    rw [ih]
    simp only [List.length_append, List.length_singleton]
    omega

theorem stoi_specDecimal (n : Nat) (h : (n : Int) ≤ INT_MAX) :
    stoi (specDecimal n) = .ok (n : Int) := by
  have h1 := specInt_printInt (n : Int)
  have h2 : printInt (n : Int) = specDecimal n := by
    simp [printInt, printNat_eq]
  rw [h2] at h1
  rw [stoi_specInt _ _ h1]
  have : INT_MIN ≤ (n : Int) := by simp only [INT_MIN]; omega
  simp [this, h]

theorem headerLine_plain (line : List Char) (vc : Int)
    (h1 : line.take 14 ≠ "element vertex".toList) (h2 : line ≠ "end_header".toList) :
    headerLine line vc = .ok (vc, false) := by
  unfold headerLine
  rw [if_neg h1, if_neg h2]

theorem headerLine_vertex (n : Nat) (vc : Int) (h : (n : Int) ≤ INT_MAX) :
    headerLine ("element vertex ".toList ++ specDecimal n) vc = .ok ((n : Int), false) := by
  have e : "element vertex ".toList = "element vertex".toList ++ [' '] := by decide
  have h1 : ("element vertex ".toList ++ specDecimal n).take 14 = "element vertex".toList := by
    rw [e, List.append_assoc, List.take_append_eq_append_take]
    simp
  have h2 : ¬ (("element vertex ".toList ++ specDecimal n).length < 15) := by
    simp
  have h3 : ("element vertex ".toList ++ specDecimal n).drop 15 = specDecimal n := by
    rw [List.drop_append_eq_append_drop]
    simp
  simp only [headerLine, h1, ↓reduceIte, h2, h3, stoi_specDecimal n h]

theorem headerLine_face (k : Nat) (vc : Int) :
    headerLine ("element face ".toList ++ specDecimal k) vc = .ok (vc, false) := by
  apply headerLine_plain
  · intro h
    have := congrArg (fun l => l.get? 8) h
    simp [List.getElem?_take, List.getElem?_append] at this
  · intro h
    have := congrArg (fun l => l.get? 1) h
    simp at this

theorem headerLine_end (vc : Int) : headerLine "end_header".toList vc = .ok (vc, true) := by
  unfold headerLine
  rw [if_neg (by decide), if_pos rfl]

theorem headerLoop_skip (l rest : List Char) (vc n : Int) (hnl : '\n' ∉ l)
    (hl : headerLine l vc = .ok (n, false)) :
    headerLoop [] vc (l ++ '\n' :: rest) = headerLoop [] n rest := by
  rw [headerLoop_line l [] rest vc hnl]
  simp [hl]

theorem headerLoop_stop (l rest : List Char) (vc n : Int) (hnl : '\n' ∉ l)
    (hl : headerLine l vc = .ok (n, true)) :
    headerLoop [] vc (l ++ '\n' :: rest) = .ok (n, ⟨rest, false⟩) := by
  rw [headerLoop_line l [] rest vc hnl]
  simp [hl]

theorem unlines_cons (l : List Char) (ls : List (List Char)) :
    unlines (l :: ls) = l ++ '\n' :: unlines ls := by
  simp [unlines]

theorem specDecimal_no_newline (n : Nat) : '\n' ∉ specDecimal n := by
  intro h
  have := specDecimal_isDigit n _ h
  revert this; decide

theorem headerLoop_writePly (m : Mesh) (h : (m.vertices.length : Int) ≤ INT_MAX) :
    headerLoop [] 0 (writePly m) =
      .ok ((m.vertices.length : Int),
           ⟨unlines (m.vertices.map specVertexLine ++ m.faces.map specFaceLine), false⟩) := by
  rw [writePly_eq_unlines]
  simp only [specLines, specHeader, List.cons_append, List.nil_append, unlines_cons]
  rw [headerLoop_skip _ _ 0 0 (by decide) (headerLine_plain _ _ (by decide) (by decide))]
  rw [headerLoop_skip _ _ 0 0 (by decide) (headerLine_plain _ _ (by decide) (by decide))]
  rw [headerLoop_skip _ _ 0 _
    (by simp only [List.mem_append, not_or]
        exact ⟨by decide, specDecimal_no_newline _⟩)
    (headerLine_vertex m.vertices.length 0 h)]
  rw [headerLoop_skip _ _ _ _ (by decide) (headerLine_plain _ _ (by decide) (by decide))]
  rw [headerLoop_skip _ _ _ _ (by decide) (headerLine_plain _ _ (by decide) (by decide))]
  rw [headerLoop_skip _ _ _ _ (by decide) (headerLine_plain _ _ (by decide) (by decide))]
  rw [headerLoop_skip _ _ _ _
    (by simp only [List.mem_append, not_or]
        exact ⟨by decide, specDecimal_no_newline _⟩)
    (headerLine_face m.faces.length _)]
  rw [headerLoop_skip _ _ _ _ (by decide) (headerLine_plain _ _ (by decide) (by decide))]
  rw [headerLoop_stop _ _ _ _ (by decide) (headerLine_end _)]


/-! ## The reader on the numerals of the writer -/

theorem eatDigits_flags (st : Scan) (ds : List Char) :
    (eatDigits st ds).sci = st.sci ∧ (eatDigits st ds).dec = st.dec ∧
    (eatDigits st ds).neg = st.neg ∧
    (st.hasMant = true → (eatDigits st ds).hasMant = true) ∧
    (st.sci = false → ds ≠ [] → (eatDigits st ds).hasMant = true) ∧
    (st.sci = true → ds ≠ [] → (eatDigits st ds).hasExp = true) := by
  induction ds generalizing st with
  | nil => simp [eatDigits]
  | cons c cs ih =>
    unfold eatDigits
    by_cases hs : st.sci = true
    · rw [if_pos hs]
      have := ih { st with exp := 10 * st.exp + digitVal c, hasExp := true }
      simp only at this
      refine ⟨this.1, this.2.1, this.2.2.1, this.2.2.2.1, ?_, ?_⟩
      · intro h; rw [h] at hs; simp at hs
      · intro _ _
        by_cases hc : cs = []
        · subst hc; simp [eatDigits]
        · exact this.2.2.2.2.2 hs hc
    · rw [if_neg hs]
      have hs' : st.sci = false := by simpa using hs
      have := ih { st with mant := 10 * st.mant + digitVal c, hasMant := true,
                           frac := if st.dec then st.frac + 1 else st.frac }
      simp only at this
      refine ⟨this.1, this.2.1, this.2.2.1, fun _ => this.2.2.2.1 trivial,
        fun _ _ => this.2.2.2.1 trivial, ?_⟩
      intro h; rw [h] at hs'; simp at hs'

theorem scanLoop_digits (st : Scan) (ds tail : List Char) (h : ∀ c ∈ ds, isDigit c = true) :
    scanLoop st false (ds ++ tail) = scanLoop (eatDigits st ds) false tail := by
  induction ds generalizing st with
  | nil => rfl
  | cons c cs ih =>
    have hc := h c (by simp)
    have hcs : ∀ x ∈ cs, isDigit x = true := fun x hx => h x (by simp [hx])
    simp only [List.cons_append, scanLoop, Bool.false_and, Bool.false_eq_true, ↓reduceIte, hc,
      eatDigits]
    split
    · exact ih _ hcs
    · exact ih _ hcs

theorem scanLoop_stop (st : Scan) (c : Char) (rest : List Char)
    (hc : c = ' ' ∨ c = '\n') : scanLoop st false (c :: rest) = (st, c :: rest) := by
  rcases hc with rfl | rfl <;>
    simp [scanLoop, show isDigit ' ' = false by decide, show isDigit '\n' = false by decide]

theorem scanLoop_digits_end (st : Scan) (ds : List Char) (h : ∀ c ∈ ds, isDigit c = true) :
    scanLoop st false ds = (eatDigits st ds, []) := by
  have := scanLoop_digits st ds [] h
  simpa [scanLoop] using this

theorem scanLoop_floatText (st : Scan) (d1 d2 d3 tail : List Char) (dot ex : Bool) (sg : Char)
    (hsci : st.sci = false) (hdec : st.dec = false)
    (h1 : ∀ c ∈ d1, isDigit c = true) (h2 : ∀ c ∈ d2, isDigit c = true)
    (h3 : ∀ c ∈ d3, isDigit c = true) (hne : d1 ≠ []) (hsg : sg = '+' ∨ sg = '-')
    (htail : ∀ s : Scan, scanLoop s false tail = (s, tail)) :
    scanLoop st false (floatText d1 dot d2 ex sg d3 ++ tail) =
      (floatState st d1 dot d2 ex sg d3, tail) := by
  have f1 := eatDigits_flags st d1
  unfold floatText floatState
  rw [List.append_assoc, List.append_assoc, scanLoop_digits st d1 _ h1]
  have hm1 : (eatDigits st d1).hasMant = true := f1.2.2.2.2.1 hsci hne
  have hs1 : (eatDigits st d1).sci = false := by rw [f1.1, hsci]
  have hd1 : (eatDigits st d1).dec = false := by rw [f1.2.1, hdec]
  -- the state after the optional fraction, and what it has kept
  have key : ∀ X : List Char,
      scanLoop (eatDigits st d1) false ((if dot then '.' :: d2 else []) ++ X) =
        scanLoop (if dot then eatDigits { eatDigits st d1 with dec := true } d2
          else eatDigits st d1) false X ∧
      (if dot then eatDigits { eatDigits st d1 with dec := true } d2
          else eatDigits st d1).sci = false ∧
      (if dot then eatDigits { eatDigits st d1 with dec := true } d2
          else eatDigits st d1).hasMant = true := by
    intro X
    cases dot with
    | false => exact ⟨rfl, hs1, hm1⟩
    | true =>
      have f2 := eatDigits_flags { eatDigits st d1 with dec := true } d2
      simp only [↓reduceIte, List.cons_append]
      refine ⟨?_, by rw [f2.1]; exact hs1, f2.2.2.2.1 hm1⟩
      rw [scanLoop]
      simp only [Bool.false_and, Bool.false_eq_true, ↓reduceIte,
        show isDigit '.' = false by decide, hd1, hs1, Bool.not_false, Bool.and_self,
        decide_True]
      exact scanLoop_digits _ d2 X h2
  obtain ⟨k1, k2, k3⟩ := key ((if ex then 'e' :: sg :: d3 else []) ++ tail)
  rw [k1]
  cases ex with
  | false => simp only [Bool.false_eq_true, ↓reduceIte, List.nil_append]; exact htail _
  | true =>
    simp only [↓reduceIte, List.cons_append]
    rw [scanLoop]
    simp only [Bool.false_and, Bool.false_eq_true, ↓reduceIte,
      show isDigit 'e' = false by decide, show ('e' = '.') = False by decide, decide_False,
      k2, k3, Bool.not_false, Bool.and_self, Bool.and_true, decide_True, Bool.true_or]
    rw [scanLoop]
    have hsg' : (decide (sg = '+') || decide (sg = '-')) = true := by
      rcases hsg with rfl | rfl <;> decide
    simp only [Bool.true_and, hsg', ↓reduceIte]
    rw [scanLoop_digits _ d3 tail h3]
    exact htail _

theorem stripZeros_digits (ds : List Char) (h : ∀ c ∈ ds, isDigit c = true) :
    ∀ c ∈ stripZeros ds, isDigit c = true :=
  fun c hc => h c (mem_stripZeros ds c hc)

theorem printNat_isDigit (n : Nat) : ∀ c ∈ printNat n, isDigit c = true := by
  intro c hc
  rw [printNat_eq] at hc
  exact specDecimal_isDigit n c hc

theorem fmtPos_shape (mag : Nat) :
    ∃ (d1 d2 d3 : List Char) (dot ex : Bool) (sg : Char),
      fmtPos mag = floatText d1 dot d2 ex sg d3 ∧
      (∀ c ∈ d1, isDigit c = true) ∧ (∀ c ∈ d2, isDigit c = true) ∧
      (∀ c ∈ d3, isDigit c = true) ∧ d1 ≠ [] ∧ (sg = '+' ∨ sg = '-') := by
  have hd := printNat_isDigit (sixDigits mag).1
  obtain ⟨c0, cs0, hc0, _⟩ := printNat_head_isDigit (sixDigits mag).1
  have htake : ∀ k, ∀ c ∈ (printNat (sixDigits mag).1).take k, isDigit c = true :=
    fun k c hc => hd c (List.mem_of_mem_take hc)
  have hdrop : ∀ k, ∀ c ∈ stripZeros ((printNat (sixDigits mag).1).drop k), isDigit c = true :=
    fun k => stripZeros_digits _ (fun c hc => hd c (List.mem_of_mem_drop hc))
  unfold fmtPos
  simp only
  split
  · refine ⟨(printNat (sixDigits mag).1).take ((sixDigits mag).2.toNat + 1),
      stripZeros ((printNat (sixDigits mag).1).drop ((sixDigits mag).2.toNat + 1)), [],
      !decide (stripZeros ((printNat (sixDigits mag).1).drop ((sixDigits mag).2.toNat + 1)) = []),
      false, '+', ?_, htake _, hdrop _, by simp, by simp [hc0], Or.inl rfl⟩
    unfold floatText
    by_cases hf : stripZeros ((printNat (sixDigits mag).1).drop ((sixDigits mag).2.toNat + 1)) = []
    · simp [hf]
    · simp [hf]
  · split
    · refine ⟨['0'], List.replicate ((-(sixDigits mag).2).toNat - 1) '0' ++
          stripZeros (printNat (sixDigits mag).1), [], true, false, '+', ?_, ?_, ?_, by simp,
          by simp, Or.inl rfl⟩
      · simp [floatText]
      · intro c hc; simp only [List.mem_singleton] at hc; subst hc; decide
      · intro c hc
        simp only [List.mem_append, List.mem_replicate] at hc
        rcases hc with ⟨_, rfl⟩ | hc
        · decide
        · exact stripZeros_digits _ hd c hc
    · refine ⟨(printNat (sixDigits mag).1).take 1,
        stripZeros ((printNat (sixDigits mag).1).drop 1),
        (if (printNat (sixDigits mag).2.natAbs).length < 2
          then '0' :: printNat (sixDigits mag).2.natAbs else printNat (sixDigits mag).2.natAbs),
        !decide (stripZeros ((printNat (sixDigits mag).1).drop 1) = []), true,
        (if (sixDigits mag).2 < 0 then '-' else '+'), ?_, htake _, hdrop _, ?_,
        by simp [hc0], ?_⟩
      · unfold floatText
        by_cases hf : stripZeros ((printNat (sixDigits mag).1).drop 1) = []
        · simp [hf]
        · simp [hf]
      · intro c hc
        split at hc
        · simp only [List.mem_cons] at hc
          rcases hc with rfl | hc
          · decide
          · exact printNat_isDigit _ c hc
        · exact printNat_isDigit _ c hc
      · split
        · exact Or.inr rfl
        · exact Or.inl rfl

theorem scanFloat_fmtFloat (s : Bool) (m : Nat) (tail : List Char)
    (htail : ∀ st : Scan, scanLoop st false tail = (st, tail)) :
    scanFloat (fmtFloat (.fin s m) ++ tail) = ((scanFloat (fmtFloat (.fin s m))).1, tail) := by
  -- the unsigned part is a numeral
  have hbody : ∃ (d1 d2 d3 : List Char) (dot ex : Bool) (sg : Char),
      (if m = 0 then ['0'] else fmtPos m) = floatText d1 dot d2 ex sg d3 ∧
      (∀ c ∈ d1, isDigit c = true) ∧ (∀ c ∈ d2, isDigit c = true) ∧
      (∀ c ∈ d3, isDigit c = true) ∧ d1 ≠ [] ∧ (sg = '+' ∨ sg = '-') := by
    split
    · exact ⟨['0'], [], [], false, false, '+', by simp [floatText],
        by intro c hc; simp only [List.mem_singleton] at hc; subst hc; decide,
        by simp, by simp, by simp, Or.inl rfl⟩
    · exact fmtPos_shape m
  obtain ⟨d1, d2, d3, dot, ex, sg, hb, h1, h2, h3, hne, hsg⟩ := hbody
  have hscan : ∀ (st : Scan) (T : List Char), st.sci = false → st.dec = false →
      (∀ s' : Scan, scanLoop s' false T = (s', T)) →
      scanLoop st false ((if m = 0 then ['0'] else fmtPos m) ++ T) =
        (floatState st d1 dot d2 ex sg d3, T) := by
    intro st T hs hd hT
    rw [hb]
    exact scanLoop_floatText st d1 d2 d3 T dot ex sg hs hd h1 h2 h3 hne hsg hT
  have hnil : ∀ s' : Scan, scanLoop s' false [] = (s', []) := fun _ => rfl
  cases s with
  | true =>
    have e : ∀ T, scanFloat (fmtFloat (.fin true m) ++ T) =
        scanLoop { neg := true } false ((if m = 0 then ['0'] else fmtPos m) ++ T) := by
      intro T
      simp [fmtFloat, scanFloat]
    have e0 := e []
    simp only [List.append_nil] at e0
    have hL := hscan { neg := true } tail rfl rfl htail
    have hR := hscan { neg := true } [] rfl rfl hnil
    rw [List.append_nil] at hR
    rw [e tail, hL, e0, hR]
  | false =>
    -- the first character is a digit, not a sign
    obtain ⟨c0, cs0, hd1⟩ : ∃ c0 cs0, d1 = c0 :: cs0 := by
      cases d1 with
      | nil => exact absurd rfl hne
      | cons c cs => exact ⟨c, cs, rfl⟩
    have hc0 : isDigit c0 = true := h1 c0 (by simp [hd1])
    have hp : c0 ≠ '+' := by rintro rfl; revert hc0; decide
    have hmn : c0 ≠ '-' := by rintro rfl; revert hc0; decide
    have e : ∀ T, scanFloat (fmtFloat (.fin false m) ++ T) =
        scanLoop {} false ((if m = 0 then ['0'] else fmtPos m) ++ T) := by
      intro T
      simp only [fmtFloat, Bool.false_eq_true, ↓reduceIte, List.nil_append]
      rw [hb]
      simp only [floatText, hd1, List.cons_append, scanFloat, hp, hmn, ↓reduceIte]
    have e0 := e []
    simp only [List.append_nil] at e0
    have hL := hscan {} tail rfl rfl htail
    have hR := hscan {} [] rfl rfl hnil
    rw [List.append_nil] at hR
    rw [e tail, hL, e0, hR]

theorem skipWs_append (ws : List Char) (c : Char) (cs : List Char)
    (hws : ∀ x ∈ ws, isSpace x = true) (hc : isSpace c = false) :
    skipWs (ws ++ c :: cs) = c :: cs := by
  induction ws with
  | nil => simp [skipWs, hc]
  | cons w ws ih =>
    simp only [List.cons_append, skipWs, hws w (by simp), ↓reduceIte]
    exact ih (fun x hx => hws x (by simp [hx]))

theorem fmtFloat_head (x : F32) : ∃ c cs, fmtFloat x = c :: cs ∧ isSpace c = false := by
  cases h : fmtFloat x with
  | nil => exact absurd h (fmtFloat_ne_nil x)
  | cons c cs =>
    refine ⟨c, cs, rfl, ?_⟩
    have := isNumChar_fmtFloat x c (by rw [h]; simp)
    exact (isNumChar_not_space c this).1

theorem extractFloat_fmtFloat (ws rest : List Char) (s : Bool) (m : Nat) (c : Char) (old : F32)
    (hws : ∀ x ∈ ws, isSpace x = true) (hc : c = ' ' ∨ c = '\n') :
    extractFloat ⟨ws ++ (fmtFloat (.fin s m) ++ c :: rest), false⟩ old =
      (⟨c :: rest, !(reread (.fin s m)).2⟩, (reread (.fin s m)).1) := by
  obtain ⟨c0, cs0, h0, hsp⟩ := fmtFloat_head (.fin s m)
  have hskip : skipWs (ws ++ (fmtFloat (.fin s m) ++ c :: rest)) =
      fmtFloat (.fin s m) ++ c :: rest := by
    rw [h0, List.cons_append]
    exact skipWs_append ws c0 _ hws hsp
  have hscan := scanFloat_fmtFloat s m (c :: rest) (fun st => scanLoop_stop st c rest hc)
  unfold extractFloat
  simp only [Bool.false_eq_true, ↓reduceIte, hskip]
  rw [h0, List.cons_append]
  simp only
  rw [← List.cons_append, ← h0, hscan]
  rfl

theorem reread_ok_finite (x : F32) (h : (reread x).2 = true) : ∃ s m, x = .fin s m := by
  rcases x with _ | s | ⟨s, m⟩
  · exact absurd h (by decide)
  · cases s
    · exact absurd h (by decide)
    · exact absurd h (by decide)
  · exact ⟨s, m, rfl⟩

theorem readVec3_line (junk v : Vec3) (ws rest : List Char)
    (hws : ∀ x ∈ ws, isSpace x = true) (hv : rereadOk v = true) :
    readVec3 ⟨ws ++ (fmtFloat v.x ++ [' '] ++ fmtFloat v.y ++ [' '] ++ fmtFloat v.z ++ ['\n'] ++
        rest), false⟩ junk = (⟨'\n' :: rest, false⟩, rereadVec3 v) := by
  simp only [rereadOk, Bool.and_eq_true] at hv
  obtain ⟨⟨hx, hy⟩, hz⟩ := hv
  obtain ⟨sx, mx, ex⟩ := reread_ok_finite _ hx
  obtain ⟨sy, my, ey⟩ := reread_ok_finite _ hy
  obtain ⟨sz, mz, ez⟩ := reread_ok_finite _ hz
  have e1 := extractFloat_fmtFloat ws
    (fmtFloat v.y ++ [' '] ++ fmtFloat v.z ++ ['\n'] ++ rest) sx mx ' ' junk.x hws (Or.inl rfl)
  have e2 := extractFloat_fmtFloat [' '] (fmtFloat v.z ++ ['\n'] ++ rest) sy my ' ' junk.y
    (by intro x hx'; simp only [List.mem_singleton] at hx'; subst hx'; decide) (Or.inl rfl)
  have e3 := extractFloat_fmtFloat [' '] rest sz mz '\n' junk.z
    (by intro x hx'; simp only [List.mem_singleton] at hx'; subst hx'; decide) (Or.inr rfl)
  rw [← ex] at e1
  rw [← ey] at e2
  rw [← ez] at e3
  rw [hx] at e1
  rw [hy] at e2
  rw [hz] at e3
  simp only [Bool.not_true, List.append_assoc, List.singleton_append, List.cons_append,
    List.nil_append] at e1 e2 e3 ⊢
  unfold readVec3
  simp only [e1, e2, e3, rereadVec3]

theorem readVertices_written (junk : Vec3) (vs : List Vec3) (ws rest : List Char)
    (acc : List Vec3) (hws : ∀ x ∈ ws, isSpace x = true)
    (hv : ∀ v ∈ vs, rereadOk v = true) :
    readVertices junk vs.length ⟨ws ++ (writeVertices vs ++ rest), false⟩ acc =
      acc ++ vs.map rereadVec3 := by
  induction vs generalizing ws acc with
  | nil => simp [readVertices]
  | cons v vs ih =>
    have h1 := readVec3_line junk v ws (writeVertices vs ++ rest) hws (hv v (by simp))
    simp only [List.length_cons, readVertices, writeVertices, List.append_assoc] at h1 ⊢
    rw [h1]
    have := ih ['\n'] (acc ++ [rereadVec3 v])
      (by intro x hx'; simp only [List.mem_singleton] at hx'; subst hx'; decide)
      (fun u hu => hv u (by simp [hu]))
    simp only [List.singleton_append, List.append_assoc] at this
    rw [this]
    simp

/-! ## The order of floating-point values -/

theorem Flt.lt_irrefl {f : Fmt} (a : Flt f) : Flt.lt a a = false := by
  rcases a with _ | s | ⟨s, m⟩
  · rfl
  · cases s <;> rfl
  · simp [Flt.lt]

theorem Flt.lt_not_nan {f : Fmt} (a b : Flt f) (h : Flt.lt a b = true) :
    a.isNaN = false ∧ b.isNaN = false := by
  rcases a with _ | s | ⟨s, m⟩ <;> rcases b with _ | t | ⟨t, n⟩ <;>
    simp_all [Flt.lt, Flt.isNaN]

theorem Flt.lt_trans {f : Fmt} (a b c : Flt f) (h1 : Flt.lt a b = true)
    (h2 : Flt.lt b c = true) : Flt.lt a c = true := by
  rcases a with _ | s | ⟨s, m⟩ <;> rcases b with _ | t | ⟨t, n⟩ <;>
    rcases c with _ | u | ⟨u, k⟩ <;>
    simp_all [Flt.lt]
  omega

theorem Flt.le_lt_trans {f : Fmt} (a b c : Flt f) (h1 : Flt.le a b = true)
    (h2 : Flt.lt b c = true) : Flt.lt a c = true := by
  rcases a with _ | s | ⟨s, m⟩ <;> rcases b with _ | t | ⟨t, n⟩ <;>
    rcases c with _ | u | ⟨u, k⟩ <;>
    simp_all [Flt.lt, Flt.le]
  omega

theorem Flt.lt_or_le {f : Fmt} (a b : Flt f) (ha : a.isNaN = false) (hb : b.isNaN = false) :
    Flt.lt a b = true ∨ Flt.le b a = true := by
  rcases a with _ | s | ⟨s, m⟩ <;> rcases b with _ | t | ⟨t, n⟩ <;>
    simp_all [Flt.lt, Flt.le, Flt.isNaN]
  · cases s <;> cases t <;> simp
  · omega

theorem Flt.not_le_of_lt {f : Fmt} (a b : Flt f) (h : Flt.lt a b = true) :
    Flt.le b a = false := by
  rcases a with _ | s | ⟨s, m⟩ <;> rcases b with _ | t | ⟨t, n⟩ <;>
    simp_all [Flt.lt, Flt.le]

theorem Flt.not_lt_of_lt {f : Fmt} (a b : Flt f) (h : Flt.lt a b = true) :
    Flt.lt b a = false := by
  rcases a with _ | s | ⟨s, m⟩ <;> rcases b with _ | t | ⟨t, n⟩ <;>
    simp_all [Flt.lt]
  omega

theorem Flt.le_iff_not_lt {f : Fmt} (a b : Flt f) (ha : a.isNaN = false)
    (hb : b.isNaN = false) : Flt.le a b = true ↔ Flt.lt b a = false := by
  rcases a with _ | s | ⟨s, m⟩ <;> rcases b with _ | t | ⟨t, n⟩ <;>
    simp_all [Flt.lt, Flt.le, Flt.isNaN]
  · cases s <;> cases t <;> simp

theorem Flt.lt_iff_not_le {f : Fmt} (a b : Flt f) (ha : a.isNaN = false)
    (hb : b.isNaN = false) : Flt.lt a b = true ↔ Flt.le b a = false := by
  rcases a with _ | s | ⟨s, m⟩ <;> rcases b with _ | t | ⟨t, n⟩ <;>
    simp_all [Flt.lt, Flt.le, Flt.isNaN]
  · cases s <;> cases t <;> simp

/-! ## The integer square root -/

theorem lt_two_pow_bitLenAux (fuel n : Nat) (h : n ≤ fuel) : n < 2 ^ bitLenAux fuel n := by
  induction fuel generalizing n with
  | zero =>
    have : n = 0 := by omega
    subst this; simp [bitLenAux]
  | succ k ih =>
    unfold bitLenAux
    by_cases hn : n = 0
    · subst hn; simp
    · rw [if_neg hn, pow_succ]
      have := ih (n / 2) (by omega)
      omega

theorem isqrtBits_spec (k n : Nat) (h : n < 4 ^ k) :
    isqrtBits k n * isqrtBits k n ≤ n ∧ n < (isqrtBits k n + 1) * (isqrtBits k n + 1) := by
  induction k generalizing n with
  | zero =>
    have : n = 0 := by simpa using h
    subst this; simp [isqrtBits]
  | succ k ih =>
    have h4 : n / 4 < 4 ^ k := by
      rw [pow_succ] at h
      omega
    obtain ⟨h1, h2⟩ := ih (n / 4) h4
    unfold isqrtBits
    simp only
    generalize isqrtBits k (n / 4) = q at h1 h2 ⊢
    have hq : 4 * (n / 4) ≤ n ∧ n ≤ 4 * (n / 4) + 3 := by omega
    split
    · rename_i hle
      refine ⟨hle, ?_⟩
      nlinarith
    · rename_i hlt
      refine ⟨?_, by omega⟩
      nlinarith

/-- The function `isqrt` is the floor of the square root. -/
theorem isqrt_spec (n : Nat) : isqrt n * isqrt n ≤ n ∧ n < (isqrt n + 1) * (isqrt n + 1) := by
  apply isqrtBits_spec
  have h1 := lt_two_pow_bitLenAux n n (le_refl n)
  have h2 : 2 ^ bitLen n ≤ 4 ^ bitLen n :=
    Nat.pow_le_pow_left (by norm_num) _
  unfold bitLen at h2 ⊢
  omega

/-! ## Picking the nearest vertex -/

theorem pickLoop_spec (o d : vec3) (rest : List Vec3) (i picked : Int) (minDist : F32) :
    (pickLoop o d rest i picked minDist = picked ∧
      ∀ w ∈ rest, Flt.lt (vertexDist o d w) minDist = false) ∨
    (∃ (k : Nat) (v : Vec3), rest[k]? = some v ∧
      pickLoop o d rest i picked minDist = i + k ∧
      Flt.lt (vertexDist o d v) minDist = true ∧
      (∀ w ∈ rest, Flt.lt (vertexDist o d w) (vertexDist o d v) = false) ∧
      (∀ (j : Nat) (w : Vec3), j < k → rest[j]? = some w →
        Flt.le (vertexDist o d w) (vertexDist o d v) = false)) := by
  induction rest generalizing i picked minDist with
  | nil => left; simp [pickLoop]
  | cons v0 rest ih =>
    by_cases h0 : Flt.lt (vertexDist o d v0) minDist = true
    · simp only [pickLoop, h0, ↓reduceIte]
      rcases ih (i + 1) i (vertexDist o d v0) with ⟨hr, hall⟩ | ⟨k, v, hk, hr, hlt, hmin, hearly⟩
      · right
        refine ⟨0, v0, by simp, by simpa using hr, h0, ?_, ?_⟩
        · intro w hw
          simp only [List.mem_cons] at hw
          rcases hw with rfl | hw
          · exact Flt.lt_irrefl _
          · exact hall w hw
        · intro j w hj; omega
      · right
        refine ⟨k + 1, v, by simpa using hk, by rw [hr]; push_cast; ring,
          Flt.lt_trans _ _ _ hlt h0, ?_, ?_⟩
        · intro w hw
          simp only [List.mem_cons] at hw
          rcases hw with rfl | hw
          · exact Flt.not_lt_of_lt _ _ hlt
          · exact hmin w hw
        · intro j w hj hw
          cases j with
          | zero =>
            simp only [List.getElem?_cons_zero, Option.some.injEq] at hw
            subst hw
            exact Flt.not_le_of_lt _ _ hlt
          | succ j =>
            simp only [List.getElem?_cons_succ] at hw
            exact hearly j w (by omega) hw
    · have h0' : Flt.lt (vertexDist o d v0) minDist = false := by simpa using h0
      simp only [pickLoop, h0', Bool.false_eq_true, ↓reduceIte]
      rcases ih (i + 1) picked minDist with ⟨hr, hall⟩ | ⟨k, v, hk, hr, hlt, hmin, hearly⟩
      · left
        refine ⟨hr, ?_⟩
        intro w hw
        simp only [List.mem_cons] at hw
        rcases hw with rfl | hw
        · exact h0'
        · exact hall w hw
      · right
        refine ⟨k + 1, v, by simpa using hk, by rw [hr]; push_cast; ring, hlt, ?_, ?_⟩
        · intro w hw
          simp only [List.mem_cons] at hw
          rcases hw with rfl | hw
          · by_contra hc
            have hc' : Flt.lt (vertexDist o d w) (vertexDist o d v) = true := by simpa using hc
            rw [Flt.lt_trans _ _ _ hc' hlt] at h0'
            exact absurd h0' (by simp)
          · exact hmin w hw
        · intro j w hj hw
          cases j with
          | zero =>
            simp only [List.getElem?_cons_zero, Option.some.injEq] at hw
            subst hw
            by_contra hc
            have hc' : Flt.le (vertexDist o d v0) (vertexDist o d v) = true := by simpa using hc
            rw [Flt.le_lt_trans _ _ _ hc' hlt] at h0'
            exact absurd h0' (by simp)
          | succ j =>
            simp only [List.getElem?_cons_succ] at hw
            exact hearly j w (by omega) hw

/-- The vertex `v` at position `i` is the one the claim describes, in the
comparisons of the program: its distance is below `maxDist`, no vertex has a
smaller distance, and no earlier vertex has a distance less than or equal. -/
theorem pick_unique (o d : vec3) (vs : List Vec3) (maxDist : F32) (i k : Nat) (v u : Vec3)
    (hi : vs[i]? = some v) (hk : vs[k]? = some u)
    (hv : Flt.lt (vertexDist o d v) maxDist = true)
    (hu : Flt.lt (vertexDist o d u) maxDist = true)
    (hvmin : ∀ w ∈ vs, Flt.lt (vertexDist o d w) (vertexDist o d v) = false)
    (humin : ∀ w ∈ vs, Flt.lt (vertexDist o d w) (vertexDist o d u) = false)
    (hvearly : ∀ (j : Nat) (w : Vec3), j < i → vs[j]? = some w →
      Flt.le (vertexDist o d w) (vertexDist o d v) = false)
    (huearly : ∀ (j : Nat) (w : Vec3), j < k → vs[j]? = some w →
      Flt.le (vertexDist o d w) (vertexDist o d u) = false) : i = k := by
  have nv := (Flt.lt_not_nan _ _ hv).1
  have nu := (Flt.lt_not_nan _ _ hu).1
  have memv : v ∈ vs := List.getElem?_mem hi
  have memu : u ∈ vs := List.getElem?_mem hk
  rcases Nat.lt_trichotomy i k with h | h | h
  · exfalso
    have h1 := huearly i v h hi
    have h2 := hvmin u memu
    rcases Flt.lt_or_le _ _ nu nv with h3 | h3
    · rw [h3] at h2; simp at h2
    · rw [h3] at h1; simp at h1
  · exact h
  · exfalso
    have h1 := hvearly k u h hk
    have h2 := humin v memv
    rcases Flt.lt_or_le _ _ nv nu with h3 | h3
    · rw [h3] at h2; simp at h2
    · rw [h3] at h1; simp at h1

theorem pick_minus_one_iff (vs : List Vec3) (o d : vec3) (maxDist : F32) :
    pickNearestVertex vs o d maxDist = -1 ↔
      ∀ w ∈ vs, Flt.lt (vertexDist o d w) maxDist = false := by
  unfold pickNearestVertex
  rcases pickLoop_spec o d vs 0 (-1) maxDist with ⟨hr, hall⟩ | ⟨k, v, hk, hr, hlt, _, _⟩
  · exact ⟨fun _ => hall, fun _ => hr⟩
  · constructor
    · intro h; rw [hr] at h; omega
    · intro h
      have := h v (List.getElem?_mem hk)
      rw [hlt] at this; simp at this

theorem pick_index_iff (vs : List Vec3) (o d : vec3) (maxDist : F32) (i : Nat) :
    pickNearestVertex vs o d maxDist = (i : Int) ↔
      ∃ v, vs[i]? = some v ∧ Flt.lt (vertexDist o d v) maxDist = true ∧
        (∀ w ∈ vs, Flt.lt (vertexDist o d w) (vertexDist o d v) = false) ∧
        (∀ (j : Nat) (w : Vec3), j < i → vs[j]? = some w →
          Flt.le (vertexDist o d w) (vertexDist o d v) = false) := by
  unfold pickNearestVertex
  rcases pickLoop_spec o d vs 0 (-1) maxDist with ⟨hr, hall⟩ | ⟨k, v, hk, hr, hlt, hmin, hearly⟩
  · constructor
    · intro h; rw [hr] at h; omega
    · rintro ⟨v, hv, hlt, _, _⟩
      have := hall v (List.getElem?_mem hv)
      rw [hlt] at this; simp at this
  · constructor
    · intro h
      rw [hr] at h
      have : k = i := by omega
      subst this
      exact ⟨v, hk, hlt, hmin, hearly⟩
    · rintro ⟨u, hu, hult, humin, huearly⟩
      have := pick_unique o d vs maxDist i k u v hu hk hult hlt humin hmin huearly hearly
      rw [hr, this]; simp

/-- C3 fails on the code.  With the finite vertices `(3e38, 3e38, 0)` and
`(0, 0, 5)`, the ray from `(0, 0, 5)` along `(0.6, 0.8, 0)` and
`maxDist = 0.05`, index 1 is returned, although its distance is not strictly
smaller than the distance of the vertex with the smaller index 0: that
distance is a NaN, which compares false with everything. -/
theorem pick_counterexample :
    pickNearestVertex exFar exOrigin exSkew defaultMaxDist = 1 ∧
    exFar[1]? = some ⟨F32.ofNat 0, F32.ofNat 0, F32.ofNat 5⟩ ∧
    exFar[0]? = some ⟨F32.ofNat (3 * 10 ^ 38), F32.ofNat (3 * 10 ^ 38), F32.ofNat 0⟩ ∧
    Flt.lt (vertexDist exOrigin exSkew ⟨F32.ofNat 0, F32.ofNat 0, F32.ofNat 5⟩)
      (vertexDist exOrigin exSkew
        ⟨F32.ofNat (3 * 10 ^ 38), F32.ofNat (3 * 10 ^ 38), F32.ofNat 0⟩) = false ∧
    vertexDist exOrigin exSkew
      ⟨F32.ofNat (3 * 10 ^ 38), F32.ofNat (3 * 10 ^ 38), F32.ofNat 0⟩ = .nan := by
  decide!

/-- C3 as amended.  With the distance of a vertex computed as the program
does: `pickNearestVertex` returns `-1` exactly when no vertex has a distance
strictly less than `maxDist` (so for the empty list); it returns the index `i`
exactly when the distance of vertex `i` is strictly less than `maxDist`, no
vertex has a strictly smaller distance, and no vertex with a smaller index has
a distance less than or equal to it.  When no distance is a NaN this is the
claim as written: vertex `i` is no farther than any vertex and strictly nearer
than every earlier one.  The two examples of the claim evaluate to `0` and to
`-1`. -/
theorem pick_characterisation (vs : List Vec3) (o d : vec3) (maxDist : F32) :
    (pickNearestVertex vs o d maxDist = -1 ↔
      ∀ w ∈ vs, Flt.lt (vertexDist o d w) maxDist = false) ∧
    (∀ i : Nat, pickNearestVertex vs o d maxDist = (i : Int) ↔
      ∃ v, vs[i]? = some v ∧ Flt.lt (vertexDist o d v) maxDist = true ∧
        (∀ w ∈ vs, Flt.lt (vertexDist o d w) (vertexDist o d v) = false) ∧
        (∀ (j : Nat) (w : Vec3), j < i → vs[j]? = some w →
          Flt.le (vertexDist o d w) (vertexDist o d v) = false)) ∧
    ((∀ w ∈ vs, (vertexDist o d w).isNaN = false) →
      ∀ i : Nat, pickNearestVertex vs o d maxDist = (i : Int) ↔
        ∃ v, vs[i]? = some v ∧ Flt.lt (vertexDist o d v) maxDist = true ∧
          (∀ w ∈ vs, Flt.le (vertexDist o d v) (vertexDist o d w) = true) ∧
          (∀ (j : Nat) (w : Vec3), j < i → vs[j]? = some w →
            Flt.lt (vertexDist o d v) (vertexDist o d w) = true)) ∧
    pickNearestVertex exOnRay exOrigin exDirection defaultMaxDist = 0 ∧
    pickNearestVertex exOffRay exOrigin exDirection defaultMaxDist = -1 ∧
    pickNearestVertex [] o d maxDist = -1 := by
  refine ⟨pick_minus_one_iff vs o d maxDist, pick_index_iff vs o d maxDist, ?_, by decide!,
    by decide!, rfl⟩
  intro hnan i
  rw [pick_index_iff]
  constructor
  · rintro ⟨v, hv, hlt, hmin, hearly⟩
    have nv := hnan v (List.getElem?_mem hv)
    refine ⟨v, hv, hlt, ?_, ?_⟩
    · intro w hw
      exact (Flt.le_iff_not_lt _ _ nv (hnan w hw)).mpr (hmin w hw)
    · intro j w hj hw
      exact (Flt.lt_iff_not_le _ _ nv (hnan w (List.getElem?_mem hw))).mpr (hearly j w hj hw)
  · rintro ⟨v, hv, hlt, hmin, hearly⟩
    have nv := hnan v (List.getElem?_mem hv)
    refine ⟨v, hv, hlt, ?_, ?_⟩
    · intro w hw
      exact (Flt.le_iff_not_lt _ _ nv (hnan w hw)).mp (hmin w hw)
    · intro j w hj hw
      exact (Flt.lt_iff_not_le _ _ nv (hnan w (List.getElem?_mem hw))).mp (hearly j w hj hw)

/-- Witness for the amended C3: the first example of the claim has no NaN
distance, so the claim's own wording describes the picked index there. -/
theorem pick_characterisation_witness :
    (∀ w ∈ exOnRay, (vertexDist exOrigin exDirection w).isNaN = false) ∧
    ∀ i : Nat, pickNearestVertex exOnRay exOrigin exDirection defaultMaxDist = (i : Int) ↔
      ∃ v, exOnRay[i]? = some v ∧
        Flt.lt (vertexDist exOrigin exDirection v) defaultMaxDist = true ∧
        (∀ w ∈ exOnRay,
          Flt.le (vertexDist exOrigin exDirection v) (vertexDist exOrigin exDirection w) = true) ∧
        (∀ (j : Nat) (w : Vec3), j < i → exOnRay[j]? = some w →
          Flt.lt (vertexDist exOrigin exDirection v) (vertexDist exOrigin exDirection w) = true) :=
  ⟨by decide!,
   (pick_characterisation exOnRay exOrigin exDirection defaultMaxDist).2.2.1 (by decide!)⟩

/-! ## The selection history -/

theorem scroll_callback_other (a : App) (x y : F64) :
    (scroll_callback a x y).vertices = a.vertices ∧
    (scroll_callback a x y).selectedIndices = a.selectedIndices ∧
    (scroll_callback a x y).pitch = a.pitch ∧
    (scroll_callback a x y).lastX = a.lastX ∧ (scroll_callback a x y).lastY = a.lastY ∧
    (scroll_callback a x y).rightMousePressed = a.rightMousePressed := by
  unfold scroll_callback
  simp only [and_self]

theorem cursor_position_callback_other (a : App) (x y : F64) :
    (cursor_position_callback a x y).vertices = a.vertices ∧
    (cursor_position_callback a x y).selectedIndices = a.selectedIndices ∧
    (cursor_position_callback a x y).zoom = a.zoom ∧
    (cursor_position_callback a x y).rightMousePressed = a.rightMousePressed := by
  unfold cursor_position_callback
  split
  · simp only [and_self]
  · simp only [and_self]

theorem mouse_button_callback_other (a : App) (b act : Int) (x y : F64) (ray cam : vec3) :
    (mouse_button_callback a b act x y ray cam).1.vertices = a.vertices ∧
    (mouse_button_callback a b act x y ray cam).1.pitch = a.pitch ∧
    (mouse_button_callback a b act x y ray cam).1.zoom = a.zoom := by
  unfold mouse_button_callback
  dsimp only
  split
  · split <;> simp only [and_self]
  · split
    · split
      · simp only [and_self]
      · split <;> simp only [and_self]
    · simp only [and_self]

theorem step_vertices (a : App) (e : Event) : (step a e).vertices = a.vertices := by
  cases e with
  | cursorPos x y => exact (cursor_position_callback_other a x y).1
  | scroll x y => exact (scroll_callback_other a x y).1
  | mouseButton b act x y ray cam => exact (mouse_button_callback_other a b act x y ray cam).1

theorem run_vertices (a : App) (es : List Event) : (run a es).vertices = a.vertices := by
  induction es generalizing a with
  | nil => rfl
  | cons e es ih => simp only [run]; rw [ih, step_vertices]

theorem step_selectedIndices (a : App) (e : Event) :
    (step a e).selectedIndices =
      match specPick a.vertices e with
      | none => a.selectedIndices
      | some k => (selectVertex a.vertices a.selectedIndices k).1 := by
  cases e with
  | cursorPos x y => exact (cursor_position_callback_other a x y).2.1
  | scroll x y => exact (scroll_callback_other a x y).2.1
  | mouseButton b act x y ray cam =>
    show (mouse_button_callback a b act x y ray cam).1.selectedIndices = _
    unfold mouse_button_callback specPick
    dsimp only
    by_cases h1 : b = GLFW_MOUSE_BUTTON_LEFT ∧ act = GLFW_PRESS
    · by_cases h2 : pickNearestVertex a.vertices cam ray defaultMaxDist = -1
      · simp [h1, h2]
      · simp [h1, h2]
    · have h3 : ¬ (b = GLFW_MOUSE_BUTTON_LEFT ∧ act = GLFW_PRESS ∧
          pickNearestVertex a.vertices cam ray defaultMaxDist ≠ -1) := fun h => h1 ⟨h.1, h.2.1⟩
      rw [if_neg h1, if_neg h3]
      split
      · split
        · rfl
        · split <;> rfl
      · rfl

theorem selectVertex_fst (vs : List Vec3) (h : List Int) (k : Int) :
    (selectVertex vs h k).1 =
      if 2 < (h ++ [k]).length then (h ++ [k]).drop 1 else h ++ [k] := rfl

theorem selectVertex_lastTwo (vs : List Vec3) (h : List Int) (k : Int) (hl : h.length ≤ 2) :
    (selectVertex vs h k).1 = specLastTwo (h ++ [k]) := by
  rw [selectVertex_fst]
  match h, hl with
  | [], _ => rfl
  | [a], _ => rfl
  | [a, b], _ => rfl

theorem specLastTwo_length (l : List Int) : (specLastTwo l).length ≤ 2 := by
  simp [specLastTwo]

theorem specLastTwo_snoc (l : List Int) (k : Int) :
    specLastTwo (specLastTwo l ++ [k]) = specLastTwo (l ++ [k]) := by
  simp [specLastTwo, List.take_take]

theorem run_selectedIndices (a : App) (es : List Event) (l : List Int)
    (h : a.selectedIndices = specLastTwo l) :
    (run a es).selectedIndices = specLastTwo (l ++ es.filterMap (specPick a.vertices)) := by
  induction es generalizing a l with
  | nil => simpa [run] using h
  | cons e es ih =>
    simp only [run, List.filterMap_cons]
    cases hp : specPick a.vertices e with
    | none =>
      have hs : (step a e).selectedIndices = specLastTwo l := by
        rw [step_selectedIndices, hp]; exact h
      simpa [step_vertices] using ih (step a e) l hs
    | some k =>
      have hs : (step a e).selectedIndices = specLastTwo (l ++ [k]) := by
        rw [step_selectedIndices, hp]
        simp only
        rw [selectVertex_lastTwo _ _ _ (by rw [h]; exact specLastTwo_length l), h,
          specLastTwo_snoc]
      simpa [step_vertices] using ih (step a e) (l ++ [k]) hs

/-- C4. A successful pick of `k` on a history `h` of length at most 2 leaves
`h` with `k` appended and, if that has length 3, without its front element.
In every state reached from the initial one the history has length at most 2
and consists of the last two picked indices, in the order they were picked.
Pushing `k3` onto `[k1, k2]` gives `[k2, k3]`. -/
theorem selection_history (vs : List Vec3) :
    (∀ (a : App) (xpos ypos : F64) (ray cameraPos : vec3) (k : Int),
      a.selectedIndices.length ≤ 2 →
      pickNearestVertex a.vertices cameraPos ray defaultMaxDist = k → k ≠ -1 →
      (mouse_button_callback a GLFW_MOUSE_BUTTON_LEFT GLFW_PRESS xpos ypos ray
          cameraPos).1.selectedIndices =
        if (a.selectedIndices ++ [k]).length = 3 then (a.selectedIndices ++ [k]).tail
        else a.selectedIndices ++ [k]) ∧
    (∀ es : List Event, (run (App.init vs) es).selectedIndices.length ≤ 2) ∧
    (∀ es : List Event,
      (run (App.init vs) es).selectedIndices = specLastTwo (es.filterMap (specPick vs))) ∧
    (∀ k1 k2 k3 : Int, (selectVertex vs [k1, k2] k3).1 = [k2, k3]) := by
  have hrun : ∀ es : List Event,
      (run (App.init vs) es).selectedIndices = specLastTwo (es.filterMap (specPick vs)) := by
    intro es
    have := run_selectedIndices (App.init vs) es [] rfl
    simpa [App.init] using this
  refine ⟨?_, ?_, hrun, fun _ _ _ => rfl⟩
  · intro a xpos ypos ray cameraPos k hl hk hne
    subst hk
    unfold mouse_button_callback
    dsimp only
    rw [if_pos ⟨rfl, rfl⟩, if_pos hne]
    show (selectVertex a.vertices a.selectedIndices _).1 = _
    rw [selectVertex_fst]
    match hs : a.selectedIndices, hl with
    | [], _ => rfl
    | [x], _ => rfl
    | [x, y], _ => rfl
  · intro es
    rw [hrun]
    exact specLastTwo_length _

/-- Witness for C4: from the history `[4, 7]`, picking vertex 0 (the only
vertex, hit by the ray) gives `[7, 0]`. -/
theorem selection_history_witness :
    ([4, 7] : List Int).length ≤ 2 ∧
    pickNearestVertex [⟨F32.ofNat 0, F32.ofNat 0, F32.ofNat 0⟩] exOrigin exDirection
      defaultMaxDist = 0 ∧ (0 : Int) ≠ -1 ∧
    (mouse_button_callback
        { App.init [⟨F32.ofNat 0, F32.ofNat 0, F32.ofNat 0⟩] with selectedIndices := [4, 7] }
        GLFW_MOUSE_BUTTON_LEFT GLFW_PRESS (.fin false 0) (.fin false 0) exDirection
        exOrigin).1.selectedIndices = [7, 0] :=
  ⟨by decide, by decide!, by decide,
   (selection_history [⟨F32.ofNat 0, F32.ofNat 0, F32.ofNat 0⟩]).1
     { App.init [⟨F32.ofNat 0, F32.ofNat 0, F32.ofNat 0⟩] with selectedIndices := [4, 7] }
     (.fin false 0) (.fin false 0) exDirection exOrigin 0 (by decide) (by decide!) (by decide)⟩

/-! ## Rounding never produces a NaN, and is bounded -/

theorem Flt.round_not_nan (f : Fmt) (s : Bool) (n d : Nat) :
    (Flt.round f s n d).isNaN = false := by
  unfold Flt.round
  split <;> rfl

theorem bitLenAux_le (fuel n : Nat) (h : 0 < n) : 2 ^ bitLenAux fuel n ≤ 2 * n := by
  induction fuel generalizing n with
  | zero => simp only [bitLenAux, pow_zero]; omega
  | succ k ih =>
    have hn : n ≠ 0 := by omega
    simp only [bitLenAux, hn, ↓reduceIte, pow_succ]
    by_cases h2 : n / 2 = 0
    · have : bitLenAux k (n / 2) = 0 := by
        rw [h2]; cases k <;> simp [bitLenAux]
      rw [this]; omega
    · have := ih (n / 2) (by omega)
      omega

theorem bitLen_zero : bitLen 0 = 0 := rfl

theorem roundMag_le (f : Fmt) (num den : Nat) : roundMag f num den ≤ 3 * (num / den) + 1 := by
  unfold roundMag
  simp only
  generalize hs : bitLen (num / den) - f.prec = s
  have hpow : 2 ^ s ≤ 2 * (num / den) + 1 := by
    by_cases hq : num / den = 0
    · rw [hq, bitLen_zero] at hs
      have : s = 0 := by omega
      subst this; simp
    · have h1 := bitLenAux_le (num / den) (num / den) (Nat.pos_of_ne_zero hq)
      have h2 : 2 ^ s ≤ 2 ^ bitLen (num / den) :=
        Nat.pow_le_pow_right (by norm_num) (by omega)
      unfold bitLen at h2
      omega
  have hm : num / (den * 2 ^ s) * 2 ^ s ≤ num / den := by
    rw [← Nat.div_div_eq_div_mul]
    exact Nat.div_mul_le_self _ _
  have hstep : (if den * 2 ^ s < 2 * (num % (den * 2 ^ s)) ∨
      2 * (num % (den * 2 ^ s)) = den * 2 ^ s ∧ num / (den * 2 ^ s) % 2 = 1
      then num / (den * 2 ^ s) + 1 else num / (den * 2 ^ s)) ≤ num / (den * 2 ^ s) + 1 := by
    split <;> omega
  calc _ ≤ (num / (den * 2 ^ s) + 1) * 2 ^ s := Nat.mul_le_mul_right _ hstep
    _ = num / (den * 2 ^ s) * 2 ^ s + 2 ^ s := by ring
    _ ≤ 3 * (num / den) + 1 := by omega

theorem Flt.round_finite (f : Fmt) (s : Bool) (num den : Nat)
    (h : 3 * (num / den) + 1 ≤ f.maxMag) : (Flt.round f s num den).isFinite = true := by
  unfold Flt.round
  have := roundMag_le f num den
  rw [if_neg (by omega)]
  rfl

theorem Flt.add_not_nan {f : Fmt} (a b : Flt f) (ha : a.isFinite = true)
    (hb : b.isNaN = false) : (Flt.add a b).isNaN = false := by
  rcases a with _ | s | ⟨s, m⟩
  · simp [Flt.isFinite] at ha
  · simp [Flt.isFinite] at ha
  · rcases b with _ | t | ⟨t, n⟩
    · simp [Flt.isNaN] at hb
    · rfl
    · show (if sval s m + sval t n = 0 then Flt.fin (s && t) 0
        else Flt.round f (decide (sval s m + sval t n < 0)) (sval s m + sval t n).natAbs 1).isNaN
          = false
      split
      · rfl
      · exact Flt.round_not_nan _ _ _ _

theorem Flt.neg_not_nan {f : Fmt} (a : Flt f) (ha : a.isNaN = false) :
    (Flt.neg a).isNaN = false := by
  rcases a with _ | s | ⟨s, m⟩ <;> simp_all [Flt.neg, Flt.isNaN]

theorem Flt.sub_not_nan {f : Fmt} (a b : Flt f) (ha : a.isFinite = true)
    (hb : b.isNaN = false) : (Flt.sub a b).isNaN = false :=
  Flt.add_not_nan a _ ha (Flt.neg_not_nan b hb)

theorem Flt.mul_not_nan {f : Fmt} (a : Flt f) (s : Bool) (m : Nat) (ha : a.isNaN = false)
    (hm : m ≠ 0) : (Flt.mul a (.fin s m)).isNaN = false := by
  rcases a with _ | t | ⟨t, n⟩
  · simp [Flt.isNaN] at ha
  · simp [Flt.mul, hm, Flt.isNaN]
  · exact Flt.round_not_nan _ _ _ _

theorem Flt.cast_not_nan {f : Fmt} (g : Fmt) (a : Flt f) (ha : a.isNaN = false) :
    (Flt.cast g a).isNaN = false := by
  rcases a with _ | t | ⟨t, n⟩
  · simp [Flt.isNaN] at ha
  · rfl
  · exact Flt.round_not_nan _ _ _ _

theorem Flt.isFinite_not_nan {f : Fmt} (a : Flt f) (ha : a.isFinite = true) :
    a.isNaN = false := by
  rcases a with _ | t | ⟨t, n⟩ <;> simp_all [Flt.isNaN, Flt.isFinite]

/-! ## Clamping -/

theorem specClamp_never {f : Fmt} (x lo hi : Flt f) (h : Flt.lt lo hi = true) :
    Flt.lt (specClamp x lo hi) lo = false ∧ Flt.lt hi (specClamp x lo hi) = false := by
  unfold specClamp
  split
  · exact ⟨Flt.lt_irrefl lo, Flt.not_lt_of_lt _ _ h⟩
  · rename_i h1
    split
    · exact ⟨Flt.not_lt_of_lt _ _ h, Flt.lt_irrefl hi⟩
    · rename_i h2
      exact ⟨by simpa using h1, by simpa using h2⟩

theorem specClamp_range {f : Fmt} (x lo hi : Flt f) (h : Flt.lt lo hi = true)
    (hx : x.isNaN = false) :
    Flt.le lo (specClamp x lo hi) = true ∧ Flt.le (specClamp x lo hi) hi = true := by
  have hn := Flt.lt_not_nan _ _ h
  have hc : (specClamp x lo hi).isNaN = false := by
    unfold specClamp
    split
    · exact hn.1
    · split
      · exact hn.2
      · exact hx
  have := specClamp_never x lo hi h
  exact ⟨(Flt.le_iff_not_lt _ _ hn.1 hc).mpr this.1, (Flt.le_iff_not_lt _ _ hc hn.2).mpr this.2⟩

theorem clamp_hi_first {f : Fmt} (x lo hi : Flt f) (h : Flt.lt lo hi = true) :
    (if Flt.lt (if Flt.lt hi x then hi else x) lo then lo
      else (if Flt.lt hi x then hi else x)) = specClamp x lo hi := by
  unfold specClamp
  by_cases h1 : Flt.lt hi x = true
  · have h2 : Flt.lt hi lo = false := Flt.not_lt_of_lt _ _ h
    have h3 : Flt.lt x lo = false := by
      by_contra hc
      have hc' : Flt.lt x lo = true := by simpa using hc
      have := Flt.lt_trans _ _ _ hc' h
      rw [Flt.not_lt_of_lt _ _ h1] at this
      exact absurd this (by simp)
    simp [h1, h2, h3]
  · simp [h1]

theorem clamp_lo_first {f : Fmt} (x lo hi : Flt f) (h : Flt.lt lo hi = true) :
    (if Flt.lt hi (if Flt.lt x lo then lo else x) then hi
      else (if Flt.lt x lo then lo else x)) = specClamp x lo hi := by
  unfold specClamp
  by_cases h1 : Flt.lt x lo = true
  · have h2 : Flt.lt hi lo = false := Flt.not_lt_of_lt _ _ h
    simp [h1, h2]
  · simp [h1]

/-! ## The camera -/

theorem Flt.finite_of_between {f : Fmt} (x lo hi : Flt f) (h1 : Flt.le lo x = true)
    (h2 : Flt.le x hi = true) (hlo : lo.isFinite = true) (hhi : hi.isFinite = true) :
    x.isFinite = true := by
  rcases x with _ | s | ⟨s, m⟩ <;> rcases lo with _ | t | ⟨t, n⟩ <;>
    rcases hi with _ | u | ⟨u, k⟩ <;> simp_all [Flt.le, Flt.isFinite]

theorem camera_constants :
    Flt.lt (Flt.neg c89) c89 = true ∧ Flt.lt c0_1 c10 = true ∧
    c0_3 = .fin false (10066330 * 2 ^ 124) ∧
    Flt.cast binary64 c0_2 = .fin false (13421773 * 2 ^ 1048) ∧
    c0_1 = .fin false (13421773 * 2 ^ 122) ∧ c10 = .fin false (10 * 2 ^ 149) ∧
    c89 = .fin false (89 * 2 ^ 149) := by
  decide!

theorem cursor_pitch (a : App) (xpos ypos : F64) (h : a.rightMousePressed = true) :
    (cursor_position_callback a xpos ypos).pitch =
      specClamp (Flt.add a.pitch (Flt.mul (Flt.cast binary32 (Flt.sub ypos a.lastY)) c0_3))
        (Flt.neg c89) c89 := by
  unfold cursor_position_callback
  rw [if_pos h]
  dsimp only
  rw [clamp_hi_first _ _ _ camera_constants.1]

theorem cursor_last (a : App) (xpos ypos : F64) (h : a.rightMousePressed = true) :
    (cursor_position_callback a xpos ypos).lastX = xpos ∧
    (cursor_position_callback a xpos ypos).lastY = ypos := by
  unfold cursor_position_callback
  rw [if_pos h]
  exact ⟨rfl, rfl⟩

theorem cursor_idle (a : App) (xpos ypos : F64) (h : a.rightMousePressed = false) :
    cursor_position_callback a xpos ypos = a := by
  unfold cursor_position_callback
  rw [if_neg (by simp [h])]

theorem scroll_zoom (a : App) (xoffset yoffset : F64) :
    (scroll_callback a xoffset yoffset).zoom =
      specClamp (Flt.cast binary32 (Flt.sub (Flt.cast binary64 a.zoom)
        (Flt.mul yoffset (Flt.cast binary64 c0_2)))) c0_1 c10 := by
  unfold scroll_callback
  dsimp only
  rw [clamp_lo_first _ _ _ camera_constants.2.1]

theorem mouse_last (a : App) (b act : Int) (x y : F64) (ray cam : vec3)
    (hx : x.isFinite = true) (hy : y.isFinite = true)
    (hlx : a.lastX.isFinite = true) (hly : a.lastY.isFinite = true) :
    (mouse_button_callback a b act x y ray cam).1.lastX.isFinite = true ∧
    (mouse_button_callback a b act x y ray cam).1.lastY.isFinite = true := by
  unfold mouse_button_callback
  dsimp only
  split
  · split <;> exact ⟨hlx, hly⟩
  · split
    · split
      · exact ⟨hx, hy⟩
      · split <;> exact ⟨hlx, hly⟩
    · exact ⟨hlx, hly⟩

theorem zoom_cast_finite (z : F32) (h1 : Flt.le c0_1 z = true) (h2 : Flt.le z c10 = true) :
    (Flt.cast binary64 z).isFinite = true := by
  obtain ⟨_, _, _, _, e1, e10, _⟩ := camera_constants
  rw [e1] at h1
  rw [e10] at h2
  rcases z with _ | s | ⟨s, m⟩
  · simp [Flt.le] at h1
  · cases s <;> simp [Flt.le] at h1 h2
  · cases s
    · simp only [Flt.le, sval, Bool.false_eq_true, ↓reduceIte, Nat.cast_le,
        decide_eq_true_eq] at h2
      apply Flt.round_finite
      have e : binary64.uexp = 925 + 149 := rfl
      have e' : binary32.uexp = 149 := rfl
      rw [e, e', pow_add, ← mul_assoc, Nat.mul_div_cancel _ (by positivity)]
      have hmax : 3 * (10 * 2 ^ 149 * 2 ^ 925) + 1 ≤ binary64.maxMag := by decide!
      have : m * 2 ^ 925 ≤ 10 * 2 ^ 149 * 2 ^ 925 := Nat.mul_le_mul_right _ h2
      omega
    · simp only [Flt.le, sval, ↓reduceIte, Bool.false_eq_true, decide_eq_true_eq] at h1
      have : (0 : Int) ≤ (m : Int) := Int.natCast_nonneg m
      have hp : (0 : Int) < ((13421773 * 2 ^ 122 : Nat) : Int) := by positivity
      omega

theorem camera_finite :
    (Flt.neg c89).isFinite = true ∧ c89.isFinite = true ∧ c0_1.isFinite = true ∧
    c10.isFinite = true := by
  decide!

theorem step_bounds (a : App) (e : Event) (he : e.finite = true)
    (h : Flt.le (Flt.neg c89) a.pitch = true ∧ Flt.le a.pitch c89 = true ∧
      Flt.le c0_1 a.zoom = true ∧ Flt.le a.zoom c10 = true ∧
      a.lastX.isFinite = true ∧ a.lastY.isFinite = true) :
    Flt.le (Flt.neg c89) (step a e).pitch = true ∧ Flt.le (step a e).pitch c89 = true ∧
      Flt.le c0_1 (step a e).zoom = true ∧ Flt.le (step a e).zoom c10 = true ∧
      (step a e).lastX.isFinite = true ∧ (step a e).lastY.isFinite = true := by
  obtain ⟨hp1, hp2, hz1, hz2, hlx, hly⟩ := h
  obtain ⟨hlt89, hlt10, e03, e02, _, _, _⟩ := camera_constants
  obtain ⟨f1, f2, f3, f4⟩ := camera_finite
  cases e with
  | cursorPos x y =>
    simp only [Event.finite, Bool.and_eq_true] at he
    show _ ∧ _ ∧ _ ∧ _ ∧ (cursor_position_callback a x y).lastX.isFinite = true ∧
      (cursor_position_callback a x y).lastY.isFinite = true
    by_cases hr : a.rightMousePressed = true
    · have hfin := Flt.finite_of_between _ _ _ hp1 hp2 f1 f2
      have hx : (Flt.add a.pitch (Flt.mul (Flt.cast binary32 (Flt.sub y a.lastY)) c0_3)).isNaN
          = false := by
        apply Flt.add_not_nan _ _ hfin
        rw [e03]
        apply Flt.mul_not_nan _ _ _ _ (by positivity)
        apply Flt.cast_not_nan
        exact Flt.sub_not_nan _ _ he.2 (Flt.isFinite_not_nan _ hly)
      have hc := specClamp_range _ _ _ hlt89 hx
      have ho := cursor_position_callback_other a x y
      have hl := cursor_last a x y hr
      show Flt.le _ (cursor_position_callback a x y).pitch = true ∧
        Flt.le (cursor_position_callback a x y).pitch _ = true ∧
        Flt.le _ (cursor_position_callback a x y).zoom = true ∧
        Flt.le (cursor_position_callback a x y).zoom _ = true ∧ _
      rw [cursor_pitch a x y hr, ho.2.2.1, hl.1, hl.2]
      exact ⟨hc.1, hc.2, hz1, hz2, he.1, he.2⟩
    · have hr' : a.rightMousePressed = false := by simpa using hr
      show Flt.le _ (cursor_position_callback a x y).pitch = true ∧
        Flt.le (cursor_position_callback a x y).pitch _ = true ∧
        Flt.le _ (cursor_position_callback a x y).zoom = true ∧
        Flt.le (cursor_position_callback a x y).zoom _ = true ∧ _
      rw [cursor_idle a x y hr']
      exact ⟨hp1, hp2, hz1, hz2, hlx, hly⟩
  | scroll xo yo =>
    simp only [Event.finite, Bool.and_eq_true] at he
    have hx : (Flt.cast binary32 (Flt.sub (Flt.cast binary64 a.zoom)
        (Flt.mul yo (Flt.cast binary64 c0_2)))).isNaN = false := by
      apply Flt.cast_not_nan
      apply Flt.sub_not_nan _ _ (zoom_cast_finite _ hz1 hz2)
      rw [e02]
      exact Flt.mul_not_nan _ _ _ (Flt.isFinite_not_nan _ he.2) (by positivity)
    have hc := specClamp_range _ _ _ hlt10 hx
    have ho := scroll_callback_other a xo yo
    show Flt.le _ (scroll_callback a xo yo).pitch = true ∧
      Flt.le (scroll_callback a xo yo).pitch _ = true ∧
      Flt.le _ (scroll_callback a xo yo).zoom = true ∧
      Flt.le (scroll_callback a xo yo).zoom _ = true ∧
      (scroll_callback a xo yo).lastX.isFinite = true ∧
      (scroll_callback a xo yo).lastY.isFinite = true
    rw [scroll_zoom, ho.2.2.1, ho.2.2.2.1, ho.2.2.2.2.1]
    exact ⟨hp1, hp2, hc.1, hc.2, hlx, hly⟩
  | mouseButton b act x y ray cam =>
    simp only [Event.finite, Bool.and_eq_true] at he
    have ho := mouse_button_callback_other a b act x y ray cam
    have hl := mouse_last a b act x y ray cam he.1 he.2 hlx hly
    show Flt.le _ (mouse_button_callback a b act x y ray cam).1.pitch = true ∧
      Flt.le (mouse_button_callback a b act x y ray cam).1.pitch _ = true ∧
      Flt.le _ (mouse_button_callback a b act x y ray cam).1.zoom = true ∧
      Flt.le (mouse_button_callback a b act x y ray cam).1.zoom _ = true ∧ _
    rw [ho.2.1, ho.2.2]
    exact ⟨hp1, hp2, hz1, hz2, hl.1, hl.2⟩

theorem step_never (a : App) (e : Event)
    (h : Flt.lt c89 a.pitch = false ∧ Flt.lt a.pitch (Flt.neg c89) = false ∧
      Flt.lt a.zoom c0_1 = false ∧ Flt.lt c10 a.zoom = false) :
    Flt.lt c89 (step a e).pitch = false ∧ Flt.lt (step a e).pitch (Flt.neg c89) = false ∧
      Flt.lt (step a e).zoom c0_1 = false ∧ Flt.lt c10 (step a e).zoom = false := by
  obtain ⟨hp1, hp2, hz1, hz2⟩ := h
  obtain ⟨hlt89, hlt10, _⟩ := camera_constants
  cases e with
  | cursorPos x y =>
    show Flt.lt _ (cursor_position_callback a x y).pitch = false ∧
      Flt.lt (cursor_position_callback a x y).pitch _ = false ∧
      Flt.lt (cursor_position_callback a x y).zoom _ = false ∧
      Flt.lt _ (cursor_position_callback a x y).zoom = false
    by_cases hr : a.rightMousePressed = true
    · have hc := specClamp_never
        (Flt.add a.pitch (Flt.mul (Flt.cast binary32 (Flt.sub y a.lastY)) c0_3)) _ _ hlt89
      rw [cursor_pitch a x y hr, (cursor_position_callback_other a x y).2.2.1]
      exact ⟨hc.2, hc.1, hz1, hz2⟩
    · rw [cursor_idle a x y (by simpa using hr)]
      exact ⟨hp1, hp2, hz1, hz2⟩
  | scroll xo yo =>
    have hc := specClamp_never (Flt.cast binary32 (Flt.sub (Flt.cast binary64 a.zoom)
        (Flt.mul yo (Flt.cast binary64 c0_2)))) _ _ hlt10
    show Flt.lt _ (scroll_callback a xo yo).pitch = false ∧
      Flt.lt (scroll_callback a xo yo).pitch _ = false ∧
      Flt.lt (scroll_callback a xo yo).zoom _ = false ∧
      Flt.lt _ (scroll_callback a xo yo).zoom = false
    rw [scroll_zoom, (scroll_callback_other a xo yo).2.2.1]
    exact ⟨hp1, hp2, hc.1, hc.2⟩
  | mouseButton b act x y ray cam =>
    have ho := mouse_button_callback_other a b act x y ray cam
    show Flt.lt _ (mouse_button_callback a b act x y ray cam).1.pitch = false ∧
      Flt.lt (mouse_button_callback a b act x y ray cam).1.pitch _ = false ∧
      Flt.lt (mouse_button_callback a b act x y ray cam).1.zoom _ = false ∧
      Flt.lt _ (mouse_button_callback a b act x y ray cam).1.zoom = false
    rw [ho.2.1, ho.2.2]
    exact ⟨hp1, hp2, hz1, hz2⟩

theorem run_bounds (a : App) (es : List Event) (he : ∀ e ∈ es, e.finite = true)
    (h : Flt.le (Flt.neg c89) a.pitch = true ∧ Flt.le a.pitch c89 = true ∧
      Flt.le c0_1 a.zoom = true ∧ Flt.le a.zoom c10 = true ∧
      a.lastX.isFinite = true ∧ a.lastY.isFinite = true) :
    Flt.le (Flt.neg c89) (run a es).pitch = true ∧ Flt.le (run a es).pitch c89 = true ∧
      Flt.le c0_1 (run a es).zoom = true ∧ Flt.le (run a es).zoom c10 = true := by
  induction es generalizing a with
  | nil => exact ⟨h.1, h.2.1, h.2.2.1, h.2.2.2.1⟩
  | cons e es ih =>
    exact ih (step a e) (fun x hx => he x (by simp [hx]))
      (step_bounds a e (he e (by simp)) h)

theorem run_never (a : App) (es : List Event)
    (h : Flt.lt c89 a.pitch = false ∧ Flt.lt a.pitch (Flt.neg c89) = false ∧
      Flt.lt a.zoom c0_1 = false ∧ Flt.lt c10 a.zoom = false) :
    Flt.lt c89 (run a es).pitch = false ∧ Flt.lt (run a es).pitch (Flt.neg c89) = false ∧
      Flt.lt (run a es).zoom c0_1 = false ∧ Flt.lt c10 (run a es).zoom = false := by
  induction es generalizing a with
  | nil => exact h
  | cons e es ih => exact ih (step a e) (step_never a e h)

theorem init_bounds (vs : List Vec3) :
    (Flt.le (Flt.neg c89) (App.init vs).pitch = true ∧ Flt.le (App.init vs).pitch c89 = true ∧
      Flt.le c0_1 (App.init vs).zoom = true ∧ Flt.le (App.init vs).zoom c10 = true ∧
      (App.init vs).lastX.isFinite = true ∧ (App.init vs).lastY.isFinite = true) ∧
    (Flt.lt c89 (App.init vs).pitch = false ∧
      Flt.lt (App.init vs).pitch (Flt.neg c89) = false ∧
      Flt.lt (App.init vs).zoom c0_1 = false ∧ Flt.lt c10 (App.init vs).zoom = false) := by
  simp only [App.init]
  decide!

/-- C5. A pointer move while the rotate button is held sets the pitch to
`pitch + dy * 0.3` clamped to `[-89, 89]`, and does nothing otherwise; a
scroll sets the zoom to `zoom - s * 0.2` clamped to `[0.1, 10]` (all in the
program's `float` and `double` arithmetic).  In every state reached from the
initial one by events that carry finite numbers, `-89 ≤ pitch ≤ 89` and
`0.1 ≤ zoom ≤ 10`; and whatever the events carry, the pitch is never above 89
or below -89 and the zoom never below 0.1 or above 10. -/
theorem camera_clamp (vs : List Vec3) :
    (∀ (a : App) (xpos ypos : F64), a.rightMousePressed = true →
      (cursor_position_callback a xpos ypos).pitch =
        specClamp (Flt.add a.pitch (Flt.mul (Flt.cast binary32 (Flt.sub ypos a.lastY)) c0_3))
          (Flt.neg c89) c89) ∧
    (∀ (a : App) (xpos ypos : F64), a.rightMousePressed = false →
      cursor_position_callback a xpos ypos = a) ∧
    (∀ (a : App) (xoffset yoffset : F64),
      (scroll_callback a xoffset yoffset).zoom =
        specClamp (Flt.cast binary32 (Flt.sub (Flt.cast binary64 a.zoom)
          (Flt.mul yoffset (Flt.cast binary64 c0_2)))) c0_1 c10) ∧
    (∀ es : List Event, (∀ e ∈ es, e.finite = true) →
      Flt.le (Flt.neg c89) (run (App.init vs) es).pitch = true ∧
      Flt.le (run (App.init vs) es).pitch c89 = true ∧
      Flt.le c0_1 (run (App.init vs) es).zoom = true ∧
      Flt.le (run (App.init vs) es).zoom c10 = true) ∧
    (∀ es : List Event,
      Flt.lt c89 (run (App.init vs) es).pitch = false ∧
      Flt.lt (run (App.init vs) es).pitch (Flt.neg c89) = false ∧
      Flt.lt (run (App.init vs) es).zoom c0_1 = false ∧
      Flt.lt c10 (run (App.init vs) es).zoom = false) :=
  ⟨cursor_pitch, cursor_idle, scroll_zoom,
   fun es he => run_bounds _ es he (init_bounds vs).1,
   fun es => run_never _ es (init_bounds vs).2⟩

/-- Witness for C5: the rotate button is pressed at `(0, 0)`, the pointer is
dragged to `(0, 1000)` and the wheel is turned by 100: the pitch stops at 89
and the zoom at 0.1. -/
theorem camera_clamp_witness :
    (∀ e ∈ [Event.mouseButton 1 1 (.fin false 0) (.fin false 0) exDirection exOrigin,
        Event.cursorPos (.fin false 0) (Flt.ofRatio binary64 false 1000 1),
        Event.scroll (.fin false 0) (Flt.ofRatio binary64 false 100 1)], e.finite = true) ∧
    (run (App.init [])
        [Event.mouseButton 1 1 (.fin false 0) (.fin false 0) exDirection exOrigin,
         Event.cursorPos (.fin false 0) (Flt.ofRatio binary64 false 1000 1),
         Event.scroll (.fin false 0) (Flt.ofRatio binary64 false 100 1)]).pitch = c89 ∧
    (run (App.init [])
        [Event.mouseButton 1 1 (.fin false 0) (.fin false 0) exDirection exOrigin,
         Event.cursorPos (.fin false 0) (Flt.ofRatio binary64 false 1000 1),
         Event.scroll (.fin false 0) (Flt.ofRatio binary64 false 100 1)]).zoom = c0_1 ∧
    Flt.le (run (App.init [])
        [Event.mouseButton 1 1 (.fin false 0) (.fin false 0) exDirection exOrigin,
         Event.cursorPos (.fin false 0) (Flt.ofRatio binary64 false 1000 1),
         Event.scroll (.fin false 0) (Flt.ofRatio binary64 false 100 1)]).pitch c89 = true :=
  ⟨by decide!, by decide!, by decide!,
   ((camera_clamp []).2.2.2.1
     [Event.mouseButton 1 1 (.fin false 0) (.fin false 0) exDirection exOrigin,
      Event.cursorPos (.fin false 0) (Flt.ofRatio binary64 false 1000 1),
      Event.scroll (.fin false 0) (Flt.ofRatio binary64 false 100 1)] (by decide!)).2.1⟩

/-! ## The measured distance -/

theorem Flt.round_false_nonNeg (f : Fmt) (n d : Nat) : (Flt.round f false n d).isNonNeg = true := by
  unfold Flt.round
  split <;> rfl

theorem Flt.mul_self_nonNeg {f : Fmt} (x : Flt f) : (Flt.mul x x).isNonNeg = true := by
  rcases x with _ | s | ⟨s, m⟩
  · rfl
  · cases s <;> rfl
  · show (Flt.round f (xor s s) (m * m) (2 ^ f.uexp)).isNonNeg = true
    rw [show xor s s = false by cases s <;> rfl]
    exact Flt.round_false_nonNeg _ _ _

theorem Flt.mul_self_bad {f : Fmt} (x : Flt f) (h : x.isFinite = false) :
    (Flt.mul x x).isBad = true := by
  rcases x with _ | s | ⟨s, m⟩
  · rfl
  · cases s <;> rfl
  · simp [Flt.isFinite] at h

theorem Flt.sub_not_finite {f : Fmt} (p v : Flt f) (h : v.isFinite = false) :
    (Flt.sub p v).isFinite = false := by
  rcases v with _ | s | ⟨s, m⟩
  · rcases p with _ | t | ⟨t, n⟩ <;> rfl
  · rcases p with _ | t | ⟨t, n⟩
    · rfl
    · show (if t = !s then Flt.inf t else Flt.nan).isFinite = false
      split <;> rfl
    · rfl
  · simp [Flt.isFinite] at h

theorem Flt.add_nonNeg {f : Fmt} (a b : Flt f) (ha : a.isNonNeg = true)
    (hb : b.isNonNeg = true) : (Flt.add a b).isNonNeg = true := by
  rcases a with _ | s | ⟨s, m⟩
  · rcases b with _ | t | ⟨t, n⟩ <;> rfl
  · rcases b with _ | t | ⟨t, n⟩ <;> simp_all [Flt.add, Flt.isNonNeg]
  · rcases b with _ | t | ⟨t, n⟩
    · rfl
    · simp_all [Flt.add, Flt.isNonNeg]
    · simp only [Flt.isNonNeg, Bool.not_eq_true'] at ha hb
      subst ha hb
      show (if sval false m + sval false n = 0 then Flt.fin (false && false) 0
        else Flt.round f (decide (sval false m + sval false n < 0))
          (sval false m + sval false n).natAbs 1).isNonNeg = true
      have : decide (sval false m + sval false n < 0) = false := by
        simp only [sval, Bool.false_eq_true, ↓reduceIte, decide_eq_false_iff_not, not_lt]
        positivity
      rw [this]
      split
      · rfl
      · exact Flt.round_false_nonNeg _ _ _

theorem Flt.add_bad_left {f : Fmt} (a b : Flt f) (ha : a.isBad = true)
    (hb : b.isNonNeg = true) : (Flt.add a b).isBad = true := by
  rcases a with _ | s | ⟨s, m⟩ <;> rcases b with _ | t | ⟨t, n⟩ <;>
    simp_all [Flt.add, Flt.isNonNeg, Flt.isBad]

theorem Flt.add_bad_right {f : Fmt} (a b : Flt f) (ha : a.isNonNeg = true)
    (hb : b.isBad = true) : (Flt.add a b).isBad = true := by
  rcases a with _ | s | ⟨s, m⟩ <;> rcases b with _ | t | ⟨t, n⟩ <;>
    simp_all [Flt.add, Flt.isNonNeg, Flt.isBad]

theorem Flt.isNonNeg_of_isBad {f : Fmt} (a : Flt f) (ha : a.isBad = true) :
    a.isNonNeg = true := by
  rcases a with _ | s | ⟨s, m⟩ <;> simp_all [Flt.isNonNeg, Flt.isBad]

theorem Flt.sqrt_bad {f : Fmt} (a : Flt f) (ha : a.isBad = true) :
    (Flt.sqrt a).isBad = true := by
  rcases a with _ | s | ⟨s, m⟩
  · rfl
  · cases s
    · rfl
    · simp [Flt.isBad] at ha
  · simp [Flt.isBad] at ha

theorem Flt.lt_bad {f : Fmt} (a m : Flt f) (ha : a.isBad = true) : Flt.lt a m = false := by
  rcases a with _ | s | ⟨s, k⟩ <;> rcases m with _ | t | ⟨t, n⟩ <;>
    simp_all [Flt.lt, Flt.isBad]

theorem length_bad (v : vec3)
    (h : v.x.isFinite = false ∨ v.y.isFinite = false ∨ v.z.isFinite = false) :
    (length v).isBad = true := by
  unfold length dot
  apply Flt.sqrt_bad
  rcases h with h | h | h
  · exact Flt.add_bad_left _ _
      (Flt.add_bad_left _ _ (Flt.mul_self_bad _ h) (Flt.mul_self_nonNeg _))
      (Flt.mul_self_nonNeg _)
  · exact Flt.add_bad_left _ _
      (Flt.add_bad_right _ _ (Flt.mul_self_nonNeg _) (Flt.mul_self_bad _ h))
      (Flt.mul_self_nonNeg _)
  · exact Flt.add_bad_right _ _
      (Flt.add_nonNeg _ _ (Flt.mul_self_nonNeg _) (Flt.mul_self_nonNeg _))
      (Flt.mul_self_bad _ h)

theorem vertexDist_lt_finite (o d : vec3) (v : Vec3) (m : F32)
    (h : Flt.lt (vertexDist o d v) m = true) :
    v.x.isFinite = true ∧ v.y.isFinite = true ∧ v.z.isFinite = true := by
  by_contra hc
  have hc' : v.x.isFinite = false ∨ v.y.isFinite = false ∨ v.z.isFinite = false := by
    by_cases hx : v.x.isFinite = true
    · by_cases hy : v.y.isFinite = true
      · by_cases hz : v.z.isFinite = true
        · exact absurd ⟨hx, hy, hz⟩ hc
        · exact Or.inr (Or.inr (by simpa using hz))
      · exact Or.inr (Or.inl (by simpa using hy))
    · exact Or.inl (by simpa using hx)
  have hbad : (vertexDist o d v).isBad = true := by
    unfold vertexDist
    apply length_bad
    rcases hc' with h1 | h1 | h1
    · exact Or.inl (Flt.sub_not_finite _ _ h1)
    · exact Or.inr (Or.inl (Flt.sub_not_finite _ _ h1))
    · exact Or.inr (Or.inr (Flt.sub_not_finite _ _ h1))
  rw [Flt.lt_bad _ _ hbad] at h
  exact absurd h (by simp)

theorem pick_in_range (vs : List Vec3) (o d : vec3) (maxDist : F32) (k : Int)
    (hk : pickNearestVertex vs o d maxDist = k) (hne : k ≠ -1) :
    ∃ (n : Nat) (v : Vec3), k = (n : Int) ∧ vs[n]? = some v ∧
      Flt.lt (vertexDist o d v) maxDist = true := by
  unfold pickNearestVertex at hk
  rcases pickLoop_spec o d vs 0 (-1) maxDist with ⟨hr, _⟩ | ⟨n, v, hn, hr, hlt, _, _⟩
  · rw [hr] at hk; exact absurd hk.symm hne
  · exact ⟨n, v, by rw [← hk, hr]; simp, hn, hlt⟩

theorem sub_self_finite {f : Fmt} (x : Flt f) (h : x.isFinite = true) :
    Flt.sub x x = .fin false 0 := by
  rcases x with _ | s | ⟨s, m⟩
  · simp [Flt.isFinite] at h
  · simp [Flt.isFinite] at h
  · show (if sval s m + sval (!s) m = 0 then Flt.fin (s && !s) 0 else _) = _
    have : sval s m + sval (!s) m = 0 := by cases s <;> simp [sval]
    rw [if_pos this]
    cases s <;> rfl

theorem pointDistance_self (p : Vec3) (hx : p.x.isFinite = true) (hy : p.y.isFinite = true)
    (hz : p.z.isFinite = true) : pointDistance p p = .fin false 0 := by
  unfold pointDistance
  simp only [sub_self_finite _ hx, sub_self_finite _ hy, sub_self_finite _ hz]
  decide!

theorem pushIndex_snoc (sel : List Int) (idx : Int) :
    ∃ pre, pushIndex sel idx = pre ++ [idx] := by
  unfold pushIndex
  split
  · rename_i h
    cases sel with
    | nil => simp at h
    | cons x t => exact ⟨t, by simp⟩
  · exact ⟨sel, rfl⟩

theorem pushIndex_pair (sel : List Int) (idx i j : Int) (h : pushIndex sel idx = [i, j]) :
    idx = j := by
  obtain ⟨pre, hp⟩ := pushIndex_snoc sel idx
  rw [hp] at h
  have := congrArg List.reverse h
  simp only [List.reverse_append, List.reverse_cons, List.reverse_nil, List.nil_append,
    List.singleton_append, List.cons.injEq] at this
  exact this.1

theorem mouse_left_press (a : App) (xpos ypos : F64) (ray cameraPos : vec3)
    (h : pickNearestVertex a.vertices cameraPos ray defaultMaxDist ≠ -1) :
    (mouse_button_callback a GLFW_MOUSE_BUTTON_LEFT GLFW_PRESS xpos ypos ray
        cameraPos).1.selectedIndices =
      pushIndex a.selectedIndices (pickNearestVertex a.vertices cameraPos ray defaultMaxDist) ∧
    (mouse_button_callback a GLFW_MOUSE_BUTTON_LEFT GLFW_PRESS xpos ypos ray cameraPos).2 =
      if (pushIndex a.selectedIndices
          (pickNearestVertex a.vertices cameraPos ray defaultMaxDist)).length = 2
      then measuredDistance a.vertices (pushIndex a.selectedIndices
          (pickNearestVertex a.vertices cameraPos ray defaultMaxDist))
      else none := by
  unfold mouse_button_callback
  dsimp only
  rw [if_pos ⟨rfl, rfl⟩, if_pos h]
  exact ⟨rfl, rfl⟩

theorem measuredDistance_pair (vs : List Vec3) (i j : Int) (p1 p2 : Vec3)
    (h1 : vertexAt vs i = some p1) (h2 : vertexAt vs j = some p2) :
    measuredDistance vs [i, j] = some (pointDistance p1 p2) := by
  unfold measuredDistance
  simp only [List.getD_cons_zero, List.getD_cons_succ, h1, h2]

/-- C9. When a pick leaves exactly two indices `i` and `j` selected, the
distance printed is `sqrt(dx*dx + dy*dy + dz*dz)` (in `float` arithmetic) for
the coordinate differences of `vertices[i]` and `vertices[j]`; for the points
`(0,0,0)` and `(3,4,0)` it is 5; and when both selected entries are the same
index it is 0. -/
theorem measured_distance :
    (∀ (a : App) (xpos ypos : F64) (ray cameraPos : vec3) (i j : Int) (p1 p2 : Vec3),
      pickNearestVertex a.vertices cameraPos ray defaultMaxDist ≠ -1 →
      (mouse_button_callback a GLFW_MOUSE_BUTTON_LEFT GLFW_PRESS xpos ypos ray
          cameraPos).1.selectedIndices = [i, j] →
      vertexAt a.vertices i = some p1 → vertexAt a.vertices j = some p2 →
      (mouse_button_callback a GLFW_MOUSE_BUTTON_LEFT GLFW_PRESS xpos ypos ray cameraPos).2 =
        some (Flt.sqrt (Flt.add (Flt.add
          (Flt.mul (Flt.sub p1.x p2.x) (Flt.sub p1.x p2.x))
          (Flt.mul (Flt.sub p1.y p2.y) (Flt.sub p1.y p2.y)))
          (Flt.mul (Flt.sub p1.z p2.z) (Flt.sub p1.z p2.z))))) ∧
    pointDistance ⟨F32.ofNat 0, F32.ofNat 0, F32.ofNat 0⟩
      ⟨F32.ofNat 3, F32.ofNat 4, F32.ofNat 0⟩ = F32.ofNat 5 ∧
    (∀ (a : App) (xpos ypos : F64) (ray cameraPos : vec3) (i : Int),
      pickNearestVertex a.vertices cameraPos ray defaultMaxDist ≠ -1 →
      (mouse_button_callback a GLFW_MOUSE_BUTTON_LEFT GLFW_PRESS xpos ypos ray
          cameraPos).1.selectedIndices = [i, i] →
      (mouse_button_callback a GLFW_MOUSE_BUTTON_LEFT GLFW_PRESS xpos ypos ray cameraPos).2 =
        some (F32.ofNat 0)) := by
  refine ⟨?_, by decide!, ?_⟩
  · intro a xpos ypos ray cameraPos i j p1 p2 hne hsel h1 h2
    obtain ⟨e1, e2⟩ := mouse_left_press a xpos ypos ray cameraPos hne
    rw [e1] at hsel
    rw [e2, hsel]
    simp only [List.length_cons, List.length_nil, Nat.zero_add, Nat.reduceAdd, ↓reduceIte]
    rw [measuredDistance_pair _ _ _ _ _ h1 h2]
    rfl
  · intro a xpos ypos ray cameraPos i hne hsel
    obtain ⟨e1, e2⟩ := mouse_left_press a xpos ypos ray cameraPos hne
    rw [e1] at hsel
    have hi := pushIndex_pair _ _ _ _ hsel
    obtain ⟨n, v, hn, hv, hlt⟩ :=
      pick_in_range a.vertices cameraPos ray defaultMaxDist i hi (hi ▸ hne)
    obtain ⟨fx, fy, fz⟩ := vertexDist_lt_finite _ _ _ _ hlt
    have hat : vertexAt a.vertices i = some v := by
      simp [vertexAt, hn, hv]
    rw [e2, hsel]
    simp only [List.length_cons, List.length_nil, Nat.zero_add, Nat.reduceAdd, ↓reduceIte]
    rw [measuredDistance_pair _ _ _ _ _ hat hat, pointDistance_self v fx fy fz]
    rfl

/-- Witness for C9: with the single vertex `(0, 0, 0)` selected once already,
a second pick of it leaves `[0, 0]` selected and prints the distance 0. -/
theorem measured_distance_witness :
    pickNearestVertex [⟨F32.ofNat 0, F32.ofNat 0, F32.ofNat 0⟩] exOrigin exDirection
      defaultMaxDist ≠ -1 ∧
    (mouse_button_callback
        { App.init [⟨F32.ofNat 0, F32.ofNat 0, F32.ofNat 0⟩] with selectedIndices := [0] }
        GLFW_MOUSE_BUTTON_LEFT GLFW_PRESS (.fin false 0) (.fin false 0) exDirection
        exOrigin).1.selectedIndices = [0, 0] ∧
    (mouse_button_callback
        { App.init [⟨F32.ofNat 0, F32.ofNat 0, F32.ofNat 0⟩] with selectedIndices := [0] }
        GLFW_MOUSE_BUTTON_LEFT GLFW_PRESS (.fin false 0) (.fin false 0) exDirection
        exOrigin).2 = some (F32.ofNat 0) :=
  ⟨by decide!, by decide!,
   measured_distance.2.2
     { App.init [⟨F32.ofNat 0, F32.ofNat 0, F32.ofNat 0⟩] with selectedIndices := [0] }
     (.fin false 0) (.fin false 0) exDirection exOrigin 0 (by decide!) (by decide!)⟩

/-! ## Selected indices are valid -/

theorem mem_specLastTwo (l : List Int) (k : Int) (h : k ∈ specLastTwo l) : k ∈ l := by
  unfold specLastTwo at h
  rw [List.mem_reverse] at h
  exact List.mem_reverse.mp (List.mem_of_mem_take h)

theorem specPick_some (vs : List Vec3) (e : Event) (k : Int) (h : specPick vs e = some k) :
    ∃ ray cameraPos : vec3,
      pickNearestVertex vs cameraPos ray defaultMaxDist = k ∧ k ≠ -1 := by
  cases e with
  | cursorPos x y => simp [specPick] at h
  | scroll x y => simp [specPick] at h
  | mouseButton b act x y ray cam =>
    simp only [specPick] at h
    by_cases hc : b = GLFW_MOUSE_BUTTON_LEFT ∧ act = GLFW_PRESS ∧
        pickNearestVertex vs cam ray defaultMaxDist ≠ -1
    · rw [if_pos hc] at h
      simp only [Option.some.injEq] at h
      exact ⟨ray, cam, h, h ▸ hc.2.2⟩
    · rw [if_neg hc] at h
      exact absurd h (by simp)

theorem run_selected_valid (vs : List Vec3) (es : List Event) (k : Int)
    (hk : k ∈ (run (App.init vs) es).selectedIndices) :
    ∃ (n : Nat) (v : Vec3), k = (n : Int) ∧ vs[n]? = some v := by
  have hrun := run_selectedIndices (App.init vs) es [] rfl
  simp only [List.nil_append] at hrun
  rw [hrun] at hk
  have hmem := mem_specLastTwo _ k hk
  rw [List.mem_filterMap] at hmem
  obtain ⟨e, _, he⟩ := hmem
  obtain ⟨ray, cam, hp, hne⟩ := specPick_some _ e k he
  obtain ⟨n, v, hn, hv, _⟩ := pick_in_range _ cam ray defaultMaxDist k hp hne
  exact ⟨n, v, hn, hv⟩

theorem vertexAt_of_valid (vs : List Vec3) (k : Int) (n : Nat) (v : Vec3)
    (hn : k = (n : Int)) (hv : vs[n]? = some v) : vertexAt vs k = some v := by
  simp [vertexAt, hn, hv]

/-- C11. Over a fixed vertex list, in every state reached from the initial
one (empty selection) by any sequence of events, every entry of
`selectedIndices` is an index `k` with `0 ≤ k < vertices.size()`; so `-1` is
never stored, every entry has a vertex, and whenever two indices are selected
the lookups `vertices[selectedIndices[0]]` and `vertices[selectedIndices[1]]`
of the distance computation are inside the vector. -/
theorem selected_indices_valid (vs : List Vec3) (es : List Event) :
    (∀ k ∈ (run (App.init vs) es).selectedIndices, 0 ≤ k ∧ k < (vs.length : Int)) ∧
    (-1 : Int) ∉ (run (App.init vs) es).selectedIndices ∧
    (run (App.init vs) es).vertices = vs ∧
    (∀ k ∈ (run (App.init vs) es).selectedIndices, ∃ p, vertexAt vs k = some p) ∧
    ((run (App.init vs) es).selectedIndices.length = 2 →
      ∃ p1 p2 : Vec3,
        vertexAt vs ((run (App.init vs) es).selectedIndices.getD 0 0) = some p1 ∧
        vertexAt vs ((run (App.init vs) es).selectedIndices.getD 1 0) = some p2 ∧
        measuredDistance vs (run (App.init vs) es).selectedIndices =
          some (pointDistance p1 p2)) := by
  have hrange : ∀ k ∈ (run (App.init vs) es).selectedIndices,
      0 ≤ k ∧ k < (vs.length : Int) := by
    intro k hk
    obtain ⟨n, v, hn, hv⟩ := run_selected_valid vs es k hk
    have hlt : n < vs.length := by
      by_contra hc
      rw [List.getElem?_eq_none (by omega)] at hv
      simp at hv
    omega
  have hat : ∀ k ∈ (run (App.init vs) es).selectedIndices, ∃ p, vertexAt vs k = some p := by
    intro k hk
    obtain ⟨n, v, hn, hv⟩ := run_selected_valid vs es k hk
    exact ⟨v, vertexAt_of_valid vs k n v hn hv⟩
  refine ⟨hrange, ?_, run_vertices _ es, hat, ?_⟩
  · intro hm
    have := (hrange (-1) hm).1
    omega
  · intro hlen
    match hs : (run (App.init vs) es).selectedIndices, hlen with
    | [i, j], _ =>
      rw [hs] at hat
      obtain ⟨p1, h1⟩ := hat i (by simp)
      obtain ⟨p2, h2⟩ := hat j (by simp)
      exact ⟨p1, p2, by simpa using h1, by simpa using h2,
        measuredDistance_pair vs i j p1 p2 h1 h2⟩

/-- Witness for C11: two clicks on the vertex at the origin, with a miss in
between, leave `[0, 0]` selected, and both lookups find the vertex. -/
theorem selected_indices_valid_witness :
    (run (App.init [⟨F32.ofNat 0, F32.ofNat 0, F32.ofNat 0⟩])
      [Event.mouseButton 0 1 (.fin false 0) (.fin false 0) exDirection exOrigin,
       Event.mouseButton 0 1 (.fin false 0) (.fin false 0) exSkew exOrigin,
       Event.mouseButton 0 1 (.fin false 0) (.fin false 0) exDirection exOrigin]).selectedIndices
      = [0, 0] ∧
    ∃ p1 p2 : Vec3,
      vertexAt [⟨F32.ofNat 0, F32.ofNat 0, F32.ofNat 0⟩]
        ((run (App.init [⟨F32.ofNat 0, F32.ofNat 0, F32.ofNat 0⟩])
          [Event.mouseButton 0 1 (.fin false 0) (.fin false 0) exDirection exOrigin,
           Event.mouseButton 0 1 (.fin false 0) (.fin false 0) exSkew exOrigin,
           Event.mouseButton 0 1 (.fin false 0) (.fin false 0) exDirection
             exOrigin]).selectedIndices.getD 0 0) = some p1 ∧
      vertexAt [⟨F32.ofNat 0, F32.ofNat 0, F32.ofNat 0⟩]
        ((run (App.init [⟨F32.ofNat 0, F32.ofNat 0, F32.ofNat 0⟩])
          [Event.mouseButton 0 1 (.fin false 0) (.fin false 0) exDirection exOrigin,
           Event.mouseButton 0 1 (.fin false 0) (.fin false 0) exSkew exOrigin,
           Event.mouseButton 0 1 (.fin false 0) (.fin false 0) exDirection
             exOrigin]).selectedIndices.getD 1 0) = some p2 ∧
      measuredDistance [⟨F32.ofNat 0, F32.ofNat 0, F32.ofNat 0⟩]
        (run (App.init [⟨F32.ofNat 0, F32.ofNat 0, F32.ofNat 0⟩])
          [Event.mouseButton 0 1 (.fin false 0) (.fin false 0) exDirection exOrigin,
           Event.mouseButton 0 1 (.fin false 0) (.fin false 0) exSkew exOrigin,
           Event.mouseButton 0 1 (.fin false 0) (.fin false 0) exDirection
             exOrigin]).selectedIndices = some (pointDistance p1 p2) :=
  ⟨by decide!,
   (selected_indices_valid [⟨F32.ofNat 0, F32.ofNat 0, F32.ofNat 0⟩]
      [Event.mouseButton 0 1 (.fin false 0) (.fin false 0) exDirection exOrigin,
       Event.mouseButton 0 1 (.fin false 0) (.fin false 0) exSkew exOrigin,
       Event.mouseButton 0 1 (.fin false 0) (.fin false 0) exDirection exOrigin]).2.2.2.2
     (by decide!)⟩

/-! ## The value of a printed numeral -/

theorem digitsValue_append (a b : List Char) :
    digitsValue (a ++ b) = digitsValue a * 10 ^ b.length + digitsValue b := by
  simp only [digitsValue, List.reverse_append, List.map_append, Nat.ofDigits_append,
    List.length_map, List.length_reverse]
  ring

theorem digitsValue_cons (c : Char) (cs : List Char) :
    digitsValue (c :: cs) = digitVal c * 10 ^ cs.length + digitsValue cs := by
  rw [← List.singleton_append, digitsValue_append]
  simp [digitsValue]

theorem digitsValue_printNat (n : Nat) : digitsValue (printNat n) = n := by
  have h := specNat_printNat n
  unfold specNat at h
  split at h
  · simpa [digitsValue] using h
  · simp at h

theorem digitsValue_replicate (k : Nat) : digitsValue (List.replicate k '0') = 0 := by
  induction k with
  | zero => rfl
  | succ k ih =>
    rw [List.replicate_succ, digitsValue_cons, ih]
    simp [digitVal]

theorem reverse_zeros (l : List Char) (h : ∀ c ∈ l, c = '0') :
    l.reverse = List.replicate l.length '0' := by
  rw [List.eq_replicate_of_mem h, List.reverse_replicate, List.length_replicate]

theorem stripZeros_append (ds : List Char) :
    ∃ z : Nat, ds = stripZeros ds ++ List.replicate z '0' := by
  have h := List.takeWhile_append_dropWhile (fun c => decide (c = '0')) ds.reverse
  have hall : ∀ c ∈ (ds.reverse.takeWhile (fun c => decide (c = '0'))), c = '0' := by
    intro c hc
    simpa using List.mem_takeWhile_imp hc
  refine ⟨(ds.reverse.takeWhile (fun c => decide (c = '0'))).length, ?_⟩
  have := congrArg List.reverse h
  rw [List.reverse_append, List.reverse_reverse, reverse_zeros _ hall] at this
  exact this.symm

theorem digitsValue_stripZeros (ds : List Char) :
    ∃ z : Nat, ds.length = (stripZeros ds).length + z ∧
      digitsValue ds = digitsValue (stripZeros ds) * 10 ^ z := by
  obtain ⟨z, hz⟩ := stripZeros_append ds
  refine ⟨z, ?_, ?_⟩
  · have := congrArg List.length hz
    simpa using this
  · conv_lhs => rw [hz]
    rw [digitsValue_append, digitsValue_replicate]
    simp

theorem eatDigits_mant (st : Scan) (ds : List Char) (h : st.sci = false) :
    (eatDigits st ds).mant = st.mant * 10 ^ ds.length + digitsValue ds ∧
    (eatDigits st ds).frac = (if st.dec then st.frac + ds.length else st.frac) ∧
    (eatDigits st ds).exp = st.exp ∧ (eatDigits st ds).eneg = st.eneg ∧
    (eatDigits st ds).hasExp = st.hasExp := by
  induction ds generalizing st with
  | nil => simp [eatDigits, digitsValue]
  | cons c cs ih =>
    unfold eatDigits
    rw [if_neg (by simp [h])]
    have := ih { st with mant := 10 * st.mant + digitVal c, hasMant := true,
                         frac := if st.dec then st.frac + 1 else st.frac } h
    simp only at this
    obtain ⟨h1, h2, h3, h4, h5⟩ := this
    refine ⟨?_, ?_, h3, h4, h5⟩
    · rw [h1, digitsValue_cons, List.length_cons]
      ring
    · rw [h2]
      cases st.dec <;> simp only [Bool.false_eq_true, ↓reduceIte, List.length_cons]
      omega

theorem eatDigits_exp (st : Scan) (ds : List Char) (h : st.sci = true) :
    (eatDigits st ds).exp = st.exp * 10 ^ ds.length + digitsValue ds ∧
    (eatDigits st ds).mant = st.mant ∧ (eatDigits st ds).frac = st.frac ∧
    (eatDigits st ds).eneg = st.eneg ∧ (eatDigits st ds).hasMant = st.hasMant := by
  induction ds generalizing st with
  | nil => simp [eatDigits, digitsValue]
  | cons c cs ih =>
    unfold eatDigits
    rw [if_pos h]
    have := ih { st with exp := 10 * st.exp + digitVal c, hasExp := true } h
    simp only at this
    obtain ⟨h1, h2, h3, h4, h5⟩ := this
    refine ⟨?_, h2, h3, h4, h5⟩
    rw [h1, digitsValue_cons, List.length_cons]
    ring

/-! ## Rounding errors -/

theorem printNat_length_bounds (n : Nat) (h : 0 < n) :
    10 ^ (printNat n).length ≤ 10 * n ∧ n < 10 ^ (printNat n).length := by
  rw [printNat_eq, specDecimal, if_neg (by omega)]
  simp only [List.length_map, List.length_reverse]
  exact ⟨Nat.base_pow_length_digits_le 10 n (by omega) (by omega),
    Nat.lt_base_pow_length_digits (by omega)⟩

theorem printNat_length_six (d : Nat) (h1 : 10 ^ 5 ≤ d) (h2 : d < 10 ^ 6) :
    (printNat d).length = 6 := by
  obtain ⟨ha, hb⟩ := printNat_length_bounds d (by omega)
  have h5 : 5 < (printNat d).length := by
    by_contra hc
    have : 10 ^ (printNat d).length ≤ 10 ^ 5 := Nat.pow_le_pow_right (by omega) (by omega)
    omega
  have h7 : (printNat d).length < 7 := by
    by_contra hc
    have : 10 ^ 7 ≤ 10 ^ (printNat d).length := Nat.pow_le_pow_right (by omega) (by omega)
    omega
  omega

theorem roundHalfEven_error (num den : Nat) (h : 0 < den) :
    2 * (roundHalfEven num den * den) ≤ 2 * num + den ∧
    2 * num ≤ 2 * (roundHalfEven num den * den) + den := by
  have hdm := Nat.div_add_mod num den
  have hlt := Nat.mod_lt num h
  unfold roundHalfEven
  split
  · rename_i hc
    rw [Nat.add_mul, Nat.one_mul, Nat.mul_comm (num / den) den]
    constructor <;> omega
  · rename_i hc
    rw [Nat.mul_comm (num / den) den]
    constructor <;> omega

theorem roundMag_error (f : Fmt) (num den : Nat) (h : 0 < den) :
    ∃ e : Nat, 0 < e ∧ 2 * (roundMag f num den * den) ≤ 2 * num + den * e ∧
      2 * num ≤ 2 * (roundMag f num den * den) + den * e ∧
      (e = 1 ∨ e * 2 ^ f.prec * den ≤ 2 * num) := by
  refine ⟨2 ^ (bitLen (num / den) - f.prec), by positivity, ?_, ?_, ?_⟩
  · have := (roundHalfEven_error num (den * 2 ^ (bitLen (num / den) - f.prec))
      (by positivity)).1
    unfold roundMag
    unfold roundHalfEven at this
    dsimp only
    calc _ = 2 * ((if den * 2 ^ (bitLen (num / den) - f.prec) <
              2 * (num % (den * 2 ^ (bitLen (num / den) - f.prec))) ∨
              2 * (num % (den * 2 ^ (bitLen (num / den) - f.prec))) =
                den * 2 ^ (bitLen (num / den) - f.prec) ∧
              num / (den * 2 ^ (bitLen (num / den) - f.prec)) % 2 = 1
            then num / (den * 2 ^ (bitLen (num / den) - f.prec)) + 1
            else num / (den * 2 ^ (bitLen (num / den) - f.prec))) *
            (den * 2 ^ (bitLen (num / den) - f.prec))) := by ring
      _ ≤ _ := this
  · have := (roundHalfEven_error num (den * 2 ^ (bitLen (num / den) - f.prec))
      (by positivity)).2
    unfold roundMag
    unfold roundHalfEven at this
    dsimp only
    calc _ ≤ _ := this
      _ = _ := by ring
  · by_cases hs : bitLen (num / den) - f.prec = 0
    · left; rw [hs]; rfl
    · right
      have hq : 0 < num / den := by
        apply Nat.pos_of_ne_zero
        intro hc
        rw [hc, bitLen_zero] at hs
        exact hs (Nat.zero_sub _)
      have hb := bitLenAux_le (num / den) (num / den) hq
      have hb' : 2 ^ bitLen (num / den) ≤ 2 * (num / den) := hb
      have hsplit : 2 ^ (bitLen (num / den) - f.prec) * 2 ^ f.prec = 2 ^ bitLen (num / den) := by
        rw [← pow_add]; congr 1; omega
      rw [hsplit]
      calc 2 ^ bitLen (num / den) * den ≤ 2 * (num / den) * den :=
            Nat.mul_le_mul_right _ hb'
        _ = 2 * (num / den * den) := by ring
        _ ≤ 2 * num := Nat.mul_le_mul_left _ (Nat.div_mul_le_self num den)

/-! ## The six digits of a magnitude -/

theorem sixDigits_lead (m : Nat) (hm : 0 < m) :
    10 ^ (printNat (m * 10 ^ 45 / 2 ^ 149)).length * 2 ^ 149 ≤ m * 10 ^ 46 ∧
    m * 10 ^ 45 < 10 ^ (printNat (m * 10 ^ 45 / 2 ^ 149)).length * 2 ^ 149 := by
  have hq : 0 < m * 10 ^ 45 / 2 ^ 149 := by
    apply Nat.div_pos _ (by positivity)
    calc 2 ^ 149 ≤ 1 * 10 ^ 45 := by norm_num
      _ ≤ m * 10 ^ 45 := Nat.mul_le_mul_right _ hm
  obtain ⟨ha, hb⟩ := printNat_length_bounds _ hq
  constructor
  · calc 10 ^ (printNat (m * 10 ^ 45 / 2 ^ 149)).length * 2 ^ 149
        ≤ 10 * (m * 10 ^ 45 / 2 ^ 149) * 2 ^ 149 := Nat.mul_le_mul_right _ ha
      _ = 10 * (m * 10 ^ 45 / 2 ^ 149 * 2 ^ 149) := by ring
      _ ≤ 10 * (m * 10 ^ 45) := Nat.mul_le_mul_left _ (Nat.div_mul_le_self _ _)
      _ = m * 10 ^ 46 := by ring
  · exact (Nat.div_lt_iff_lt_mul (by positivity)).1 hb

theorem maxMag_binary32 : binary32.maxMag = 16777215 * 2 ^ 253 := by
  simp [Fmt.maxMag, binary32]

theorem sixDigits_value (m : Nat) (hm : 0 < m) :
    10 ^ 5 ≤ (sixDigits m).1 ∧ (sixDigits m).1 < 10 ^ 6 ∧
    |((sixDigits m).1 : ℚ) * (10 : ℚ) ^ ((sixDigits m).2 - 5) - (m : ℚ) / 2 ^ 149| *
      (2 * 10 ^ 5) ≤ (m : ℚ) / 2 ^ 149 ∧
    (m ≤ binary32.maxMag →
      ((sixDigits m).1 : ℚ) * (10 : ℚ) ^ ((sixDigits m).2 - 5) ≤ 340282 * 10 ^ 33) := by
  obtain ⟨hl1, hl2⟩ := sixDigits_lead m hm
  generalize hL : (printNat (m * 10 ^ 45 / 2 ^ 149)).length = L at hl1 hl2
  -- the two branches of the scaling are one rounding of `m * a / (2 ^ 149 * b)`
  obtain ⟨a, b, ha, hb, hab, hd⟩ : ∃ a b : Nat, 0 < a ∧ 0 < b ∧ a * 10 ^ L = b * 10 ^ 51 ∧
      (if L ≤ 51 then roundHalfEven (m * 10 ^ (51 - L)) (2 ^ 149)
        else roundHalfEven m (2 ^ 149 * 10 ^ (L - 51))) =
        roundHalfEven (m * a) (2 ^ 149 * b) := by
    by_cases h : L ≤ 51
    · refine ⟨10 ^ (51 - L), 1, by positivity, by omega, ?_, ?_⟩
      · rw [← pow_add, one_mul]; congr 1; omega
      · rw [if_pos h, mul_one]
    · refine ⟨1, 10 ^ (L - 51), by omega, by positivity, ?_, ?_⟩
      · rw [one_mul, ← pow_add]; congr 1; omega
      · rw [if_neg h, mul_one]
  obtain ⟨he1, he2⟩ := roundHalfEven_error (m * a) (2 ^ 149 * b) (by positivity)
  generalize hdd : roundHalfEven (m * a) (2 ^ 149 * b) = d at hd he1 he2
  have hsd : sixDigits m =
      if d = 10 ^ 6 then (10 ^ 5, (L : Int) - 45) else (d, (L : Int) - 46) := by
    unfold sixDigits
    dsimp only
    rw [hL, hd]
  -- the same facts over the rationals
  have hPpos : (0 : ℚ) < 2 ^ 149 := by positivity
  have haq : (0 : ℚ) < a := by exact_mod_cast ha
  obtain ⟨T, hT⟩ : ∃ T : ℚ, T = b / a := ⟨_, rfl⟩
  obtain ⟨v, hv⟩ : ∃ v : ℚ, v = m / 2 ^ 149 := ⟨_, rfl⟩
  have hbT : (b : ℚ) = T * a := by rw [hT]; field_simp
  have hmv : (m : ℚ) = v * 2 ^ 149 := by rw [hv]; field_simp
  have hTpos : 0 < T := by rw [hT]; exact div_pos (by exact_mod_cast hb) haq
  have hTL : (10 : ℚ) ^ L = T * 10 ^ 51 := by
    have : (a : ℚ) * 10 ^ L = b * 10 ^ 51 := by exact_mod_cast hab
    rw [hbT] at this
    have h2 : (a : ℚ) * 10 ^ L = a * (T * 10 ^ 51) := by rw [this]; ring
    exact mul_left_cancel₀ (ne_of_gt haq) h2
  have hv1 : T * 10 ^ 5 ≤ v := by
    have : (10 : ℚ) ^ L * 2 ^ 149 ≤ m * 10 ^ 46 := by exact_mod_cast hl1
    rw [hTL, hmv] at this
    have h2 : (2 ^ 149 * 10 ^ 46 : ℚ) * (T * 10 ^ 5) ≤ (2 ^ 149 * 10 ^ 46) * v := by
      calc (2 ^ 149 * 10 ^ 46 : ℚ) * (T * 10 ^ 5) = T * 10 ^ 51 * 2 ^ 149 := by ring
        _ ≤ v * 2 ^ 149 * 10 ^ 46 := this
        _ = (2 ^ 149 * 10 ^ 46) * v := by ring
    exact le_of_mul_le_mul_left h2 (by positivity)
  have hv2 : v < T * 10 ^ 6 := by
    have : (m : ℚ) * 10 ^ 45 < 10 ^ L * 2 ^ 149 := by exact_mod_cast hl2
    rw [hTL, hmv] at this
    have h2 : (2 ^ 149 * 10 ^ 45 : ℚ) * v < (2 ^ 149 * 10 ^ 45) * (T * 10 ^ 6) := by
      calc (2 ^ 149 * 10 ^ 45 : ℚ) * v = v * 2 ^ 149 * 10 ^ 45 := by ring
        _ < T * 10 ^ 51 * 2 ^ 149 := this
        _ = (2 ^ 149 * 10 ^ 45) * (T * 10 ^ 6) := by ring
    exact lt_of_mul_lt_mul_left h2 (by positivity)
  have hq1 : 2 * (d * T) ≤ 2 * v + T := by
    have : (2 : ℚ) * (d * (2 ^ 149 * b)) ≤ 2 * (m * a) + 2 ^ 149 * b := by exact_mod_cast he1
    rw [hbT, hmv] at this
    have h2 : (2 ^ 149 * a : ℚ) * (2 * (d * T)) ≤ (2 ^ 149 * a) * (2 * v + T) := by
      calc (2 ^ 149 * a : ℚ) * (2 * (d * T)) = 2 * (d * (2 ^ 149 * (T * a))) := by ring
        _ ≤ 2 * (v * 2 ^ 149 * a) + 2 ^ 149 * (T * a) := this
        _ = (2 ^ 149 * a) * (2 * v + T) := by ring
    exact le_of_mul_le_mul_left h2 (by positivity)
  have hq2 : 2 * v ≤ 2 * (d * T) + T := by
    have : (2 : ℚ) * (m * a) ≤ 2 * (d * (2 ^ 149 * b)) + 2 ^ 149 * b := by exact_mod_cast he2
    rw [hbT, hmv] at this
    have h2 : (2 ^ 149 * a : ℚ) * (2 * v) ≤ (2 ^ 149 * a) * (2 * (d * T) + T) := by
      calc (2 ^ 149 * a : ℚ) * (2 * v) = 2 * (v * 2 ^ 149 * a) := by ring
        _ ≤ 2 * (d * (2 ^ 149 * (T * a))) + 2 ^ 149 * (T * a) := this
        _ = (2 ^ 149 * a) * (2 * (d * T) + T) := by ring
    exact le_of_mul_le_mul_left h2 (by positivity)
  -- the rounded digits lie between 10^5 and 10^6
  have hd5 : 10 ^ 5 ≤ d := by
    have : ((99999 : Nat) : ℚ) < d := by
      have h2 : T * ((99999 : Nat) : ℚ) < T * d := by
        push_cast; linarith only [hq2, hv1, hTpos]
      exact lt_of_mul_lt_mul_left h2 hTpos.le
    have h4 : 99999 < d := by exact_mod_cast this
    omega
  have hd6 : d ≤ 10 ^ 6 := by
    have : (d : ℚ) < ((1000001 : Nat) : ℚ) := by
      have h2 : T * d < T * ((1000001 : Nat) : ℚ) := by
        push_cast; linarith only [hq1, hv2, hTpos]
      exact lt_of_mul_lt_mul_left h2 hTpos.le
    have h4 : d < 1000001 := by exact_mod_cast this
    omega
  -- the value written is `d * T`
  have hz : ∀ k : Nat, (10 : ℚ) ^ ((L : Int) - k) = T * 10 ^ 51 / 10 ^ k := by
    intro k
    rw [zpow_sub₀ (by norm_num), zpow_natCast, zpow_natCast, hTL]
  have hval : ((sixDigits m).1 : ℚ) * (10 : ℚ) ^ ((sixDigits m).2 - 5) = d * T := by
    rw [hsd]
    by_cases h6 : d = 10 ^ 6
    · rw [if_pos h6]
      have e : ((L : Int) - 45 - 5) = (L : Int) - (50 : Nat) := by push_cast; ring
      simp only
      rw [e, hz, h6]
      push_cast
      field_simp
      ring
    · rw [if_neg h6]
      have e : ((L : Int) - 46 - 5) = (L : Int) - (51 : Nat) := by push_cast; ring
      simp only
      rw [e, hz]
      field_simp
  refine ⟨?_, ?_, ?_, ?_⟩
  · rw [hsd]; split
    · exact le_refl _
    · exact hd5
  · rw [hsd]; split
    · norm_num
    · rename_i h6; exact lt_of_le_of_ne hd6 h6
  · rw [hval, ← hv]
    have habs : |(d : ℚ) * T - v| ≤ T / 2 := by
      rw [abs_le]
      constructor <;> linarith
    calc |(d : ℚ) * T - v| * (2 * 10 ^ 5) ≤ T / 2 * (2 * 10 ^ 5) :=
          mul_le_mul_of_nonneg_right habs (by positivity)
      _ = T * 10 ^ 5 := by ring
      _ ≤ v := hv1
  · intro hmax
    rw [hval]
    rw [maxMag_binary32] at hmax
    have hL84 : L ≤ 84 := by
      by_contra hc
      have hpow : 10 ^ 85 ≤ 10 ^ L := Nat.pow_le_pow_right (by omega) (by omega)
      have h1 : 10 ^ 85 * 2 ^ 149 ≤ 16777215 * 2 ^ 253 * 10 ^ 46 :=
        le_trans (Nat.mul_le_mul_right _ hpow)
          (le_trans hl1 (Nat.mul_le_mul_right _ hmax))
      exact absurd h1 (by norm_num)
    have hvmax : v ≤ 16777215 * 2 ^ 104 := by
      have h1 : (m : ℚ) ≤ 16777215 * 2 ^ 253 := by exact_mod_cast hmax
      rw [hmv] at h1
      have h2 : (2 ^ 149 : ℚ) * v ≤ 2 ^ 149 * (16777215 * 2 ^ 104) := by
        calc (2 ^ 149 : ℚ) * v = v * 2 ^ 149 := by ring
          _ ≤ 16777215 * 2 ^ 253 := h1
          _ = 2 ^ 149 * (16777215 * 2 ^ 104) := by norm_num
      exact le_of_mul_le_mul_left h2 (by positivity)
    by_cases h84 : L = 84
    · have hT33 : T = 10 ^ 33 := by
        rw [h84] at hTL
        have h2 : (10 : ℚ) ^ 51 * T = 10 ^ 51 * 10 ^ 33 := by
          rw [mul_comm, ← hTL]; norm_num
        exact mul_left_cancel₀ (by positivity) h2
      rw [hT33] at hq1 ⊢
      have h3 : (d : ℚ) < ((340283 : Nat) : ℚ) := by
        push_cast
        have h4 : (10 : ℚ) ^ 33 * d < 10 ^ 33 * 340283 := by
          have : (16777215 : ℚ) * 2 ^ 104 < 3402825 * 10 ^ 32 := by norm_num
          linarith only [this, hq1, hvmax]
        exact lt_of_mul_lt_mul_left h4 (by positivity)
      have h5 : d < 340283 := by exact_mod_cast h3
      have h6 : (d : ℚ) ≤ ((340282 : Nat) : ℚ) := by exact_mod_cast (by omega : d ≤ 340282)
      push_cast at h6
      exact mul_le_mul_of_nonneg_right h6 (by positivity)
    · have hpow : 10 ^ L ≤ 10 ^ 83 := Nat.pow_le_pow_right (by omega) (by omega)
      have hpq : (10 : ℚ) ^ L ≤ 10 ^ 83 := by exact_mod_cast hpow
      rw [hTL] at hpq
      have hT32 : T ≤ 10 ^ 32 := by
        have h2 : (10 : ℚ) ^ 51 * T ≤ 10 ^ 51 * 10 ^ 32 := by
          calc (10 : ℚ) ^ 51 * T = T * 10 ^ 51 := by ring
            _ ≤ 10 ^ 83 := hpq
            _ = 10 ^ 51 * 10 ^ 32 := by norm_num
        exact le_of_mul_le_mul_left h2 (by positivity)
      have hdq : (d : ℚ) ≤ 10 ^ 6 := by exact_mod_cast hd6
      calc (d : ℚ) * T ≤ 10 ^ 6 * 10 ^ 32 :=
            mul_le_mul hdq hT32 hTpos.le (by positivity)
        _ ≤ 340282 * 10 ^ 33 := by norm_num

/-! ## The value the reader scans from a printed magnitude -/

theorem scanFloat_floatText (s : Bool) (d1 d2 d3 : List Char) (dot ex : Bool) (sg : Char)
    (h1 : ∀ c ∈ d1, isDigit c = true) (h2 : ∀ c ∈ d2, isDigit c = true)
    (h3 : ∀ c ∈ d3, isDigit c = true) (hne : d1 ≠ []) (hsg : sg = '+' ∨ sg = '-') :
    (scanFloat ((if s then ['-'] else []) ++ floatText d1 dot d2 ex sg d3)).1 =
      floatState { neg := s } d1 dot d2 ex sg d3 := by
  have hnil : ∀ s' : Scan, scanLoop s' false [] = (s', []) := fun _ => rfl
  have hscan : ∀ st : Scan, st.sci = false → st.dec = false →
      scanLoop st false (floatText d1 dot d2 ex sg d3) =
        (floatState st d1 dot d2 ex sg d3, []) := by
    intro st hs hd
    have := scanLoop_floatText st d1 d2 d3 [] dot ex sg hs hd h1 h2 h3 hne hsg hnil
    rwa [List.append_nil] at this
  cases s with
  | true =>
    have e : scanFloat ((if true then ['-'] else []) ++ floatText d1 dot d2 ex sg d3) =
        scanLoop { neg := true } false (floatText d1 dot d2 ex sg d3) := by
      simp [scanFloat]
    rw [e, hscan _ rfl rfl]
  | false =>
    obtain ⟨c0, cs0, hd1⟩ : ∃ c0 cs0, d1 = c0 :: cs0 := by
      cases d1 with
      | nil => exact absurd rfl hne
      | cons c cs => exact ⟨c, cs, rfl⟩
    have hc0 : isDigit c0 = true := h1 c0 (by simp [hd1])
    have hp : c0 ≠ '+' := by rintro rfl; revert hc0; decide
    have hmn : c0 ≠ '-' := by rintro rfl; revert hc0; decide
    have e : scanFloat ((if false then ['-'] else []) ++ floatText d1 dot d2 ex sg d3) =
        scanLoop {} false (floatText d1 dot d2 ex sg d3) := by
      simp only [Bool.false_eq_true, ↓reduceIte, List.nil_append]
      simp only [floatText, hd1, List.cons_append, scanFloat, hp, hmn, ↓reduceIte]
    rw [e, hscan _ rfl rfl]

theorem floatState_fields (s : Bool) (d1 d2 d3 : List Char) (dot ex : Bool) (sg : Char)
    (hne : d1 ≠ []) (hdot : dot = false → d2 = []) (hex : ex = true → d3 ≠ []) :
    (floatState { neg := s } d1 dot d2 ex sg d3).neg = s ∧
    (floatState { neg := s } d1 dot d2 ex sg d3).hasMant = true ∧
    ((floatState { neg := s } d1 dot d2 ex sg d3).sci = true →
      (floatState { neg := s } d1 dot d2 ex sg d3).hasExp = true) ∧
    (floatState { neg := s } d1 dot d2 ex sg d3).mant = digitsValue (d1 ++ d2) ∧
    (floatState { neg := s } d1 dot d2 ex sg d3).frac = d2.length ∧
    (floatState { neg := s } d1 dot d2 ex sg d3).exp = (if ex then digitsValue d3 else 0) ∧
    (floatState { neg := s } d1 dot d2 ex sg d3).eneg = (ex && decide (sg = '-')) := by
  have f1 := eatDigits_flags { neg := s } d1
  have m1 := eatDigits_mant { neg := s } d1 rfl
  simp only [Nat.zero_mul, Nat.zero_add, Bool.false_eq_true, ↓reduceIte] at m1
  have hm1 : (eatDigits { neg := s } d1).hasMant = true := f1.2.2.2.2.1 rfl hne
  -- after the optional fraction
  obtain ⟨s2, hs2, g1, g2, g3, g4, g5, g6, g7, g8⟩ : ∃ s2 : Scan,
      s2 = (if dot then eatDigits { eatDigits { neg := s } d1 with dec := true } d2
        else eatDigits { neg := s } d1) ∧
      s2.neg = s ∧ s2.hasMant = true ∧ s2.sci = false ∧ s2.hasExp = false ∧
      s2.mant = digitsValue (d1 ++ d2) ∧ s2.frac = d2.length ∧ s2.exp = 0 ∧
      s2.eneg = false := by
    refine ⟨_, rfl, ?_⟩
    cases dot with
    | false =>
      have hd2 := hdot rfl
      subst hd2
      simp only [Bool.false_eq_true, ↓reduceIte, List.append_nil, List.length_nil]
      exact ⟨f1.2.2.1, hm1, f1.1, m1.2.2.2.2, m1.1, m1.2.1, m1.2.2.1, m1.2.2.2.1⟩
    | true =>
      have f2 := eatDigits_flags { eatDigits { neg := s } d1 with dec := true } d2
      have m2 := eatDigits_mant { eatDigits { neg := s } d1 with dec := true } d2 f1.1
      simp only [↓reduceIte] at m2 ⊢
      refine ⟨by rw [f2.2.2.1]; exact f1.2.2.1, f2.2.2.2.1 hm1, by rw [f2.1]; exact f1.1,
        by rw [m2.2.2.2.2]; exact m1.2.2.2.2, ?_, by rw [m2.2.1, m1.2.1]; simp,
        by rw [m2.2.2.1]; exact m1.2.2.1, by rw [m2.2.2.2.1]; exact m1.2.2.2.1⟩
      rw [m2.1, m1.1, digitsValue_append]
  unfold floatState
  simp only
  rw [← hs2]
  cases ex with
  | false =>
    simp only [Bool.false_eq_true, ↓reduceIte, Bool.false_and]
    exact ⟨g1, g2, fun h => by rw [g3] at h; simp at h, g5, g6, g7, g8⟩
  | true =>
    have f3 := eatDigits_flags { s2 with sci := true, eneg := decide (sg = '-') } d3
    have m3 := eatDigits_exp { s2 with sci := true, eneg := decide (sg = '-') } d3 rfl
    simp only [↓reduceIte, Bool.true_and]
    refine ⟨by rw [f3.2.2.1]; exact g1, by rw [m3.2.2.2.2]; exact g2,
      fun _ => f3.2.2.2.2.2 rfl (hex rfl), by rw [m3.2.1]; exact g5,
      by rw [m3.2.2.1]; exact g6, by rw [m3.1]; simp [g7], by rw [m3.2.2.2.1]⟩

theorem convertScan_eq (st : Scan) (hm : st.hasMant = true)
    (he : st.sci = true → st.hasExp = true) :
    convertScan st =
      match Flt.ofRatio binary32 st.neg (scanNum st) (scanDen st) with
      | .fin s m => (.fin s m, true)
      | _ => (.fin st.neg binary32.maxMag, false) := by
  unfold convertScan
  have hc : (!st.hasMant || (st.sci && !st.hasExp)) = false := by
    rw [hm]
    cases hs : st.sci with
    | false => rfl
    | true => rw [he hs]; rfl
  rw [hc]
  rfl

theorem floatState_value (s : Bool) (d1 d2 d3 : List Char) (dot ex : Bool) (sg : Char)
    (hne : d1 ≠ []) (hdot : dot = false → d2 = []) (hex : ex = true → d3 ≠ []) :
    0 < scanDen (floatState { neg := s } d1 dot d2 ex sg d3) ∧
    (scanNum (floatState { neg := s } d1 dot d2 ex sg d3) : ℚ) /
        scanDen (floatState { neg := s } d1 dot d2 ex sg d3) =
      digitsValue (d1 ++ d2) * (10 : ℚ) ^ (textExp ex sg d3 - d2.length) := by
  obtain ⟨_, _, _, g5, g6, g7, g8⟩ := floatState_fields s d1 d2 d3 dot ex sg hne hdot hex
  unfold scanNum scanDen textExp
  rw [g5, g6, g7, g8]
  constructor
  · positivity
  · cases ex with
    | false =>
      simp only [Bool.false_and, Bool.false_eq_true, ↓reduceIte, pow_zero, mul_one,
        Nat.cast_pow, Nat.cast_ofNat, zero_sub, zpow_neg, zpow_natCast]
      rw [div_eq_mul_inv]
    | true =>
      by_cases hs : sg = '-'
      · simp only [hs, Bool.true_and, decide_True, ↓reduceIte, mul_one, Nat.cast_mul,
          Nat.cast_pow, Nat.cast_ofNat]
        rw [show (-(digitsValue d3 : Int) - (d2.length : Int)) =
          -((d2.length + digitsValue d3 : Nat) : Int) by push_cast; ring]
        rw [zpow_neg, zpow_natCast, pow_add, div_eq_mul_inv]
      · simp only [hs, Bool.true_and, decide_False, Bool.false_eq_true, ↓reduceIte, mul_one,
          Nat.cast_mul, Nat.cast_pow, Nat.cast_ofNat]
        rw [zpow_sub₀ (by norm_num), zpow_natCast, zpow_natCast]
        ring

theorem digitsValue_take_strip (ds : List Char) (k : Nat) :
    ∃ z : Nat, (stripZeros (ds.drop k)).length + z = ds.length - k ∧
      digitsValue ds = digitsValue (ds.take k ++ stripZeros (ds.drop k)) * 10 ^ z := by
  obtain ⟨z, hz1, hz2⟩ := digitsValue_stripZeros (ds.drop k)
  refine ⟨z, by rw [← hz1, List.length_drop], ?_⟩
  conv_lhs => rw [← List.take_append_drop k ds]
  rw [digitsValue_append, digitsValue_append, hz2, hz1]
  ring

theorem fmtPos_value (mag : Nat) (h5 : 10 ^ 5 ≤ (sixDigits mag).1)
    (h6 : (sixDigits mag).1 < 10 ^ 6) :
    ∃ (d1 d2 d3 : List Char) (dot ex : Bool) (sg : Char) (z : Nat),
      fmtPos mag = floatText d1 dot d2 ex sg d3 ∧
      (∀ c ∈ d1, isDigit c = true) ∧ (∀ c ∈ d2, isDigit c = true) ∧
      (∀ c ∈ d3, isDigit c = true) ∧ d1 ≠ [] ∧ (sg = '+' ∨ sg = '-') ∧
      (dot = false → d2 = []) ∧ (ex = true → d3 ≠ []) ∧
      (sixDigits mag).1 = digitsValue (d1 ++ d2) * 10 ^ z ∧
      textExp ex sg d3 - d2.length = (sixDigits mag).2 - 5 + z := by
  have hd := printNat_isDigit (sixDigits mag).1
  obtain ⟨c0, cs0, hc0, _⟩ := printNat_head_isDigit (sixDigits mag).1
  have hlen := printNat_length_six _ h5 h6
  have hval := digitsValue_printNat (sixDigits mag).1
  have htake : ∀ k, ∀ c ∈ (printNat (sixDigits mag).1).take k, isDigit c = true :=
    fun k c hc => hd c (List.mem_of_mem_take hc)
  have hdrop : ∀ k, ∀ c ∈ stripZeros ((printNat (sixDigits mag).1).drop k), isDigit c = true :=
    fun k => stripZeros_digits _ (fun c hc => hd c (List.mem_of_mem_drop hc))
  unfold fmtPos
  simp only
  generalize (sixDigits mag).2 = x at *
  generalize hds : printNat (sixDigits mag).1 = ds at *
  generalize (sixDigits mag).1 = dd at *
  split
  · rename_i hx
    obtain ⟨z, hz1, hz2⟩ := digitsValue_take_strip ds (x.toNat + 1)
    refine ⟨ds.take (x.toNat + 1), stripZeros (ds.drop (x.toNat + 1)), [],
      !decide (stripZeros (ds.drop (x.toNat + 1)) = []), false, '+', z, ?_, htake _, hdrop _,
      by simp, by simp [hc0], Or.inl rfl, by simp, by simp, by rw [← hval, hz2], ?_⟩
    · unfold floatText
      by_cases hf : stripZeros (ds.drop (x.toNat + 1)) = []
      · simp [hf]
      · simp [hf]
    · simp only [textExp, Bool.false_eq_true, ↓reduceIte]
      omega
  · split
    · rename_i hx
      obtain ⟨z, hz1, hz2⟩ := digitsValue_stripZeros ds
      refine ⟨['0'], List.replicate ((-x).toNat - 1) '0' ++ stripZeros ds, [], true, false,
        '+', z, ?_, ?_, ?_, by simp, by simp, Or.inl rfl, by simp, by simp, ?_, ?_⟩
      · simp [floatText]
      · intro c hc; simp only [List.mem_singleton] at hc; subst hc; decide
      · intro c hc
        simp only [List.mem_append, List.mem_replicate] at hc
        rcases hc with ⟨_, rfl⟩ | hc
        · decide
        · exact stripZeros_digits _ hd c hc
      · rw [← hval, hz2, List.singleton_append, digitsValue_cons, digitsValue_append,
          digitsValue_replicate]
        simp [digitVal]
      · simp only [textExp, Bool.false_eq_true, ↓reduceIte, List.length_append,
          List.length_replicate]
        omega
    · rename_i hx1 hx2
      obtain ⟨z, hz1, hz2⟩ := digitsValue_take_strip ds 1
      refine ⟨ds.take 1, stripZeros (ds.drop 1),
        (if (printNat x.natAbs).length < 2 then '0' :: printNat x.natAbs
          else printNat x.natAbs),
        !decide (stripZeros (ds.drop 1) = []), true, (if x < 0 then '-' else '+'), z,
        ?_, htake _, hdrop _, ?_, by simp [hc0], ?_, by simp, ?_, by rw [← hval, hz2], ?_⟩
      · unfold floatText
        by_cases hf : stripZeros (ds.drop 1) = []
        · simp [hf]
        · simp [hf]
      · intro c hc
        split at hc
        · simp only [List.mem_cons] at hc
          rcases hc with rfl | hc
          · decide
          · exact printNat_isDigit _ c hc
        · exact printNat_isDigit _ c hc
      · split
        · exact Or.inr rfl
        · exact Or.inl rfl
      · intro _
        split
        · simp
        · exact printNat_ne_nil _
      · have hd3 : digitsValue (if (printNat x.natAbs).length < 2 then '0' :: printNat x.natAbs
            else printNat x.natAbs) = x.natAbs := by
          split
          · rw [digitsValue_cons, digitsValue_printNat]
            simp [digitVal]
          · exact digitsValue_printNat _
        simp only [textExp, ↓reduceIte, hd3]
        by_cases hneg : x < 0
        · simp only [hneg, ↓reduceIte]
          omega
        · simp only [hneg, ↓reduceIte, show ¬ ('+' = '-') by decide]
          omega

/-! ## Reading a printed coordinate back -/

theorem roundtrip_arith (m rm num den e : Nat) (w : ℚ) (hden : 0 < den)
    (hw : (num : ℚ) / den = w)
    (h1 : 2 * (rm * den) ≤ 2 * (num * 2 ^ 149) + den * e)
    (h2 : 2 * (num * 2 ^ 149) ≤ 2 * (rm * den) + den * e)
    (he : e = 1 ∨ e * 2 ^ 24 * den ≤ 2 * (num * 2 ^ 149))
    (hclose : |w - (m : ℚ) / 2 ^ 149| * (2 * 10 ^ 5) ≤ (m : ℚ) / 2 ^ 149)
    (hmax : w ≤ 340282 * 10 ^ 33) :
    rm ≤ 16777215 * 2 ^ 253 ∧ 100000 * ((rm : Int) - m).natAbs ≤ m + 50000 := by
  have hdq : (0 : ℚ) < den := by exact_mod_cast hden
  have hnum : (num : ℚ) = w * den := by rw [← hw]; field_simp
  have hw0 : 0 ≤ w := by rw [← hw]; positivity
  obtain ⟨q, hq⟩ : ∃ q : ℚ, q = w * 2 ^ 149 := ⟨_, rfl⟩
  have hq0 : 0 ≤ q := by rw [hq]; exact mul_nonneg hw0 (by positivity)
  have ha : 2 * (rm : ℚ) ≤ 2 * q + e := by
    have : (2 : ℚ) * (rm * den) ≤ 2 * (num * 2 ^ 149) + den * e := by exact_mod_cast h1
    rw [hnum] at this
    have h : (den : ℚ) * (2 * rm) ≤ den * (2 * q + e) := by
      calc (den : ℚ) * (2 * rm) = 2 * (rm * den) := by ring
        _ ≤ 2 * (w * den * 2 ^ 149) + den * e := this
        _ = den * (2 * q + e) := by rw [hq]; ring
    exact le_of_mul_le_mul_left h hdq
  have hb : 2 * q ≤ 2 * (rm : ℚ) + e := by
    have : (2 : ℚ) * (num * 2 ^ 149) ≤ 2 * (rm * den) + den * e := by exact_mod_cast h2
    rw [hnum] at this
    have h : (den : ℚ) * (2 * q) ≤ den * (2 * rm + e) := by
      calc (den : ℚ) * (2 * q) = 2 * (w * den * 2 ^ 149) := by rw [hq]; ring
        _ ≤ 2 * (rm * den) + den * e := this
        _ = den * (2 * rm + e) := by ring
    exact le_of_mul_le_mul_left h hdq
  have hc : (e : ℚ) * 2 ^ 24 ≤ 2 ^ 24 + 2 * q := by
    rcases he with he | he
    · rw [he]; push_cast; linarith
    · have : (e : ℚ) * 2 ^ 24 * den ≤ 2 * (num * 2 ^ 149) := by exact_mod_cast he
      rw [hnum] at this
      have h : (den : ℚ) * (e * 2 ^ 24) ≤ den * (2 * q) := by
        calc (den : ℚ) * (e * 2 ^ 24) = e * 2 ^ 24 * den := by ring
          _ ≤ 2 * (w * den * 2 ^ 149) := this
          _ = den * (2 * q) := by rw [hq]; ring
      have h3 := le_of_mul_le_mul_left h hdq
      have : (0 : ℚ) ≤ 2 ^ 24 := by positivity
      linarith
  obtain ⟨hd, hd2⟩ : 2 * 10 ^ 5 * (q - m) ≤ (m : ℚ) ∧ 2 * 10 ^ 5 * ((m : ℚ) - q) ≤ m := by
    have hab := abs_le.1 (le_refl |w - (m : ℚ) / 2 ^ 149|)
    have hP : (0 : ℚ) < 2 ^ 149 := by positivity
    have e1 : q - m = (w - (m : ℚ) / 2 ^ 149) * 2 ^ 149 := by rw [hq]; field_simp
    have e2 : (m : ℚ) = (m : ℚ) / 2 ^ 149 * 2 ^ 149 := by field_simp
    have hm1 : |w - (m : ℚ) / 2 ^ 149| * (2 * 10 ^ 5) * 2 ^ 149 ≤ (m : ℚ) / 2 ^ 149 * 2 ^ 149 :=
      mul_le_mul_of_nonneg_right hclose hP.le
    rw [← e2] at hm1
    have hx1 : (w - (m : ℚ) / 2 ^ 149) * (2 * 10 ^ 5) * 2 ^ 149 ≤
        |w - (m : ℚ) / 2 ^ 149| * (2 * 10 ^ 5) * 2 ^ 149 :=
      mul_le_mul_of_nonneg_right (mul_le_mul_of_nonneg_right hab.2 (by positivity)) hP.le
    have hx2 : -(w - (m : ℚ) / 2 ^ 149) * (2 * 10 ^ 5) * 2 ^ 149 ≤
        |w - (m : ℚ) / 2 ^ 149| * (2 * 10 ^ 5) * 2 ^ 149 :=
      mul_le_mul_of_nonneg_right (mul_le_mul_of_nonneg_right (by linarith [hab.1])
        (by positivity)) hP.le
    constructor
    · calc 2 * 10 ^ 5 * (q - m) = (w - (m : ℚ) / 2 ^ 149) * (2 * 10 ^ 5) * 2 ^ 149 := by
            rw [e1]; ring
        _ ≤ _ := hx1
        _ ≤ m := hm1
    · calc 2 * 10 ^ 5 * ((m : ℚ) - q) = -(w - (m : ℚ) / 2 ^ 149) * (2 * 10 ^ 5) * 2 ^ 149 := by
            rw [show (m : ℚ) - q = -(q - m) by ring, e1]; ring
        _ ≤ _ := hx2
        _ ≤ m := hm1
  have hf : q ≤ 340282 * 10 ^ 33 * 2 ^ 149 := by
    rw [hq]; exact mul_le_mul_of_nonneg_right hmax (by positivity)
  have hm0 : (0 : ℚ) ≤ m := by positivity
  constructor
  · have : (rm : ℚ) ≤ 16777215 * 2 ^ 253 := by
      norm_num at ha hb hc hf
      linarith
    exact_mod_cast this
  · have g1 : ((100000 * ((rm : Int) - m) : Int) : ℚ) ≤ ((m + 50000 : Int) : ℚ) := by
      push_cast
      norm_num at ha hb hc hd hd2
      linarith
    have g2 : ((100000 * ((m : Int) - rm) : Int) : ℚ) ≤ ((m + 50000 : Int) : ℚ) := by
      push_cast
      norm_num at ha hb hc hd hd2
      linarith
    have g1z : 100000 * ((rm : Int) - m) ≤ m + 50000 := by exact_mod_cast g1
    have g2z : 100000 * ((m : Int) - rm) ≤ m + 50000 := by exact_mod_cast g2
    omega

theorem reread_close (s : Bool) (m : Nat) (hm : m ≤ binary32.maxMag) :
    ∃ n, reread (.fin s m) = (.fin s n, true) ∧ n ≤ binary32.maxMag ∧
      100000 * ((n : Int) - (m : Int)).natAbs ≤ m + 50000 := by
  by_cases h0 : m = 0
  · subst h0
    refine ⟨0, ?_, Nat.zero_le _, by decide⟩
    cases s
    · decide!
    · decide!
  · have hm0 : 0 < m := Nat.pos_of_ne_zero h0
    obtain ⟨h5, h6, hclose, hmaxv⟩ := sixDigits_value m hm0
    obtain ⟨d1, d2, d3, dot, ex, sg, z, hfmt, hd1, hd2, hd3, hne, hsg, hdot, hex, hD, hX⟩ :=
      fmtPos_value m h5 h6
    have hstate : (scanFloat (fmtFloat (.fin s m))).1 =
        floatState { neg := s } d1 dot d2 ex sg d3 := by
      have := scanFloat_floatText s d1 d2 d3 dot ex sg hd1 hd2 hd3 hne hsg
      rw [← hfmt] at this
      rw [← this]
      simp only [fmtFloat, h0, ↓reduceIte]
    obtain ⟨g1, g2, g3, -⟩ := floatState_fields s d1 d2 d3 dot ex sg hne hdot hex
    obtain ⟨hden, hval⟩ := floatState_value s d1 d2 d3 dot ex sg hne hdot hex
    generalize floatState { neg := s } d1 dot d2 ex sg d3 = st at hstate g1 g2 g3 hden hval
    have hconv := convertScan_eq st g2 g3
    obtain ⟨e, _, e1, e2, e3⟩ := roundMag_error binary32 (scanNum st * 2 ^ 149) (scanDen st) hden
    have hw : (scanNum st : ℚ) / scanDen st =
        ((sixDigits m).1 : ℚ) * (10 : ℚ) ^ ((sixDigits m).2 - 5) := by
      rw [hval, hX, hD, zpow_add₀ (by norm_num), zpow_natCast]
      push_cast
      ring
    obtain ⟨r1, r2⟩ := roundtrip_arith m (roundMag binary32 (scanNum st * 2 ^ 149) (scanDen st))
      (scanNum st) (scanDen st) e _ hden hw e1 e2 e3 hclose (hmaxv hm)
    rw [← maxMag_binary32] at r1
    refine ⟨roundMag binary32 (scanNum st * 2 ^ 149) (scanDen st), ?_, r1, r2⟩
    have hof : Flt.ofRatio binary32 st.neg (scanNum st) (scanDen st) =
        .fin s (roundMag binary32 (scanNum st * 2 ^ 149) (scanDen st)) := by
      unfold Flt.ofRatio Flt.round
      rw [show binary32.uexp = 149 from rfl, if_neg (not_lt.2 r1), g1]
    unfold reread
    rw [hstate, hconv, hof]

theorem reread_specClose (x : F32) (h : specFinite x = true) :
    (reread x).2 = true ∧ specFinite (reread x).1 = true ∧ specClose x (reread x).1 = true := by
  rcases x with _ | s | ⟨s, m⟩
  · exact absurd h (by decide)
  · exact absurd h (by simp [specFinite])
  · have hm : m ≤ binary32.maxMag := by simpa [specFinite] using h
    obtain ⟨n, hn, hn1, hn2⟩ := reread_close s m hm
    rw [hn]
    simp only [specFinite, specClose, decide_eq_true_eq, Bool.and_eq_true, beq_self_eq_true,
      true_and]
    exact ⟨hn1, hn2⟩

theorem rereadVec3_specClose (v : Vec3) (h : specFiniteVec v = true) :
    rereadOk v = true ∧ specFiniteVec (rereadVec3 v) = true ∧
      specCloseVec v (rereadVec3 v) = true := by
  simp only [specFiniteVec, Bool.and_eq_true] at h
  obtain ⟨⟨hx, hy⟩, hz⟩ := h
  obtain ⟨x1, x2, x3⟩ := reread_specClose v.x hx
  obtain ⟨y1, y2, y3⟩ := reread_specClose v.y hy
  obtain ⟨z1, z2, z3⟩ := reread_specClose v.z hz
  simp only [rereadOk, specFiniteVec, specCloseVec, rereadVec3, x1, x2, x3, y1, y2, y3, z1, z2,
    z3, Bool.and_self]
  exact ⟨trivial, trivial, trivial⟩

/-! ## The round trip through the PLY text -/

theorem forall₂_map_of_forall {α β : Type} (R : α → β → Prop) (f : α → β) (l : List α)
    (h : ∀ a ∈ l, R a (f a)) : List.Forall₂ R l (l.map f) := by
  induction l with
  | nil => exact List.Forall₂.nil
  | cons a l ih =>
    exact List.Forall₂.cons (h a (by simp)) (ih (fun b hb => h b (by simp [hb])))

/-- C7 fails on the code: the vertex `(1234567, 0, 0)` is written as
`1.23457e+06 0 0` and read back as `(1234570, 0, 0)`; and what `loadPLY`
returns is a list of vertices only: the face `[0, 0, 0]` is not read. -/
theorem roundtrip_counterexample :
    loadPLY zeroVec
        (writePly ⟨[⟨F32.ofNat 1234567, F32.ofNat 0, F32.ofNat 0⟩], [⟨[0, 0, 0]⟩]⟩) [] =
      .ok [⟨F32.ofNat 1234570, F32.ofNat 0, F32.ofNat 0⟩] ∧
    F32.ofNat 1234570 ≠ F32.ofNat 1234567 := by
  decide!

/-- C7 as amended.  For a model whose number of vertices fits `int`, reading
the writer's text back with `loadPLY`, from an empty vertex list, succeeds and
yields exactly as many vertices as the model has.  When moreover every
coordinate of the model is a finite `float`, the vertices come back in their
order, and each coordinate read back is a finite `float` with the sign of the
model's coordinate `x` that differs from it by at most `|x| / 10 ^ 5` plus half
of the smallest positive `float`: the six significant digits of the text are
kept, the bits beyond them are not. -/
theorem loadPLY_writePly (junk : Vec3) (m : Mesh)
    (h : (m.vertices.length : Int) ≤ INT_MAX) :
    (∃ vs, loadPLY junk (writePly m) [] = .ok vs ∧ vs.length = m.vertices.length) ∧
    ((∀ v ∈ m.vertices, specFiniteVec v = true) →
      ∃ vs, loadPLY junk (writePly m) [] = .ok vs ∧
        List.Forall₂ (fun u v => specFiniteVec v = true ∧ specCloseVec u v = true)
          m.vertices vs) := by
  have hload : loadPLY junk (writePly m) [] =
      .ok (readVertices junk m.vertices.length
        ⟨unlines (m.vertices.map specVertexLine ++ m.faces.map specFaceLine), false⟩ []) := by
    simp only [loadPLY, headerLoop_writePly m h]
    rfl
  refine ⟨⟨_, hload, ?_⟩, ?_⟩
  · rw [readVertices_length]
    simp
  · intro hv
    refine ⟨m.vertices.map rereadVec3, ?_, ?_⟩
    · rw [hload, unlines_append, ← writeVertices_eq]
      have := readVertices_written junk m.vertices [] (unlines (m.faces.map specFaceLine)) []
        (by simp) (fun v hmem => (rereadVec3_specClose v (hv v hmem)).1)
      simpa using this
    · exact forall₂_map_of_forall _ _ _ (fun v hmem => (rereadVec3_specClose v (hv v hmem)).2)

/-- Witness for the amended C7: a model with two vertices and one face; the
coordinate `1234567` of the first vertex does not come back bit for bit. -/
theorem loadPLY_writePly_witness :
    ((2 : Nat) : Int) ≤ INT_MAX ∧
    (∀ v ∈ [(⟨F32.ofNat 1234567, Flt.ofRatio binary32 true 5 2,
        Flt.ofRatio binary32 false 1 10⟩ : Vec3), zeroVec], specFiniteVec v = true) ∧
    ∃ vs, loadPLY zeroVec
        (writePly ⟨[⟨F32.ofNat 1234567, Flt.ofRatio binary32 true 5 2,
          Flt.ofRatio binary32 false 1 10⟩, zeroVec], [⟨[0, 1, 1]⟩]⟩) [] = .ok vs ∧
      List.Forall₂ (fun u v => specFiniteVec v = true ∧ specCloseVec u v = true)
        [(⟨F32.ofNat 1234567, Flt.ofRatio binary32 true 5 2,
          Flt.ofRatio binary32 false 1 10⟩ : Vec3), zeroVec] vs :=
  ⟨by decide, by decide!,
   (loadPLY_writePly zeroVec
      ⟨[⟨F32.ofNat 1234567, Flt.ofRatio binary32 true 5 2,
        Flt.ofRatio binary32 false 1 10⟩, zeroVec], [⟨[0, 1, 1]⟩]⟩
      (by decide)).2 (by decide!)⟩

end PlyPicker
